import Mathlib

set_option linter.unusedSectionVars false

/-!
Verification of the in-memory data-structure core of the `ragnarok` library.

Each Go component relevant to the checked claims is shallowly embedded:
pure functions become Lean functions, stateful methods become explicit
state-passing functions, machine integers become `Nat`/`Int` with explicit
`% 2 ^ w` where overflow matters, and code that can dereference a nil
pointer returns an `Option`.  Randomness (skip-list levels) is supplied as
an explicit oracle argument.  Mutating Go methods on a receiver become
functions `State → args → State` (or `State → args → result × State`).
-/

/-! ## SafeMap (src/safemap/safemap.go)

`SafeMap[K,V]` wraps Go's `sync.Map`.  Sequentially, a `sync.Map` is a
partial map from keys to values; `Load`, `Store`, `Swap` have the standard
map semantics.  Go's "zero value of V" is modelled by `default : V` from an
`Inhabited` instance.  The map itself is modelled as `K → Option V`.
-/

namespace SafeMapM

variable {K : Type} {V : Type} [DecidableEq K] [Inhabited V]

/-- Model of `SafeMap[K, V]`: the underlying `sync.Map` contents. -/
def SafeMap (K V : Type) : Type := K → Option V

/-- Model of `SafeMap.Load`: returns the stored value and `true`, or the zero
value of `V` and `false` when the key is absent. -/
def Load (m : SafeMap K V) (key : K) : V × Bool :=
  match m key with
  | none => (default, false)
  | some v => (v, true)

/-- Model of `SafeMap.Store`. -/
def Store (m : SafeMap K V) (key : K) (value : V) : SafeMap K V :=
  fun k => if k = key then some value else m k

/-- Model of `SafeMap.Swap`: atomically replaces the value for `key` and
returns the previous value with `loaded`; the zero value and `false` when the
key was absent.  Returns the updated map as well (the Go method mutates the
receiver). -/
def Swap (m : SafeMap K V) (key : K) (value : V) : (V × Bool) × SafeMap K V :=
  match m key with
  | none => ((default, false), Store m key value)
  | some prev => ((prev, true), Store m key value)

end SafeMapM

/-! ## Bloom filter (src/unnamed/part_018, package bloom_filter)

`BloomFilter` keeps a bit array of size `m`, and `hashFuncNum = k` stateful
FNV-64a hashers (`fnv.New64a()`, all with the same seed).  `Add` writes the
item into each hasher, sets the bit at `Sum(nil)[0] % uint8(m)`, and resets
the hasher.  `Contains` does the same check but — crucially — returns early
on the first unset bit WITHOUT resetting that hasher, leaving its internal
state dirty for the next call.

Model: a hasher's state is its current 64-bit FNV accumulator (a `Nat`
less than `2 ^ 64`); `Reset` restores the FNV-64a offset basis.
`h.Sum(nil)[0]` is the most significant byte of the big-endian sum, i.e.
`state >>> 56`.  `uint8(this.m)` is `m % 256`.  The bit array is modelled
as a `List Nat` of the set positions.  The float computation in
`NewBloomFilter` is not modelled; `new` takes the resulting sizes `m` and
`k` directly (for `n = 10000`, `p = 0.01` — the parameters of the
repository's own test — the Go code computes `m = 95850`, `k = 6`).
-/

namespace BloomM

/-- FNV-64a offset basis (Go `hash/fnv`, `New64a`). -/
def fnvBasis : Nat := 0xcbf29ce484222325

/-- FNV-64a prime. -/
def fnvPrime : Nat := 0x100000001b3

/-- One byte step of FNV-64a: xor the byte in, multiply by the prime mod 2^64. -/
def fnvStep (h b : Nat) : Nat := ((h ^^^ b) * fnvPrime) % (2 ^ 64)

/-- Model of `hash.Hash.Write`: feed the item's bytes into the accumulator. -/
def fnvWrite (h : Nat) (item : List Nat) : Nat := item.foldl fnvStep h

/-- Model of `BloomFilter`: the `uint8(m)` modulus actually used by the index
computation, the set of positions whose bit is `true`, and the per-hasher
FNV accumulators (length `hashFuncNum`). -/
structure BloomFilter where
  m8 : Nat
  bitset : List Nat
  hashFuncs : List Nat
deriving Repr, DecidableEq

/-- Model of `NewBloomFilter` after the float sizing: bit array all false,
`k` fresh FNV-64a hashers. -/
def new (m k : Nat) : BloomFilter :=
  { m8 := m % 256, bitset := [], hashFuncs := List.replicate k fnvBasis }

/-- Index used by `Add`/`Contains`: `h.Sum(nil)[0] % uint8(m)` — the top byte
of the accumulator, reduced mod `uint8(m)`. -/
def bitIndex (m8 h : Nat) : Nat := (h >>> 56) % m8

/-- Model of `BloomFilter.Add`: each hasher writes the item, the derived bit
is set, and the hasher is reset. -/
def Add (bf : BloomFilter) (item : List Nat) : BloomFilter :=
  { bf with
    bitset := bf.hashFuncs.foldl
      (fun bs h => bitIndex bf.m8 (fnvWrite h item) :: bs) bf.bitset,
    hashFuncs := bf.hashFuncs.map (fun _ => fnvBasis) }

/-- Helper for `Contains`: walk the hashers in order; on the first unset bit
return `false`, keeping that hasher's written (un-reset) state and leaving
the later hashers untouched; otherwise reset each hasher and continue. -/
def containsLoop (m8 : Nat) (bitset : List Nat) (item : List Nat) :
    List Nat → Bool × List Nat
  | [] => (true, [])
  | h :: rest =>
    let h' := fnvWrite h item
    if bitset.contains (bitIndex m8 h') then
      let (ok, rest') := containsLoop m8 bitset item rest
      (ok, fnvBasis :: rest')
    else
      (false, h' :: rest)

/-- Model of `BloomFilter.Contains`: returns the membership answer and the
filter as left behind by the call (the early `return false` path skips
`h.Reset()`). -/
def Contains (bf : BloomFilter) (item : List Nat) : Bool × BloomFilter :=
  let (ok, hs) := containsLoop bf.m8 bf.bitset item bf.hashFuncs
  (ok, { bf with hashFuncs := hs })

/-- Byte string "aaa" (the item that is added and then looked up). -/
def itemAAA : List Nat := [97, 97, 97]

/-- Byte string "baa" (an absent item whose failed lookup dirties hasher 0). -/
def itemBAA : List Nat := [98, 97, 97]

/-- The filter state of the C1 failing run: on a `NewBloomFilter(10000, 0.01)`
filter (`m = 95850`, `k = 6`), run `Add("aaa")`, then `Contains("baa")` —
which returns `false` and leaves hasher 0 un-reset — then query
`Contains("aaa")`. -/
def c1Run : Bool :=
  let bf1 := Add (new 95850 6) itemAAA
  let bf2 := (Contains bf1 itemBAA).2
  (Contains bf2 itemAAA).1

end BloomM

/-! ## UUIDv7 (src/util/uuidv7.go)

`GenerateUUIDv7` builds a 16-byte identifier: `PutUint64(uuid[0:8],
timestamp<<16)` big-endian, then 10 random bytes are copied into
`uuid[6:]`, the version nibble is forced to `7` and the variant bits to
`10`.  The string form is `fmt.Sprintf("%08x-%04x-%04x-%04x-%012x", ...)`
over the big-endian group values — lowercase, zero-padded hex.

Model: the timestamp and the random bytes are explicit inputs (the Go code
reads the clock and `crypto/rand`); the string is modelled as its character
list, and lexicographic comparison as `List.Lex (· < ·)` on characters. -/

namespace UuidM

/-- Lowercase hex digit for `d < 16` (as printed by `fmt` `%x`). -/
def hexDigit (d : Nat) : Char :=
  if d < 10 then Char.ofNat (48 + d) else Char.ofNat (87 + d)

/-- Zero-padded fixed-width lowercase hex rendering of `n`, width `w` —
the behaviour of `fmt.Sprintf` with a `%0wx` verb for values below `16^w`. -/
def padHex : Nat → Nat → List Char
  | 0, _ => []
  | w + 1, n => padHex w (n / 16) ++ [hexDigit (n % 16)]

/-- Byte `i` (big-endian, `0 ≤ i ≤ 7`) of the `PutUint64` value
`timestamp << 16` (reduced mod `2 ^ 64` as the Go shift is on `uint64`). -/
def tsByte (ts i : Nat) : Nat := (ts * 65536 % 2 ^ 64) / 2 ^ (8 * (7 - i)) % 256

/-- The 16 bytes of the generated UUID, from the millisecond timestamp and
the 10 random bytes (`rb.getD i 0` mirrors Go's `copy`: bytes not provided
keep their zero value). -/
def uuidBytes (ts : Nat) (rb : List Nat) : List Nat :=
  [ tsByte ts 0, tsByte ts 1, tsByte ts 2, tsByte ts 3, tsByte ts 4, tsByte ts 5,
    (rb.getD 0 0) % 256 &&& 0x0f ||| 0x70,
    (rb.getD 1 0) % 256,
    (rb.getD 2 0) % 256 &&& 0x3f ||| 0x80,
    (rb.getD 3 0) % 256,
    (rb.getD 4 0) % 256, (rb.getD 5 0) % 256, (rb.getD 6 0) % 256,
    (rb.getD 7 0) % 256, (rb.getD 8 0) % 256, (rb.getD 9 0) % 256 ]

/-- Big-endian value of a byte list (used for the `fmt` group values). -/
def beVal (bs : List Nat) : Nat := bs.foldl (fun acc b => acc * 256 + b) 0

/-- Character list of `GenerateUUIDv7`'s string form:
`%08x-%04x-%04x-%04x-%012x` over the five big-endian groups. -/
def GenerateUUIDv7Chars (ts : Nat) (rb : List Nat) : List Char :=
  let u := uuidBytes ts rb
  padHex 8 (beVal (u.take 4)) ++ ['-'] ++
    padHex 4 (beVal ((u.drop 4).take 2)) ++ ['-'] ++
    padHex 4 (beVal ((u.drop 6).take 2)) ++ ['-'] ++
    padHex 4 (beVal ((u.drop 8).take 2)) ++ ['-'] ++
    padHex 12 (beVal (u.drop 10))

end UuidM

/-! ## Ordered set / skip list (src/zset/zset.go)

A `zskiplist` node owns an element, a float score, and one `(forward, span)`
slot per level; the header owns 32 such slots.  The model keeps the level-0
chain as a `List` of nodes in list order and stores each node's `span`
array explicitly (`spans : List Int`, one entry per level of the node; Go
spans are `int`).  Forward pointers are not stored: the Go code establishes
and maintains exactly the derived structure "the level-`l` successor of a
node is the next node whose level count exceeds `l`", so `fwdN` computes
them from the heights.  Scores are modelled as `Int` (every score in the
checked runs is integral, and `fmt`'s `%.2f` prints such a score as
`N.00`); element comparison `>` on Go strings is byte-lexicographic, which
on the ASCII elements used here coincides with Lean's `String` order.
`randomLevel()` is an explicit oracle argument.  Positions: the header is
position `0` and the `j`-th list node is position `j + 1`; `zsl.length` is
the derived list length.  A nil-pointer dereference is modelled by an
`Option` result.
-/

namespace ZSetM

/-- Model of `zskiplistNode`: element, score, and the `span` of each of the
node's levels (`spans.length` is the node's level count). -/
structure ZNode where
  ele : String
  score : Int
  spans : List Int
deriving Repr, DecidableEq

/-- Model of `ZSet` (dictionary plus `zskiplist`): the header's 32 span
slots, the current list level, the level-0 chain, and the `ele → score`
dictionary. -/
structure ZSet where
  headerSpans : List Int
  level : Nat
  nodes : List ZNode
  dict : List (String × Int)
deriving Repr, DecidableEq

/-- Dictionary lookup (`this.dict[ele]`). -/
def dictGet (d : List (String × Int)) (ele : String) : Option Int :=
  (d.find? (fun p => p.1 == ele)).map (·.2)

/-- Dictionary store (`this.dict[ele] = score`). -/
def dictSet (d : List (String × Int)) (ele : String) (score : Int) :
    List (String × Int) :=
  match d with
  | [] => [(ele, score)]
  | p :: rest => if p.1 == ele then (ele, score) :: rest else p :: dictSet rest ele score

/-- Dictionary delete (`delete(this.dict, ele)`). -/
def dictDel (d : List (String × Int)) (ele : String) : List (String × Int) :=
  d.filter (fun p => p.1 != ele)

/-- Model of `newSkipList` (inside `NewZSet`): empty chain, level `0`,
all 32 header spans set to `1`. -/
def NewZSet : ZSet :=
  { headerSpans := List.replicate 32 1, level := 0, nodes := [], dict := [] }

/-- Stored span of the level-`l` slot of the node at position `p`
(position `0` is the header). -/
def spanAt (s : ZSet) (p l : Nat) : Int :=
  if p = 0 then s.headerSpans.getD l 0
  else match s.nodes.get? (p - 1) with
    | some n => n.spans.getD l 0
    | none => 0

/-- Forward search: first node after `rest`-head position `q` (inclusive)
whose level count exceeds `l`. -/
def fwdAux (l : Nat) : List ZNode → Nat → Option (Nat × ZNode)
  | [], _ => none
  | n :: rest, q => if l < n.spans.length then some (q, n) else fwdAux l rest (q + 1)

/-- Derived level-`l` forward pointer of the node at position `p`: the next
node participating in level `l`, with its position. -/
def fwdN (s : ZSet) (p l : Nat) : Option (Nat × ZNode) :=
  fwdAux l (s.nodes.drop p) (p + 1)

/-- Overwrite the level-`l` span slot of the node at position `p`. -/
def setSpan (s : ZSet) (p l : Nat) (v : Int) : ZSet :=
  if p = 0 then { s with headerSpans := s.headerSpans.set l v }
  else
    match s.nodes.get? (p - 1) with
    | some n => { s with nodes := s.nodes.set (p - 1) { n with spans := n.spans.set l v } }
    | none => s

/-- Lexicographic character comparison of the underlying character lists:
Go compares strings byte-wise, which on the ASCII elements used in these
runs coincides with code-point order. -/
def ltChars : List Char → List Char → Bool
  | [], [] => false
  | [], _ :: _ => true
  | _ :: _, [] => false
  | c1 :: r1, c2 :: r2 =>
    if c1.toNat < c2.toNat then true
    else if c2.toNat < c1.toNat then false
    else ltChars r1 r2

/-- Go string `<`. -/
def goStrLt (a b : String) : Bool := ltChars a.data b.data

/-- The `ZAdd`/`ZRem` scan predicate: keep advancing while the forward node
sorts strictly before the `(score, ele)` pair, i.e. Go's
`nxt.score > score || (nxt.score == score && nxt.ele > ele)`. -/
def scanPred (score : Int) (ele : String) (n : ZNode) : Bool :=
  (score < n.score) || (n.score == score && goStrLt ele n.ele)

/-- One level of the top-down scan: starting at position `p` (whose level-`l`
span is read through `spanAt`), walk the remaining chain `rest` (head
position `q`); nodes not participating in level `l` are passed over, a
participating node satisfying `pred` becomes the new current position and
its span is added to the accumulated rank, and the first participating node
failing `pred` stops the level.  Returns the level's final position
(`updatePosNodes[i]`) and accumulated rank (`rank[i]`). -/
def advanceLevel (s : ZSet) (pred : ZNode → Bool) (l : Nat) :
    List ZNode → Nat → Nat → Int → Nat × Int
  | [], _, p, racc => (p, racc)
  | n :: rest, q, p, racc =>
    if l < n.spans.length then
      if pred n then advanceLevel s pred l rest (q + 1) q (racc + spanAt s p l)
      else (p, racc)
    else advanceLevel s pred l rest (q + 1) p racc

/-- The scan of `ZAdd`/`ZRem` over levels `i-1, …, 0`: produces the
`(updatePosNodes[i], rank[i])` pairs, topmost level first. -/
def updRanks (s : ZSet) (pred : ZNode → Bool) : Nat → Nat → Int → List (Nat × Int)
  | 0, _, _ => []
  | i + 1, p, racc =>
    let pr := advanceLevel s pred i (s.nodes.drop p) (p + 1) p racc
    pr :: updRanks s pred i pr.1 pr.2

/-- Grow the header spans for the levels `[oldLevel, newLevel)` freshly
claimed by a taller node: Go sets `updatePosNodes[i].level[i].span =
this.skiplist.length + 1` there (the header being the update node). -/
def growHeader (hs : List Int) (oldLevel newLevel : Nat) (v : Int) : List Int :=
  (List.range 32).map
    (fun i => if oldLevel ≤ i ∧ i < newLevel then v else hs.getD i 0)

/-- The splice phase of `ZAdd` (after the scan): update the predecessor
spans, build the new node's spans, and link it in after `updatePosNodes[0]`.
`upd`/`rnk` give `updatePosNodes[i]` and `rank[i]` (already covering the
freshly grown levels, where they are the header and rank `0`). -/
def splice (s : ZSet) (ele : String) (score : Int) (curLevel : Nat)
    (upd : Nat → Nat) (rnk : Nat → Int) : ZSet :=
  let rank0 := rnk 0
  let xspans := (List.range curLevel).map
    (fun i => spanAt s (upd i) i - (rank0 - rnk i))
  let s1 := (List.range curLevel).foldl
    (fun acc i => setSpan acc (upd i) i ((rank0 - rnk i) + 1)) s
  let s2 := (List.range (s.level - curLevel)).foldl
    (fun acc j => setSpan acc (upd (curLevel + j)) (curLevel + j)
      (spanAt acc (upd (curLevel + j)) (curLevel + j) + 1)) s1
  { s2 with nodes := s2.nodes.insertIdx (upd 0) { ele := ele, score := score, spans := xspans } }

/-- Insertion path of `ZAdd` for an element not present in the dictionary:
store the score, scan, possibly raise the list level (claiming header spans
`length + 1` on the new levels), and splice. -/
def zinsert (s : ZSet) (ele : String) (score : Int) (lvl : Nat) : ZSet :=
  let s0 := { s with dict := dictSet s.dict ele score }
  let ur := (updRanks s0 (scanPred score ele) s0.level 0 0).reverse
  let s1 :=
    if lvl > s0.level then
      { s0 with
        headerSpans := growHeader s0.headerSpans s0.level lvl ((s0.nodes.length : Int) + 1),
        level := lvl }
    else s0
  let upd := fun i => if i < s0.level then (ur.getD i (0, 0)).1 else 0
  let rnk := fun i => if i < s0.level then (ur.getD i (0, 0)).2 else 0
  splice s1 ele score lvl upd rnk

/-- Model of `zslDeleteNode`: for each level of the deleted node `x`
(position `px`), a predecessor whose forward pointer is `x` absorbs
`x.level[i].span - 1`, any other predecessor (unreachable below the height
of `x`, but kept as in the source) loses `1`; the loop runs only over the
levels of `x` itself — this is where the code differs from the spec.  Then
the node is unlinked and the list level is shrunk while the top level has
no node. -/
def zslDeleteNode (s : ZSet) (px : Nat) (x : ZNode) (upd : Nat → Nat) : ZSet :=
  let s1 := (List.range x.spans.length).foldl
    (fun acc i =>
      if (fwdN acc (upd i) i).map (·.1) = some px then
        setSpan acc (upd i) i (spanAt acc (upd i) i + x.spans.getD i 0 - 1)
      else
        setSpan acc (upd i) i (spanAt acc (upd i) i - 1)) s
  let s2 := { s1 with nodes := s1.nodes.eraseIdx (px - 1) }
  shrinkLevel s2.level s2
where
  /-- Model of the trailing loop of `zslDeleteNode`: drop empty top levels
  while `level > 1`. -/
  shrinkLevel : Nat → ZSet → ZSet
    | 0, t => t
    | fuel + 1, t =>
      if t.level > 1 ∧ (fwdN t 0 (t.level - 1)).isNone then
        shrinkLevel fuel { t with level := t.level - 1 }
      else t

/-- Model of `ZSet.ZRem`: dictionary lookup, predecessor scan, then — if the
level-0 forward of `updatePosNodes[0]` is the sought node — unlink it and
remove the dictionary entry. -/
def ZRem (s : ZSet) (ele : String) : Bool × ZSet :=
  match dictGet s.dict ele with
  | none => (false, s)
  | some score =>
    let ur := (updRanks s (scanPred score ele) s.level 0 0).reverse
    let upd := fun i => (ur.getD i (0, 0)).1
    match fwdN s (upd 0) 0 with
    | none => (false, s)
    | some (px, x) =>
      if x.score == score && x.ele == ele then
        (true, { zslDeleteNode s px x upd with dict := dictDel s.dict ele })
      else (false, s)

/-- Model of `ZSet.ZAdd` with the random level supplied as an oracle: an
element present with the same score is refused; one present with another
score is first removed; then the insertion path runs. -/
def ZAdd (s : ZSet) (ele : String) (score : Int) (lvl : Nat) : Bool × ZSet :=
  match dictGet s.dict ele with
  | some old =>
    if old == score then (false, s)
    else (true, zinsert (ZRem s ele).2 ele score lvl)
  | none => (true, zinsert s ele score lvl)

/-- Rendering of one returned entry: `fmt.Sprintf("%s:%.2f", ele, score)`
for an integral score. -/
def fmtEntry (n : ZNode) : String := n.ele ++ ":" ++ toString n.score ++ ".00"

/-- One level of the `ZRange` locate loop: advance while a forward node
exists and `curSpan + span ≤ start`. -/
def rangeAdvance (s : ZSet) (start : Int) (l : Nat) :
    List ZNode → Nat → Nat → Int → Nat × Int
  | [], _, p, cs => (p, cs)
  | n :: rest, q, p, cs =>
    if l < n.spans.length then
      if cs + spanAt s p l ≤ start then
        rangeAdvance s start l rest (q + 1) q (cs + spanAt s p l)
      else (p, cs)
    else rangeAdvance s start l rest (q + 1) p cs

/-- The `ZRange` locate loop over levels `i-1, …, 0`. -/
def rangeDescend (s : ZSet) (start : Int) : Nat → Nat → Int → Nat × Int
  | 0, p, cs => (p, cs)
  | i + 1, p, cs =>
    let pr := rangeAdvance s start i (s.nodes.drop p) (p + 1) p cs
    rangeDescend s start i pr.1 pr.2

/-- The `ZRange` collection loop: `cnt` entries starting after position `p`;
each step follows the level-0 forward pointer and formats the node it lands
on — dereferencing `nil` (no forward node) yields `none`, the model of the
runtime panic in `res[i] = fmt.Sprintf("%s:%.2f", x.ele, x.score)`. -/
def collectLoop (s : ZSet) : Nat → Nat → Option (List String)
  | 0, _ => some []
  | cnt + 1, p =>
    match fwdN s p 0 with
    | none => none
    | some (q, n) => (collectLoop s cnt q).map (fun rest => fmtEntry n :: rest)

/-- Model of `ZSet.ZRange`: empty result for `start > stop` or
`start ≥ length`, clamp `stop` to `length - 1`, locate the predecessor of
rank `start` by accumulating spans top-down, then collect
`stop - start + 1` entries along level 0.  `none` models the nil-pointer
panic; Go's `nil` result is `some []`. -/
def ZRange (s : ZSet) (start stop : Int) : Option (List String) :=
  let len : Int := s.nodes.length
  if start > stop ∨ start ≥ len then some []
  else
    let stop1 := if stop ≥ len then len - 1 else stop
    let pr := rangeDescend s start s.level 0 0
    collectLoop s (stop1 - start + 1).toNat pr.1

/-- Number of level slots owned by the node at position `p` (32 for the
header). -/
def heightAt (s : ZSet) (p : Nat) : Nat :=
  if p = 0 then 32
  else ((s.nodes.get? (p - 1)).map (fun n => n.spans.length)).getD 0

/-- The span invariant of the spec, as a checkable predicate: for every
position (header included) and every level slot the node owns that links to
an actual node, the stored span equals the number of level-0 hops to that
node. -/
def spanOk (s : ZSet) : Bool :=
  (List.range (s.nodes.length + 1)).all fun p =>
    (List.range (heightAt s p)).all fun l =>
      match fwdN s p l with
      | none => true
      | some (q, _) => spanAt s p l == ((q : Int) - (p : Int))

/-- Run a list of `(ele, score, level)` insertions on an initially empty
set. -/
def addAll (ops : List (String × Int × Nat)) : ZSet :=
  ops.foldl (fun s op => (ZAdd s op.1 op.2.1 op.2.2).2) NewZSet

/-- Every node participates in level 0 (true of every state the Go
constructor paths can build, since `randomLevel() ≥ 1`). -/
def heightsOk (s : ZSet) : Bool := s.nodes.all (fun n => 0 < n.spans.length)

/-- Span dominance: every owned level slot that links to an actual node
stores a span at least the number of level-0 hops to it.  Reachable Go
states satisfy this: insertion makes spans exact and the (buggy) deletion
only ever leaves spans too large. -/
def spanDominant (s : ZSet) : Bool :=
  (List.range (s.nodes.length + 1)).all fun p =>
    (List.range (heightAt s p)).all fun l =>
      match fwdN s p l with
      | none => true
      | some (q, _) => ((q : Int) - (p : Int)) ≤ spanAt s p l

/-- The C3 failing run before its deletion: `ZAdd("A", 3)` at level 2,
`ZAdd("B", 2)` at level 1, `ZAdd("C", 1)` at level 2. -/
def c3Before : ZSet := addAll [("A", 3, 2), ("B", 2, 1), ("C", 1, 2)]

/-- The C3 failing run: the level-1 link of `A` jumps over the deleted `B`
but `zslDeleteNode` never decrements its span. -/
def c3After : ZSet := (ZRem c3Before "B").2

/-- The C5 failing run: six elements with descending scores
`60, 50, 40, 30, 20, 10` at levels `2, 1, 1, 2, 1, 1`, then `ZRem("B")`.
The level-1 span of `A` stays `3` although only two level-0 hops remain
below it. -/
def c5State : ZSet :=
  (ZRem (addAll
    [("A", 60, 2), ("B", 50, 1), ("C", 40, 1),
     ("D", 30, 2), ("E", 20, 1), ("F", 10, 1)]) "B").2

end ZSetM

/-! ## B+ tree (package bptree)

`BPTree[K, V]` keeps a root `node` (an interface realised by `leafNode` —
sorted keys, parallel values, a next pointer — and `internalNode` — sorted
separator keys and `len(keys)+1` children), an `order` (defaulted to 4 when
below 3), `minKeys = order−1`, `maxKeys = 2·order−1`, and a comparator.

The model is a mutual inductive (`Node`/`NodeList`) so that every operation
is structurally recursive and kernel-computable.  The leaf `next` pointers
and `leafHeader` are not modelled: they are read only by `RangeQuery`,
which no checked claim touches, and no key/value/child placement depends on
them.  `size()` is modelled exactly as in the source: keys for a leaf,
children for an internal node.  Go's `insertAt` on slices is
`List.insertIdx` (every call site uses an index that is at most the
length, where the two agree).  A split returns `some (promotedKey, right)`
in place of Go's `(K, node, true)` triple, `none` in place of
`(*new(K), nil, false)`. -/

namespace BPTreeM

mutual

/-- Model of the `node` interface: `leafNode` or `internalNode`. -/
inductive Node (K V : Type) where
  | leaf (keys : List K) (values : List V) : Node K V
  | internal (keys : List K) (children : NodeList K V) : Node K V

/-- Children list of an `internalNode` (a specialised list so that the
mutual recursion stays structural). -/
inductive NodeList (K V : Type) where
  | nil : NodeList K V
  | cons (hd : Node K V) (tl : NodeList K V) : NodeList K V

end

variable {K V : Type}

/-- Length of a children list. -/
def NodeList.len : NodeList K V → Nat
  | .nil => 0
  | .cons _ tl => tl.len + 1

/-- Children as an ordinary list. -/
def NodeList.toList : NodeList K V → List (Node K V)
  | .nil => []
  | .cons c tl => c :: tl.toList

/-- Indexing into a children list. -/
def NodeList.get? : NodeList K V → Nat → Option (Node K V)
  | .nil, _ => none
  | .cons c _, 0 => some c
  | .cons _ tl, i + 1 => tl.get? i

/-- Model of `insertAtNode`: insert at an index (append when past the
end, as the Go helper does). -/
def NodeList.insertAt : NodeList K V → Nat → Node K V → NodeList K V
  | .nil, _, n => .cons n .nil
  | .cons c tl, 0, n => .cons n (.cons c tl)
  | .cons c tl, i + 1, n => .cons c (tl.insertAt i n)

/-- Concatenation of children lists (slice `append`). -/
def NodeList.append : NodeList K V → NodeList K V → NodeList K V
  | .nil, other => other
  | .cons c tl, other => .cons c (tl.append other)

/-- First `i` children (slice prefix `children[:i]`). -/
def NodeList.take : NodeList K V → Nat → NodeList K V
  | .nil, _ => .nil
  | .cons _ _, 0 => .nil
  | .cons c tl, i + 1 => .cons c (tl.take i)

/-- Children from index `i` on (slice suffix `children[i:]`). -/
def NodeList.drop : NodeList K V → Nat → NodeList K V
  | .nil, _ => .nil
  | .cons c tl, 0 => .cons c tl
  | .cons _ tl, i + 1 => tl.drop i

/-- Remove the child at an index (`append(children[:i], children[i+1:]...)`). -/
def NodeList.removeAt : NodeList K V → Nat → NodeList K V
  | .nil, _ => .nil
  | .cons _ tl, 0 => tl
  | .cons c tl, i + 1 => .cons c (tl.removeAt i)

/-- Replace the child at an index (the in-place mutation of
`children[i]`). -/
def NodeList.set : NodeList K V → Nat → Node K V → NodeList K V
  | .nil, _, _ => .nil
  | .cons _ tl, 0, n => .cons n tl
  | .cons c tl, i + 1, n => .cons c (tl.set i n)

/-- Model of `BPTree[K, V]`.  `leafHeader` is omitted (only `RangeQuery`
reads it). -/
structure BPTree (K V : Type) where
  root : Option (Node K V)
  order : Nat
  compare : K → K → Int
  minKeys : Nat
  maxKeys : Nat

/-- Model of `NewBPTree`: orders below 3 (including every negative Go
`int`) fall back to the default order 4. -/
def NewBPTree (order : Nat) (compare : K → K → Int) : BPTree K V :=
  let o := if order < 3 then 4 else order
  { root := none, order := o, compare := compare,
    minKeys := o - 1, maxKeys := 2 * o - 1 }

/-- Model of `node.size()`, exactly as the source defines it: the KEY count
for a leaf but the CHILD count for an internal node. -/
def size : Node K V → Nat
  | .leaf ks _ => ks.length
  | .internal _ cs => cs.len

/-- Key count of a node (what the spec's fill invariant is about). -/
def keyCount : Node K V → Nat
  | .leaf ks _ => ks.length
  | .internal ks _ => ks.length

/-- The child index chosen by `find`/`insert`/`delete` at an internal node:
the scan `if compare(key, k) < 0 break; idx = i + 1`, i.e. the number of
leading separators not exceeding `key`. -/
def childIndex (cmp : K → K → Int) (key : K) : List K → Nat
  | [] => 0
  | k :: ks => if cmp key k < 0 then 0 else childIndex cmp key ks + 1

/-- Model of `leafNode.find`: linear scan with early break. -/
def leafFind (cmp : K → K → Int) (key : K) : List K → List V → Option V
  | [], _ => none
  | _ :: _, [] => none
  | k :: ks, v :: vs =>
    if cmp key k = 0 then some v
    else if cmp key k < 0 then none
    else leafFind cmp key ks vs

mutual

/-- Model of `node.find`. -/
def findN (cmp : K → K → Int) : Node K V → K → Option V
  | .leaf ks vs, key => leafFind cmp key ks vs
  | .internal ks cs, key => findC cmp cs (childIndex cmp key ks) key

/-- Descend into the `idx`-th child (`n.children[idx].find`). -/
def findC (cmp : K → K → Int) : NodeList K V → Nat → K → Option V
  | .nil, _, _ => none
  | .cons c _, 0, key => findN cmp c key
  | .cons _ tl, i + 1, key => findC cmp tl i key

end

/-- The scan of `leafNode.insert`: the insertion index (number of leading
keys strictly below `key`) and whether `key` is already present. -/
def leafScan (cmp : K → K → Int) (key : K) : List K → Nat × Bool
  | [] => (0, false)
  | k :: ks =>
    if cmp key k = 0 then (0, true)
    else if cmp key k < 0 then (0, false)
    else
      match leafScan cmp key ks with
      | (i, dup) => (i + 1, dup)

mutual

/-- Model of `node.insert`: returns the updated node and `some (promoted,
right)` when the node split. -/
def insertN (cmp : K → K → Int) (maxKeys : Nat) (key : K) (value : V) :
    Node K V → Node K V × Option (K × Node K V)
  | .leaf ks vs =>
    match leafScan cmp key ks with
    | (idx, true) => (.leaf ks (vs.set idx value), none)
    | (idx, false) =>
      let ks1 := ks.insertIdx idx key
      let vs1 := vs.insertIdx idx value
      if ks1.length ≤ maxKeys then (.leaf ks1 vs1, none)
      else
        let splitIdx := ks1.length / 2
        (.leaf (ks1.take splitIdx) (vs1.take splitIdx),
          some ((ks1.drop splitIdx).headD key,
            .leaf (ks1.drop splitIdx) (vs1.drop splitIdx)))
  | .internal ks cs =>
    let idx := childIndex cmp key ks
    match insertC cmp maxKeys key value cs idx with
    | (cs0, none) => (.internal ks cs0, none)
    | (cs0, some (nk, nn)) =>
      let ks1 := ks.insertIdx idx nk
      let cs1 := cs0.insertAt (idx + 1) nn
      if ks1.length ≤ maxKeys then (.internal ks1 cs1, none)
      else
        let splitIdx := ks1.length / 2
        (.internal (ks1.take splitIdx) (cs1.take (splitIdx + 1)),
          some ((ks1.drop splitIdx).headD key,
            .internal (ks1.drop (splitIdx + 1)) (cs1.drop (splitIdx + 1))))

/-- Insert into the `idx`-th child, replacing it in the list and passing the
split information up. -/
def insertC (cmp : K → K → Int) (maxKeys : Nat) (key : K) (value : V) :
    NodeList K V → Nat → NodeList K V × Option (K × Node K V)
  | .nil, _ => (.nil, none)
  | .cons c tl, 0 =>
    match insertN cmp maxKeys key value c with
    | (c1, sp) => (.cons c1 tl, sp)
  | .cons c tl, i + 1 =>
    match insertC cmp maxKeys key value tl i with
    | (tl1, sp) => (.cons c tl1, sp)

end

/-- Model of `BPTree.Insert`: create a root leaf on first use, insert, and
grow a new two-child root on a root split. -/
def Insert (t : BPTree K V) (key : K) (value : V) : BPTree K V :=
  let root0 := t.root.getD (.leaf [] [])
  match insertN t.compare t.maxKeys key value root0 with
  | (r1, none) => { t with root := some r1 }
  | (r1, some (nk, nn)) =>
    { t with root := some (.internal [nk] (.cons r1 (.cons nn .nil))) }

/-- Model of `BPTree.Find`. -/
def Find (t : BPTree K V) (key : K) : Option V :=
  match t.root with
  | none => none
  | some r => findN t.compare r key

/-- Model of `leafNode.delete`: full scan for an exact match, remove the
pair. -/
def leafDelete (cmp : K → K → Int) (key : K) : List K → List V → Option (List K × List V)
  | [], _ => none
  | _ :: _, [] => none
  | k :: ks, v :: vs =>
    if cmp key k = 0 then some (ks, vs)
    else
      match leafDelete cmp key ks vs with
      | none => none
      | some (ks1, vs1) => some (k :: ks1, v :: vs1)

/-- Size of the child at an index (`parent.children[i].size()`). -/
def sizeAt (cs : NodeList K V) (i : Nat) : Nat :=
  ((cs.get? i).map size).getD 0

/-- Model of `BPTree.borrowFromLeft`, rebuilding the parent pair
`(keys, children)` around child index `idx`.  Leaf case: the left sibling's
last pair moves to the child's front and the separator `parent.keys[idx-1]`
becomes the child's new first key.  Internal case: the separator rotates
down into the child's front, the left sibling's last key rotates up, and
the left sibling's last child moves over.  (The sibling always has the same
kind as the child — the tree has uniform depth — so the mixed cases are
unreachable and left as the identity.) -/
def borrowFromLeft [Inhabited K] [Inhabited V] (ks : List K) (cs : NodeList K V)
    (idx : Nat) : List K × NodeList K V :=
  match cs.get? idx, cs.get? (idx - 1) with
  | some (.leaf lks lvs), some (.leaf llks llvs) =>
    let lastIdx := llks.length - 1
    let mk := llks.getD lastIdx default
    let mv := llvs.getD lastIdx default
    let child1 : Node K V := .leaf (lks.insertIdx 0 mk) (lvs.insertIdx 0 mv)
    let left1 : Node K V := .leaf (llks.take lastIdx) (llvs.take lastIdx)
    (ks.set (idx - 1) mk, (cs.set idx child1).set (idx - 1) left1)
  | some (.internal iks ics), some (.internal lks lcs) =>
    let lastKeyIdx := lks.length - 1
    let parentKey := ks.getD (idx - 1) default
    let lastChildIdx := lcs.len - 1
    let movedChild := (lcs.get? lastChildIdx).getD (.leaf [] [])
    let child1 : Node K V :=
      .internal (iks.insertIdx 0 parentKey) (ics.insertAt 0 movedChild)
    let left1 : Node K V := .internal (lks.take lastKeyIdx) (lcs.take lastChildIdx)
    (ks.set (idx - 1) (lks.getD lastKeyIdx default),
      (cs.set idx child1).set (idx - 1) left1)
  | _, _ => (ks, cs)

/-- Model of `BPTree.borrowFromRight` (mirror image of
`borrowFromLeft`; note that in the leaf case the new separator
`parent.keys[idx]` is the right sibling's first key AFTER the shift). -/
def borrowFromRight [Inhabited K] [Inhabited V] (ks : List K) (cs : NodeList K V)
    (idx : Nat) : List K × NodeList K V :=
  match cs.get? idx, cs.get? (idx + 1) with
  | some (.leaf lks lvs), some (.leaf rks rvs) =>
    let child1 : Node K V := .leaf (lks ++ [rks.headD default]) (lvs ++ [rvs.headD default])
    let right1 : Node K V := .leaf rks.tail rvs.tail
    (ks.set idx (rks.tail.headD default), (cs.set idx child1).set (idx + 1) right1)
  | some (.internal iks ics), some (.internal rks rcs) =>
    let parentKey := ks.getD idx default
    let movedChild := (rcs.get? 0).getD (.leaf [] [])
    let child1 : Node K V := .internal (iks ++ [parentKey]) (ics.append (.cons movedChild .nil))
    let right1 : Node K V := .internal rks.tail (rcs.drop 1)
    (ks.set idx (rks.headD default), (cs.set idx child1).set (idx + 1) right1)
  | _, _ => (ks, cs)

/-- Model of `BPTree.mergeNodes`: concatenate children `idx` and `idx+1`
(interleaving the parent separator for internals) and remove the separator
and the orphaned child from the parent. -/
def mergeNodes [Inhabited K] (ks : List K) (cs : NodeList K V) (idx : Nat) :
    List K × NodeList K V :=
  let merged : Node K V :=
    match cs.get? idx, cs.get? (idx + 1) with
    | some (.leaf lks lvs), some (.leaf rks rvs) => .leaf (lks ++ rks) (lvs ++ rvs)
    | some (.internal lks lcs), some (.internal rks rcs) =>
      .internal (lks ++ [ks.getD idx default] ++ rks) (lcs.append rcs)
    | some c, _ => c
    | none, _ => .leaf [] []
  (ks.eraseIdx idx, (cs.set idx merged).removeAt (idx + 1))

/-- Model of `BPTree.handleUnderflow`: borrow from the left sibling if it
can spare (by `size()` — children count for internals), else from the
right, else merge with a sibling. -/
def handleUnderflow [Inhabited K] [Inhabited V] (ks : List K) (cs : NodeList K V)
    (idx minKeys : Nat) : List K × NodeList K V :=
  if 0 < idx ∧ minKeys < sizeAt cs (idx - 1) then borrowFromLeft ks cs idx
  else if idx < cs.len - 1 ∧ minKeys < sizeAt cs (idx + 1) then borrowFromRight ks cs idx
  else if 0 < idx then mergeNodes ks cs (idx - 1)
  else mergeNodes ks cs idx

mutual

/-- Model of `node.delete`: remove in a leaf, or descend and rebalance the
underflowing child (`size() < minKeys`, children count for internals). -/
def deleteN [Inhabited K] [Inhabited V] (cmp : K → K → Int) (minKeys : Nat) :
    Node K V → K → Bool × Node K V
  | .leaf ks vs, key =>
    match leafDelete cmp key ks vs with
    | none => (false, .leaf ks vs)
    | some (ks1, vs1) => (true, .leaf ks1 vs1)
  | .internal ks cs, key =>
    let idx := childIndex cmp key ks
    match deleteC cmp minKeys cs idx key with
    | (false, cs1) => (false, .internal ks cs1)
    | (true, cs1) =>
      if sizeAt cs1 idx < minKeys then
        match handleUnderflow ks cs1 idx minKeys with
        | (ks2, cs2) => (true, .internal ks2 cs2)
      else (true, .internal ks cs1)

/-- Delete inside the `idx`-th child. -/
def deleteC [Inhabited K] [Inhabited V] (cmp : K → K → Int) (minKeys : Nat) :
    NodeList K V → Nat → K → Bool × NodeList K V
  | .nil, _, _ => (false, .nil)
  | .cons c tl, 0, key =>
    match deleteN cmp minKeys c key with
    | (d, c1) => (d, .cons c1 tl)
  | .cons c tl, i + 1, key =>
    match deleteC cmp minKeys tl i key with
    | (d, tl1) => (d, .cons c tl1)

end

/-- Model of `BPTree.Delete`: delete from the root, then collapse a root
that is internal with a single child. -/
def Delete [Inhabited K] [Inhabited V] (t : BPTree K V) (key : K) : Bool × BPTree K V :=
  match t.root with
  | none => (false, t)
  | some r =>
    match deleteN t.compare t.minKeys r key with
    | (d, r1) =>
      let root1 :=
        match r1 with
        | .internal ks cs =>
          if size (Node.internal ks cs) = 1 then (cs.get? 0).getD (.leaf [] [])
          else Node.internal ks cs
        | other => other
      (d, { t with root := some root1 })

mutual

/-- Check the spec's fill bound — between `minK` and `maxK` KEYS — on a
node and all of its descendants. -/
def fillAll (minK maxK : Nat) : Node K V → Bool
  | .leaf ks _ => Nat.ble minK ks.length && Nat.ble ks.length maxK
  | .internal ks cs =>
    Nat.ble minK ks.length && Nat.ble ks.length maxK && fillAllC minK maxK cs

/-- `fillAll` over a children list. -/
def fillAllC (minK maxK : Nat) : NodeList K V → Bool
  | .nil => true
  | .cons c tl => fillAll minK maxK c && fillAllC minK maxK tl

end

/-- The node-fill part of the claimed invariant: every node other than the
root holds between `minKeys` and `maxKeys` keys. -/
def fillOk (t : BPTree K V) : Bool :=
  match t.root with
  | none => true
  | some (.leaf _ _) => true
  | some (.internal _ cs) => fillAllC t.minKeys t.maxKeys cs

/-- Integer comparator on `Int` keys (the shape of the tests'
`intCompare`). -/
def intCmp (a b : Int) : Int := if a < b then -1 else if a > b then 1 else 0

/-- Run `Insert` for each key (with itself as value) on a fresh
`NewBPTree(order)` tree over `Int` keys, then `Delete` each listed key. -/
def runIntTree (order : Nat) (ins : List Int) (dels : List Int) : BPTree Int Int :=
  let t0 : BPTree Int Int := NewBPTree order intCmp
  let t1 := ins.foldl (fun t k => Insert t k k) t0
  dels.foldl (fun t k => (Delete t k).2) t1

/-! ### Well-formedness, flattening, and the sorted-association-list view

`wfN`/`wfC` is the search-tree invariant of the structure: leaf key and
value lists have equal length, keys are strictly ascending, every node's
keys lie inside its routing interval, and the `i`-th child of an internal
node lies between separators `i-1` and `i`.  The lower bound is inclusive
for leaf keys (a separator equals the smallest key of its right subtree)
and strict for separators; the upper bound is strict everywhere.
`entriesN` flattens a subtree into its key/value pairs in tree order, and
`specFind`/`specInsert` are the spec's sorted-association-list lookup and
upsert, used as the refinement targets. -/

/-- Inclusive lower routing bound. -/
def okLo (cmp : K → K → Int) (lo : Option K) (x : K) : Bool :=
  match lo with
  | none => true
  | some l => decide (cmp l x ≤ 0)

/-- Strict upper routing bound. -/
def okHi (cmp : K → K → Int) (hi : Option K) (x : K) : Bool :=
  match hi with
  | none => true
  | some h => decide (cmp x h < 0)

/-- Strict lower bound (for separators). -/
def sepLo (cmp : K → K → Int) (lo : Option K) (x : K) : Bool :=
  match lo with
  | none => true
  | some l => decide (cmp l x < 0)

/-- Strictly-ascending key list (each key below all later ones). -/
def sortedKeys (cmp : K → K → Int) : List K → Bool
  | [] => true
  | a :: t => t.all (fun x => decide (cmp a x < 0)) && sortedKeys cmp t

mutual

/-- Search-tree well-formedness of a node within a routing interval. -/
def wfN (cmp : K → K → Int) (lo hi : Option K) : Node K V → Bool
  | .leaf ks vs => (ks.length == vs.length) && sortedKeys cmp ks
      && ks.all (fun x => okLo cmp lo x && okHi cmp hi x)
  | .internal ks cs => sortedKeys cmp ks
      && ks.all (fun x => sepLo cmp lo x && okHi cmp hi x)
      && wfC cmp lo hi ks cs

/-- Well-formedness of a separator/child zip: child `i` lies strictly
between separators `i-1` and `i` (inclusive below), and there is exactly
one more child than separators. -/
def wfC (cmp : K → K → Int) (lo hi : Option K) : List K → NodeList K V → Bool
  | [], .cons c .nil => wfN cmp lo hi c
  | k :: ks, .cons c tl => wfN cmp lo (some k) c && wfC cmp (some k) hi ks tl
  | _, _ => false

end

/-- Tree-level well-formedness (the root has no routing bounds; a usable
tree has `maxKeys ≥ 1`, true of every `NewBPTree`). -/
def wfT (t : BPTree K V) : Bool :=
  decide (1 ≤ t.maxKeys) &&
  match t.root with
  | none => true
  | some r => wfN t.compare none none r

mutual

/-- All key/value pairs of a subtree, in tree order. -/
def entriesN : Node K V → List (K × V)
  | .leaf ks vs => ks.zip vs
  | .internal _ cs => entriesC cs

/-- Concatenated entries of a children list. -/
def entriesC : NodeList K V → List (K × V)
  | .nil => []
  | .cons c tl => entriesN c ++ entriesC tl

end

/-- All entries of the tree. -/
def entriesT (t : BPTree K V) : List (K × V) :=
  match t.root with
  | none => []
  | some r => entriesN r

/-- The spec's lookup in a sorted association list (scan with early
stop). -/
def specFind (cmp : K → K → Int) (k : K) : List (K × V) → Option V
  | [] => none
  | p :: t => if cmp k p.1 = 0 then some p.2
      else if cmp k p.1 < 0 then none
      else specFind cmp k t

/-- The spec's upsert in a sorted association list: replace the value at
an equal key, otherwise insert before the first larger key. -/
def specInsert (cmp : K → K → Int) (k : K) (v : V) : List (K × V) → List (K × V)
  | [] => [(k, v)]
  | p :: t => if cmp k p.1 = 0 then (p.1, v) :: t
      else if cmp k p.1 < 0 then (k, v) :: p :: t
      else p :: specInsert cmp k v t

/-- Number of entries whose key compares equal to `k`. -/
def countKey (cmp : K → K → Int) (k : K) (l : List (K × V)) : Nat :=
  l.countP (fun p => cmp k p.1 == 0)

mutual

/-- Node size measure for strong induction. -/
def sizeN : Node K V → Nat
  | .leaf _ _ => 1
  | .internal _ cs => sizeC cs + 1

/-- Children-list size measure. -/
def sizeC : NodeList K V → Nat
  | .nil => 0
  | .cons c tl => sizeN c + sizeC tl + 1

end

section CmpLaws

variable {cmp : K → K → Int}

theorem cmp_self_eq (hflip : ∀ a b, 0 ≤ cmp a b ↔ cmp b a ≤ 0) (x : K) :
    cmp x x = 0 := by
  have h1 := (hflip x x).mp
  have h2 := (hflip x x).mpr
  rcases le_or_lt 0 (cmp x x) with h | h
  · have := h1 h
    omega
  · have := h2 (by omega)
    omega

theorem flip_pos (hflip : ∀ a b, 0 ≤ cmp a b ↔ cmp b a ≤ 0) (a b : K)
    (h : 0 < cmp a b) : cmp b a < 0 := by
  by_contra hc
  push_neg at hc
  have := (hflip b a).mp hc
  omega

theorem flip_eq (hflip : ∀ a b, 0 ≤ cmp a b ↔ cmp b a ≤ 0) (a b : K)
    (h : cmp a b = 0) : cmp b a = 0 := by
  have h1 := (hflip a b).mp (by omega)
  have h2 := (hflip b a).mpr (by omega)
  omega

theorem cmp_le_trans (hflip : ∀ a b, 0 ≤ cmp a b ↔ cmp b a ≤ 0)
    (hlt₁ : ∀ a b c, cmp a b ≤ 0 → cmp b c < 0 → cmp a c < 0)
    (hlt₂ : ∀ a b c, cmp a b < 0 → cmp b c ≤ 0 → cmp a c < 0)
    (a b c : K) (h1 : cmp a b ≤ 0) (h2 : cmp b c ≤ 0) :
    cmp a c ≤ 0 := by
  rcases lt_or_eq_of_le h2 with h | h
  · have := hlt₁ a b c h1 h
    omega
  · by_contra hc
    push_neg at hc
    have h3 := flip_pos hflip a c hc
    have h4 := hlt₂ c a b h3 h1
    have h5 := flip_eq hflip b c h
    omega

theorem flip_neg (hflip : ∀ a b, 0 ≤ cmp a b ↔ cmp b a ≤ 0) (a b : K)
    (h : cmp a b < 0) : 0 < cmp b a := by
  by_contra hc
  push_neg at hc
  have := (hflip a b).mpr hc
  omega

theorem sortedKeys_iff_pairwise : ∀ ks : List K,
    sortedKeys cmp ks = true ↔ List.Pairwise (fun a b => cmp a b < 0) ks := by
  intro ks
  induction ks with
  | nil => simp [sortedKeys]
  | cons a t ih => simp [sortedKeys, List.pairwise_cons, List.all_eq_true, ih]

theorem specFind_specInsert (hflip : ∀ a b, 0 ≤ cmp a b ↔ cmp b a ≤ 0)
    (k : K) (v : V) : ∀ l : List (K × V),
    specFind cmp k (specInsert cmp k v l) = some v := by
  intro l
  induction l with
  | nil => simp [specInsert, specFind, cmp_self_eq hflip k]
  | cons p t ih =>
    by_cases h0 : cmp k p.1 = 0
    · simp [specInsert, specFind, h0]
    · by_cases h1 : cmp k p.1 < 0
      · simp [specInsert, specFind, h0, h1, cmp_self_eq hflip k]
      · simp [specInsert, specFind, h0, h1, ih]

theorem specFind_append_of_gt (k : K) : ∀ (A B : List (K × V)),
    (∀ p ∈ A, 0 < cmp k p.1) →
    specFind cmp k (A ++ B) = specFind cmp k B := by
  intro A B hA
  induction A with
  | nil => simp
  | cons p t ih =>
    have hp := hA p (by simp)
    simp only [List.cons_append, specFind]
    rw [if_neg (by omega), if_neg (by omega)]
    exact ih (fun q hq => hA q (by simp [hq]))

theorem specFind_append_of_lt (k : K) : ∀ (A B : List (K × V)),
    (∀ p ∈ B, cmp k p.1 < 0) →
    specFind cmp k (A ++ B) = specFind cmp k A := by
  intro A B hB
  induction A with
  | nil =>
    cases B with
    | nil => simp
    | cons q tB =>
      have hq := hB q (by simp)
      simp only [List.nil_append, specFind]
      rw [if_neg (by omega), if_pos hq]
  | cons p t ih =>
    simp only [List.cons_append, specFind, List.append_eq]
    rw [ih]

theorem specInsert_append_of_gt (k : K) (v : V) : ∀ (A B : List (K × V)),
    (∀ p ∈ A, 0 < cmp k p.1) →
    specInsert cmp k v (A ++ B) = A ++ specInsert cmp k v B := by
  intro A B hA
  induction A with
  | nil => simp
  | cons p t ih =>
    have hp := hA p (by simp)
    simp only [List.cons_append, specInsert, List.append_eq]
    rw [if_neg (by omega), if_neg (by omega), ih (fun q hq => hA q (by simp [hq]))]

theorem specInsert_append_of_lt (k : K) (v : V) : ∀ (A B : List (K × V)),
    (∀ p ∈ B, cmp k p.1 < 0) →
    specInsert cmp k v (A ++ B) = specInsert cmp k v A ++ B := by
  intro A B hB
  induction A with
  | nil =>
    cases B with
    | nil => simp [specInsert]
    | cons q tB =>
      have hq := hB q (by simp)
      simp only [List.nil_append, specInsert]
      rw [if_neg (by omega), if_pos hq]
      simp
  | cons p t ih =>
    simp only [List.cons_append, specInsert, List.append_eq]
    by_cases h0 : cmp k p.1 = 0
    · rw [if_pos h0, if_pos h0]
      simp
    · by_cases h1 : cmp k p.1 < 0
      · rw [if_neg h0, if_pos h1, if_neg h0, if_pos h1]
        simp
      · rw [if_neg h0, if_neg h1, if_neg h0, if_neg h1, ih]
        simp

theorem countKey_cons (k : K) (p : K × V) (t : List (K × V)) :
    countKey cmp k (p :: t)
      = countKey cmp k t + (if cmp k p.1 = 0 then 1 else 0) := by
  simp [countKey, List.countP_cons]

theorem countKey_specInsert (hflip : ∀ a b, 0 ≤ cmp a b ↔ cmp b a ≤ 0)
    (hlt₁ : ∀ a b c, cmp a b ≤ 0 → cmp b c < 0 → cmp a c < 0)
    (hlt₂ : ∀ a b c, cmp a b < 0 → cmp b c ≤ 0 → cmp a c < 0)
    (k : K) (v : V) : ∀ l : List (K × V),
    List.Pairwise (fun p q : K × V => cmp p.1 q.1 < 0) l →
    countKey cmp k (specInsert cmp k v l) = 1 := by
  intro l
  induction l with
  | nil =>
    intro _
    simp [specInsert, countKey, cmp_self_eq hflip k]
  | cons p t ih =>
    intro hpw
    rw [List.pairwise_cons] at hpw
    obtain ⟨hhead, htail⟩ := hpw
    by_cases h0 : cmp k p.1 = 0
    · have htz : countKey cmp k t = 0 := by
        rw [countKey, List.countP_eq_zero]
        intro q hq
        have h1 := hhead q hq
        have h2 : cmp k q.1 < 0 := hlt₁ k p.1 q.1 (by omega) h1
        simp
        omega
      rw [countKey] at htz
      simp only [specInsert]
      rw [if_pos h0]
      simp [countKey, List.countP_cons, h0, htz]
    · by_cases h1 : cmp k p.1 < 0
      · have hz : ∀ q ∈ p :: t, ¬ cmp k q.1 = 0 := by
          intro q hq
          rcases List.mem_cons.mp hq with rfl | hq'
          · omega
          · have h2 := hhead q hq'
            have h3 : cmp k q.1 < 0 := hlt₂ k p.1 q.1 h1 (by omega)
            omega
        simp only [specInsert]
        rw [if_neg h0, if_pos h1]
        rw [countKey, List.countP_cons, List.countP_cons]
        have hzt : List.countP (fun p => cmp k p.1 == 0) t = 0 := by
          rw [List.countP_eq_zero]
          intro q hq
          have := hz q (by simp [hq])
          simp
          omega
        simp [hzt, h0, cmp_self_eq hflip k]
      · have ihh := ih htail
        simp only [specInsert]
        rw [if_neg h0, if_neg h1]
        rw [countKey, List.countP_cons]
        rw [countKey] at ihh
        simp [ihh, h0]

/-! Leaf-level facts: the scan of `leafNode.insert` and the zip view. -/

theorem leafFind_specFind (k : K) : ∀ (ks : List K) (vs : List V),
    leafFind cmp k ks vs = specFind cmp k (ks.zip vs) := by
  intro ks
  induction ks with
  | nil =>
    intro vs
    simp [leafFind, specFind]
  | cons k0 t ih =>
    intro vs
    cases vs with
    | nil => simp [leafFind, specFind]
    | cons v0 tv =>
      simp only [leafFind, List.zip_cons_cons, specFind]
      by_cases h0 : cmp k k0 = 0
      · rw [if_pos h0, if_pos h0]
      · rw [if_neg h0, if_neg h0]
        by_cases h1 : cmp k k0 < 0
        · rw [if_pos h1, if_pos h1]
        · rw [if_neg h1, if_neg h1, ih tv]
          rfl

theorem leafScan_le_length (k : K) : ∀ ks : List K,
    (leafScan cmp k ks).1 ≤ ks.length := by
  intro ks
  induction ks with
  | nil => simp [leafScan]
  | cons k0 t ih =>
    simp only [leafScan]
    by_cases h0 : cmp k k0 = 0
    · rw [if_pos h0]
      simp
    · rw [if_neg h0]
      by_cases h1 : cmp k k0 < 0
      · rw [if_pos h1]
        simp
      · rw [if_neg h1]
        cases hsc : leafScan cmp k t with
        | mk i dup =>
          rw [hsc] at ih
          simp only [hsc, List.length_cons]
          simpa using ih

theorem leafScan_dup_spec (k : K) (v : V) : ∀ (ks : List K) (vs : List V) (idx : Nat),
    ks.length = vs.length →
    leafScan cmp k ks = (idx, true) →
    ks.zip (vs.set idx v) = specInsert cmp k v (ks.zip vs) := by
  intro ks
  induction ks with
  | nil =>
    intro vs idx _ hsc
    simp [leafScan] at hsc
  | cons k0 t ih =>
    intro vs idx hlen hsc
    cases vs with
    | nil => simp at hlen
    | cons v0 tv =>
      simp only [leafScan] at hsc
      by_cases h0 : cmp k k0 = 0
      · rw [if_pos h0] at hsc
        rw [Prod.mk.injEq] at hsc
        obtain ⟨h2, -⟩ := hsc
        subst h2
        simp [specInsert, h0]
        rfl
      · rw [if_neg h0] at hsc
        by_cases h1 : cmp k k0 < 0
        · rw [if_pos h1] at hsc
          simp at hsc
        · rw [if_neg h1] at hsc
          cases hsc2 : leafScan cmp k t with
          | mk i dup =>
            rw [hsc2] at hsc
            simp only [] at hsc
            rw [Prod.mk.injEq] at hsc
            obtain ⟨h2, h3⟩ := hsc
            subst h2
            subst h3
            simp only [List.zip_cons_cons, List.set, specInsert]
            rw [if_neg h0, if_neg h1, ih tv i (by simpa using hlen) hsc2]
            rfl

theorem leafScan_fresh_spec (k : K) (v : V) : ∀ (ks : List K) (vs : List V) (idx : Nat),
    ks.length = vs.length →
    leafScan cmp k ks = (idx, false) →
    (ks.insertIdx idx k).zip (vs.insertIdx idx v) = specInsert cmp k v (ks.zip vs) := by
  intro ks
  induction ks with
  | nil =>
    intro vs idx hlen hsc
    have hvs : vs = [] := by
      cases vs
      · rfl
      · simp at hlen
    subst hvs
    simp [leafScan] at hsc
    subst hsc
    simp [specInsert]
  | cons k0 t ih =>
    intro vs idx hlen hsc
    cases vs with
    | nil => simp at hlen
    | cons v0 tv =>
      simp only [leafScan] at hsc
      by_cases h0 : cmp k k0 = 0
      · rw [if_pos h0] at hsc
        simp at hsc
      · rw [if_neg h0] at hsc
        by_cases h1 : cmp k k0 < 0
        · rw [if_pos h1] at hsc
          rw [Prod.mk.injEq] at hsc
          obtain ⟨h2, -⟩ := hsc
          subst h2
          simp only [List.insertIdx_zero, List.zip_cons_cons, specInsert]
          rw [if_neg h0, if_pos h1]
          rfl
        · rw [if_neg h1] at hsc
          cases hsc2 : leafScan cmp k t with
          | mk i dup =>
            rw [hsc2] at hsc
            simp only [] at hsc
            rw [Prod.mk.injEq] at hsc
            obtain ⟨h2, h3⟩ := hsc
            subst h2
            subst h3
            simp only [List.insertIdx_succ_cons, List.zip_cons_cons, specInsert]
            rw [if_neg h0, if_neg h1, ih tv i (by simpa using hlen) hsc2]
            rfl

theorem insertIdx_all (P : K → Bool) (k : K) : ∀ (ks : List K) (idx : Nat),
    idx ≤ ks.length → ks.all P = true → P k = true →
    (ks.insertIdx idx k).all P = true := by
  intro ks
  induction ks with
  | nil =>
    intro idx hidx _ hk
    have : idx = 0 := by simpa using hidx
    subst this
    simp [hk]
  | cons k0 t ih =>
    intro idx hidx hall hk
    cases idx with
    | zero => simp_all
    | succ i =>
      rw [List.insertIdx_succ_cons]
      simp only [List.all_cons, Bool.and_eq_true] at hall ⊢
      exact ⟨hall.1, ih i (by simpa using hidx) hall.2 hk⟩

theorem leafScan_insert_sorted (hflip : ∀ a b, 0 ≤ cmp a b ↔ cmp b a ≤ 0)
    (hlt₂ : ∀ a b c, cmp a b < 0 → cmp b c ≤ 0 → cmp a c < 0)
    (k : K) : ∀ (ks : List K) (idx : Nat),
    sortedKeys cmp ks = true →
    leafScan cmp k ks = (idx, false) →
    sortedKeys cmp (ks.insertIdx idx k) = true := by
  intro ks
  induction ks with
  | nil =>
    intro idx _ hsc
    simp [leafScan] at hsc
    subst hsc
    simp [sortedKeys]
  | cons k0 t ih =>
    intro idx hsorted hsc
    rw [sortedKeys, Bool.and_eq_true, List.all_eq_true] at hsorted
    obtain ⟨hhead, htail⟩ := hsorted
    simp only [leafScan] at hsc
    by_cases h0 : cmp k k0 = 0
    · rw [if_pos h0] at hsc
      simp at hsc
    · rw [if_neg h0] at hsc
      by_cases h1 : cmp k k0 < 0
      · rw [if_pos h1] at hsc
        rw [Prod.mk.injEq] at hsc
        obtain ⟨h2, -⟩ := hsc
        subst h2
        rw [List.insertIdx_zero, sortedKeys, Bool.and_eq_true, List.all_eq_true]
        constructor
        · intro x hx
          rcases List.mem_cons.mp hx with rfl | hx'
          · simpa using h1
          · have h2 := hhead x hx'
            simp only [decide_eq_true_eq] at h2 ⊢
            exact hlt₂ k k0 x h1 (by omega)
        · rw [sortedKeys, Bool.and_eq_true, List.all_eq_true]
          exact ⟨hhead, htail⟩
      · rw [if_neg h1] at hsc
        cases hsc2 : leafScan cmp k t with
        | mk i dup =>
          rw [hsc2] at hsc
          simp only [] at hsc
          rw [Prod.mk.injEq] at hsc
          obtain ⟨h2, h3⟩ := hsc
          subst h2
          subst h3
          have hk0k : cmp k0 k < 0 := flip_pos hflip k k0 (by omega)
          rw [List.insertIdx_succ_cons, sortedKeys, Bool.and_eq_true, List.all_eq_true]
          constructor
          · intro x hx
            have hle := @leafScan_le_length K cmp k t
            rw [hsc2] at hle
            rcases (List.mem_insertIdx (by simpa using hle)).mp hx with rfl | hx'
            · simpa using hk0k
            · exact hhead x hx'
          · exact ih i htail hsc2

/-! Structure-level helpers: zips, splits, and bound weakenings. -/

theorem zip_take_drop : ∀ (ks : List K) (vs : List V) (n : Nat),
    ks.length = vs.length →
    (ks.take n).zip (vs.take n) ++ (ks.drop n).zip (vs.drop n) = ks.zip vs := by
  intro ks
  induction ks with
  | nil =>
    intro vs n hlen
    have hvs : vs = [] := by
      cases vs
      · rfl
      · simp at hlen
    subst hvs
    simp
  | cons k0 t ih =>
    intro vs n hlen
    cases vs with
    | nil => simp at hlen
    | cons v0 tv =>
      cases n with
      | zero => simp
      | succ m =>
        simp only [List.take_succ_cons, List.drop_succ_cons, List.zip_cons_cons,
          List.cons_append]
        rw [ih tv m (by simpa using hlen)]

theorem pairwise_zip : ∀ (ks : List K) (vs : List V),
    List.Pairwise (fun a b => cmp a b < 0) ks →
    List.Pairwise (fun p q : K × V => cmp p.1 q.1 < 0) (ks.zip vs) := by
  intro ks
  induction ks with
  | nil =>
    intro vs _
    simp
  | cons k0 t ih =>
    intro vs hpw
    cases vs with
    | nil => simp
    | cons v0 tv =>
      rw [List.pairwise_cons] at hpw
      rw [List.zip_cons_cons, List.pairwise_cons]
      constructor
      · intro q hq
        have h1 : q.1 ∈ t := by
          obtain ⟨a, b⟩ := q
          exact (List.of_mem_zip hq).1
        exact hpw.1 q.1 h1
      · exact ih tv hpw.2

theorem entriesC_take_drop : ∀ (n : Nat) (cs : NodeList K V), cs.len ≤ n → ∀ m,
    entriesC (cs.take m) ++ entriesC (cs.drop m) = entriesC cs := by
  intro n
  induction n with
  | zero =>
    intro cs hn m
    cases cs with
    | nil => cases m <;> simp [NodeList.take, NodeList.drop, entriesC]
    | cons c tl => simp [NodeList.len] at hn
  | succ n ih =>
    intro cs hn m
    cases cs with
    | nil => cases m <;> simp [NodeList.take, NodeList.drop, entriesC]
    | cons c tl =>
      cases m with
      | zero => simp [NodeList.take, NodeList.drop, entriesC]
      | succ m' =>
        simp only [NodeList.take, NodeList.drop, entriesC]
        rw [List.append_assoc, ih tl (by simp [NodeList.len] at hn; omega) m']

theorem okHi_trans (hlt₂ : ∀ a b c, cmp a b < 0 → cmp b c ≤ 0 → cmp a c < 0)
    (k0 x : K) (hi : Option K) (h1 : cmp x k0 < 0) (h2 : okHi cmp hi k0 = true) :
    okHi cmp hi x = true := by
  cases hi with
  | none => simp [okHi]
  | some h =>
    simp only [okHi, decide_eq_true_eq] at h2 ⊢
    exact hlt₂ x k0 h h1 (by omega)

theorem okLo_trans (hlt₂ : ∀ a b c, cmp a b < 0 → cmp b c ≤ 0 → cmp a c < 0)
    (k0 x : K) (lo : Option K) (h1 : sepLo cmp lo k0 = true) (h2 : cmp k0 x ≤ 0) :
    okLo cmp lo x = true := by
  cases lo with
  | none => simp [okLo]
  | some l =>
    simp only [sepLo, decide_eq_true_eq] at h1
    simp only [okLo, decide_eq_true_eq]
    have := hlt₂ l k0 x h1 h2
    omega

theorem sepLo_trans (hlt₁ : ∀ a b c, cmp a b ≤ 0 → cmp b c < 0 → cmp a c < 0)
    (k0 x : K) (lo : Option K) (h1 : okLo cmp lo k0 = true) (h2 : cmp k0 x < 0) :
    sepLo cmp lo x = true := by
  cases lo with
  | none => simp [sepLo]
  | some l =>
    simp only [okLo, decide_eq_true_eq] at h1
    simp only [sepLo, decide_eq_true_eq]
    exact hlt₁ l k0 x h1 h2

theorem nl_take_zero : ∀ tl : NodeList K V, NodeList.take tl 0 = NodeList.nil := by
  intro tl
  cases tl <;> rfl

theorem nl_drop_zero : ∀ tl : NodeList K V, NodeList.drop tl 0 = tl := by
  intro tl
  cases tl <;> rfl

theorem nl_insertAt_zero (n : Node K V) : ∀ tl : NodeList K V,
    NodeList.insertAt tl 0 n = NodeList.cons n tl := by
  intro tl
  cases tl <;> rfl

theorem wfC_split : ∀ (ks : List K) (cs : NodeList K V) (lo hi : Option K) (s : Nat)
    (nk : K), wfC cmp lo hi ks cs = true → ks.get? s = some nk →
    wfC cmp lo (some nk) (ks.take s) (NodeList.take cs (s + 1)) = true ∧
    wfC cmp (some nk) hi (ks.drop (s + 1)) (NodeList.drop cs (s + 1)) = true := by
  intro ks
  induction ks with
  | nil =>
    intro cs lo hi s nk _ hget
    simp at hget
  | cons k0 ks' ih =>
    intro cs lo hi s nk hwf hget
    cases cs with
    | nil => simp [wfC] at hwf
    | cons c tl =>
      rw [wfC, Bool.and_eq_true] at hwf
      cases s with
      | zero =>
        have hk : k0 = nk := by simpa using hget
        subst hk
        constructor
        · simp only [List.take_zero, NodeList.take, nl_take_zero, wfC]
          exact hwf.1
        · simp only [List.drop_succ_cons, List.drop_zero, NodeList.drop, nl_drop_zero]
          exact hwf.2
      | succ s' =>
        have hget' : ks'.get? s' = some nk := by simpa using hget
        obtain ⟨hL, hR⟩ := ih tl (some k0) hi s' nk hwf.2 hget'
        constructor
        · simp only [List.take_succ_cons, NodeList.take, wfC, Bool.and_eq_true]
          exact ⟨hwf.1, hL⟩
        · simpa [List.drop_succ_cons, NodeList.drop] using hR

theorem sizeN_pos : ∀ nd : Node K V, 1 ≤ sizeN nd := by
  intro nd
  cases nd <;> simp [sizeN]

/-- Bounds and sortedness of the flattened entries of a well-formed
subtree. -/
theorem wf_entries (hlt₁ : ∀ a b c, cmp a b ≤ 0 → cmp b c < 0 → cmp a c < 0)
    (hlt₂ : ∀ a b c, cmp a b < 0 → cmp b c ≤ 0 → cmp a c < 0) : ∀ n : Nat,
    (∀ (nd : Node K V) (lo hi : Option K), sizeN nd ≤ n → wfN cmp lo hi nd = true →
      (∀ p ∈ entriesN nd, okLo cmp lo p.1 = true ∧ okHi cmp hi p.1 = true) ∧
      List.Pairwise (fun p q : K × V => cmp p.1 q.1 < 0) (entriesN nd)) ∧
    (∀ (ks : List K) (cs : NodeList K V) (lo hi : Option K), sizeC cs ≤ n →
      sortedKeys cmp ks = true →
      (∀ x ∈ ks, sepLo cmp lo x = true ∧ okHi cmp hi x = true) →
      wfC cmp lo hi ks cs = true →
      (∀ p ∈ entriesC cs, okLo cmp lo p.1 = true ∧ okHi cmp hi p.1 = true) ∧
      List.Pairwise (fun p q : K × V => cmp p.1 q.1 < 0) (entriesC cs)) := by
  intro n
  induction n with
  | zero =>
    constructor
    · intro nd lo hi hsz
      have := sizeN_pos nd
      omega
    · intro ks cs lo hi hsz _ _ hwf
      cases cs with
      | nil =>
        cases ks with
        | nil => simp [wfC] at hwf
        | cons a b => simp [wfC] at hwf
      | cons c tl => simp [sizeC] at hsz
  | succ n ih =>
    obtain ⟨ihN, ihC⟩ := ih
    constructor
    · intro nd lo hi hsz hwf
      cases nd with
      | leaf ks vs =>
        rw [wfN, Bool.and_eq_true, Bool.and_eq_true] at hwf
        obtain ⟨⟨-, hsorted⟩, hbounds⟩ := hwf
        rw [List.all_eq_true] at hbounds
        constructor
        · intro p hp
          have h1 : p.1 ∈ ks := by
            obtain ⟨a, b⟩ := p
            exact (List.of_mem_zip hp).1
          have := hbounds p.1 h1
          rw [Bool.and_eq_true] at this
          exact ⟨this.1, this.2⟩
        · exact pairwise_zip ks vs ((sortedKeys_iff_pairwise ks).mp hsorted)
      | internal ks cs =>
        rw [wfN, Bool.and_eq_true, Bool.and_eq_true] at hwf
        obtain ⟨⟨hsorted, hbounds⟩, hwfc⟩ := hwf
        rw [List.all_eq_true] at hbounds
        have hsz' : sizeC cs ≤ n := by
          simp only [sizeN] at hsz
          omega
        have hb : ∀ x ∈ ks, sepLo cmp lo x = true ∧ okHi cmp hi x = true := by
          intro x hx
          have := hbounds x hx
          rw [Bool.and_eq_true] at this
          exact this
        exact ihC ks cs lo hi hsz' hsorted hb hwfc
    · intro ks cs lo hi hsz hsorted hbounds hwf
      cases cs with
      | nil =>
        cases ks with
        | nil => simp [wfC] at hwf
        | cons a b => simp [wfC] at hwf
      | cons c tl =>
        cases ks with
        | nil =>
          cases tl with
          | nil =>
            rw [wfC] at hwf
            have hszc : sizeN c ≤ n := by
              simp only [sizeC] at hsz
              omega
            obtain ⟨hb, hp⟩ := ihN c lo hi hszc hwf
            constructor
            · intro p hp2
              rw [entriesC, entriesC, List.append_nil] at hp2
              exact hb p hp2
            · rw [entriesC, entriesC, List.append_nil]
              exact hp
          | cons c2 tl2 => simp [wfC] at hwf
        | cons k0 ks' =>
          rw [wfC, Bool.and_eq_true] at hwf
          obtain ⟨hwfc, hwft⟩ := hwf
          have hszc : sizeN c ≤ n := by
            simp only [sizeC] at hsz
            omega
          have hszt : sizeC tl ≤ n := by
            simp only [sizeC] at hsz
            have := sizeN_pos c
            omega
          rw [sortedKeys, Bool.and_eq_true, List.all_eq_true] at hsorted
          obtain ⟨hhead, htailsorted⟩ := hsorted
          obtain ⟨hk0lo, hk0hi⟩ := hbounds k0 (by simp)
          have hbounds' : ∀ x ∈ ks', sepLo cmp (some k0) x = true ∧ okHi cmp hi x = true := by
            intro x hx
            refine ⟨?_, (hbounds x (by simp [hx])).2⟩
            have := hhead x hx
            simp only [decide_eq_true_eq] at this
            simp only [sepLo, decide_eq_true_eq]
            exact this
          obtain ⟨hbC, hpC⟩ := ihN c lo (some k0) hszc hwfc
          obtain ⟨hbT, hpT⟩ := ihC ks' tl (some k0) hi hszt htailsorted hbounds' hwft
          have hk0hi' : ∀ p ∈ entriesN c, okHi cmp hi p.1 = true := by
            intro p hp
            have h1 := (hbC p hp).2
            simp only [okHi, decide_eq_true_eq] at h1
            exact okHi_trans hlt₂ k0 p.1 hi h1 hk0hi
          have hlo' : ∀ p ∈ entriesC tl, okLo cmp lo p.1 = true := by
            intro p hp
            have h1 := (hbT p hp).1
            simp only [okLo, decide_eq_true_eq] at h1
            exact okLo_trans hlt₂ k0 p.1 lo hk0lo h1
          constructor
          · intro p hp
            rw [entriesC, List.mem_append] at hp
            rcases hp with hp | hp
            · exact ⟨(hbC p hp).1, hk0hi' p hp⟩
            · exact ⟨hlo' p hp, (hbT p hp).2⟩
          · rw [entriesC, List.pairwise_append]
            refine ⟨hpC, hpT, ?_⟩
            intro p hp q hq
            have h1 := (hbC p hp).2
            simp only [okHi, decide_eq_true_eq] at h1
            have h2 := (hbT q hq).1
            simp only [okLo, decide_eq_true_eq] at h2
            exact hlt₂ p.1 k0 q.1 h1 h2

/-- Refinement of `find` to the sorted-association-list lookup on the
flattened entries: the child-index routing always lands on the unique
chunk that can hold the key. -/
theorem find_spec (hflip : ∀ a b, 0 ≤ cmp a b ↔ cmp b a ≤ 0)
    (hlt₁ : ∀ a b c, cmp a b ≤ 0 → cmp b c < 0 → cmp a c < 0)
    (hlt₂ : ∀ a b c, cmp a b < 0 → cmp b c ≤ 0 → cmp a c < 0) : ∀ n : Nat,
    (∀ (nd : Node K V) (lo hi : Option K) (k : K), sizeN nd ≤ n →
      wfN cmp lo hi nd = true →
      findN cmp nd k = specFind cmp k (entriesN nd)) ∧
    (∀ (ks : List K) (cs : NodeList K V) (lo hi : Option K) (k : K), sizeC cs ≤ n →
      sortedKeys cmp ks = true →
      (∀ x ∈ ks, sepLo cmp lo x = true ∧ okHi cmp hi x = true) →
      wfC cmp lo hi ks cs = true →
      findC cmp cs (childIndex cmp k ks) k = specFind cmp k (entriesC cs)) := by
  intro n
  induction n with
  | zero =>
    constructor
    · intro nd lo hi k hsz
      have := sizeN_pos nd
      omega
    · intro ks cs lo hi k hsz _ _ hwf
      cases cs with
      | nil =>
        cases ks with
        | nil => simp [wfC] at hwf
        | cons a b => simp [wfC] at hwf
      | cons c tl => simp [sizeC] at hsz
  | succ n ih =>
    obtain ⟨ihN, ihC⟩ := ih
    constructor
    · intro nd lo hi k hsz hwf
      cases nd with
      | leaf ks vs =>
        rw [findN, entriesN]
        exact leafFind_specFind k ks vs
      | internal ks cs =>
        rw [wfN, Bool.and_eq_true, Bool.and_eq_true, List.all_eq_true] at hwf
        obtain ⟨⟨hsorted, hbounds⟩, hwfc⟩ := hwf
        rw [findN, entriesN]
        refine ihC ks cs lo hi k (by simp only [sizeN] at hsz; omega) hsorted ?_ hwfc
        intro x hx
        have := hbounds x hx
        rw [Bool.and_eq_true] at this
        exact this
    · intro ks cs lo hi k hsz hsorted hbounds hwf
      cases cs with
      | nil =>
        cases ks with
        | nil => simp [wfC] at hwf
        | cons a b => simp [wfC] at hwf
      | cons c tl =>
        cases ks with
        | nil =>
          cases tl with
          | nil =>
            rw [wfC] at hwf
            rw [childIndex, findC, entriesC, entriesC, List.append_nil]
            exact ihN c lo hi k (by simp only [sizeC] at hsz; omega) hwf
          | cons c2 tl2 => simp [wfC] at hwf
        | cons k0 ks' =>
          rw [wfC, Bool.and_eq_true] at hwf
          obtain ⟨hwfc, hwft⟩ := hwf
          have hszc : sizeN c ≤ n := by
            simp only [sizeC] at hsz
            omega
          have hszt : sizeC tl ≤ n := by
            simp only [sizeC] at hsz
            have := sizeN_pos c
            omega
          rw [sortedKeys, Bool.and_eq_true, List.all_eq_true] at hsorted
          obtain ⟨hhead, htailsorted⟩ := hsorted
          obtain ⟨hk0lo, hk0hi⟩ := hbounds k0 (by simp)
          have hbounds' : ∀ x ∈ ks', sepLo cmp (some k0) x = true ∧ okHi cmp hi x = true := by
            intro x hx
            refine ⟨?_, (hbounds x (by simp [hx])).2⟩
            have := hhead x hx
            simp only [decide_eq_true_eq] at this
            simp only [sepLo, decide_eq_true_eq]
            exact this
          obtain ⟨hbC, -⟩ := (wf_entries hlt₁ hlt₂ (sizeN c)).1 c lo (some k0)
            (le_refl _) hwfc
          obtain ⟨hbT, -⟩ := (wf_entries hlt₁ hlt₂ (sizeC tl)).2 ks' tl (some k0) hi
            (le_refl _) htailsorted hbounds' hwft
          rw [childIndex, entriesC]
          by_cases hk : cmp k k0 < 0
          · rw [if_pos hk, findC]
            rw [specFind_append_of_lt k (entriesN c) (entriesC tl) ?_]
            · exact ihN c lo (some k0) k hszc hwfc
            · intro p hp
              have h1 := (hbT p hp).1
              simp only [okLo, decide_eq_true_eq] at h1
              exact hlt₂ k k0 p.1 hk h1
          · rw [if_neg hk, findC]
            rw [specFind_append_of_gt k (entriesN c) (entriesC tl) ?_]
            · exact ihC ks' tl (some k0) hi k hszt htailsorted hbounds' hwft
            · intro p hp
              have h1 := (hbC p hp).2
              simp only [okHi, decide_eq_true_eq] at h1
              have h2 : cmp k0 k ≤ 0 := by
                have h3 := (hflip k k0).mp (by omega)
                omega
              exact flip_neg hflip p.1 k (hlt₂ p.1 k0 k h1 h2)

theorem sortedKeys_sublist {l1 l2 : List K} (h : l1.Sublist l2)
    (hs : sortedKeys cmp l2 = true) : sortedKeys cmp l1 = true :=
  (sortedKeys_iff_pairwise l1).mpr (((sortedKeys_iff_pairwise l2).mp hs).sublist h)

theorem headD_of_get? (l : List K) (s : Nat) (nk d : K) (h : l.get? s = some nk) :
    (l.drop s).headD d = nk := by
  have hlt : s < l.length := by
    by_contra hc
    rw [List.get?_eq_getElem?, List.getElem?_eq_none (by omega)] at h
    exact absurd h (by simp)
  rw [List.get?_eq_getElem?, List.getElem?_eq_getElem hlt] at h
  rw [List.drop_eq_getElem_cons hlt, List.headD_cons]
  simpa using h

theorem mem_drop_head (l : List K) (s : Nat) (nk : K) (h : l.get? s = some nk) :
    nk ∈ l.drop s := by
  have hlt : s < l.length := by
    by_contra hc
    rw [List.get?_eq_getElem?, List.getElem?_eq_none (by omega)] at h
    exact absurd h (by simp)
  rw [List.get?_eq_getElem?, List.getElem?_eq_getElem hlt] at h
  rw [List.drop_eq_getElem_cons hlt]
  simp only [List.mem_cons]
  left
  simpa using h.symm

/-- Splitting a well-formed leaf at an interior position `s` yields two
well-formed leaves separated by the promoted key `ks[s]`. -/
theorem leaf_split_spec (hflip : ∀ a b, 0 ≤ cmp a b ↔ cmp b a ≤ 0)
    (hlt₁ : ∀ a b c, cmp a b ≤ 0 → cmp b c < 0 → cmp a c < 0)
    (ks1 : List K) (vs1 : List V) (lo hi : Option K)
    (hlen : ks1.length = vs1.length)
    (hsorted : sortedKeys cmp ks1 = true)
    (hbounds : ∀ x ∈ ks1, okLo cmp lo x = true ∧ okHi cmp hi x = true)
    (s : Nat) (nk : K) (hget : ks1.get? s = some nk) (hs1 : 1 ≤ s) :
    wfN cmp lo (some nk) (Node.leaf (ks1.take s) (vs1.take s) : Node K V) = true ∧
    wfN cmp (some nk) hi (Node.leaf (ks1.drop s) (vs1.drop s) : Node K V) = true ∧
    sepLo cmp lo nk = true ∧ okHi cmp hi nk = true := by
  have hslen : s < ks1.length := by
    by_contra hc
    rw [List.get?_eq_getElem?, List.getElem?_eq_none (by omega)] at hget
    exact absurd hget (by simp)
  have hnkdrop : nk ∈ ks1.drop s := mem_drop_head ks1 s nk hget
  have hnkmem : nk ∈ ks1 := List.drop_subset s ks1 hnkdrop
  have hpw := (sortedKeys_iff_pairwise ks1).mp hsorted
  have hpw2 : List.Pairwise (fun a b => cmp a b < 0) (ks1.take s ++ ks1.drop s) := by
    rw [List.take_append_drop]
    exact hpw
  rw [List.pairwise_append] at hpw2
  obtain ⟨hpwT, hpwD, hcross⟩ := hpw2
  have hdropeq : ks1.drop s = nk :: ks1.drop (s + 1) := by
    rw [List.get?_eq_getElem?, List.getElem?_eq_getElem hslen] at hget
    rw [List.drop_eq_getElem_cons hslen]
    simp only [List.cons.injEq]
    exact ⟨by simpa using hget, trivial⟩
  refine ⟨?_, ?_, ?_, ?_⟩
  · rw [wfN, Bool.and_eq_true, Bool.and_eq_true]
    refine ⟨⟨?_, ?_⟩, ?_⟩
    · simp [List.length_take, hlen]
    · exact (sortedKeys_iff_pairwise _).mpr hpwT
    · rw [List.all_eq_true]
      intro x hx
      rw [Bool.and_eq_true]
      refine ⟨(hbounds x (List.take_subset s ks1 hx)).1, ?_⟩
      simp only [okHi, decide_eq_true_eq]
      exact hcross x hx nk hnkdrop
  · rw [wfN, Bool.and_eq_true, Bool.and_eq_true]
    refine ⟨⟨?_, ?_⟩, ?_⟩
    · simp [List.length_drop, hlen]
    · exact (sortedKeys_iff_pairwise _).mpr hpwD
    · rw [List.all_eq_true]
      intro x hx
      rw [Bool.and_eq_true]
      refine ⟨?_, (hbounds x (List.drop_subset s ks1 hx)).2⟩
      simp only [okLo, decide_eq_true_eq]
      rw [hdropeq] at hx
      rcases List.mem_cons.mp hx with rfl | hx'
      · have := cmp_self_eq hflip x
        omega
      · rw [hdropeq, List.pairwise_cons] at hpwD
        have := hpwD.1 x hx'
        omega
  · have htake : ∃ y rest, ks1.take s = y :: rest := by
      cases htk : ks1.take s with
      | nil =>
        have : (ks1.take s).length = s := by
          rw [List.length_take]
          omega
        rw [htk] at this
        simp at this
        omega
      | cons y rest => exact ⟨y, rest, rfl⟩
    obtain ⟨y, rest, hyrest⟩ := htake
    have hy : y ∈ ks1.take s := by
      rw [hyrest]
      simp
    exact sepLo_trans hlt₁ y nk lo (hbounds y (List.take_subset s ks1 hy)).1
      (hcross y hy nk hnkdrop)
  · exact (hbounds nk hnkmem).2

/-- Splitting a well-formed separator/child zip at an interior separator
`s` yields two well-formed internal nodes separated by `ks[s]`. -/
theorem internal_split_spec (ks1 : List K) (cs1 : NodeList K V) (lo hi : Option K)
    (hsorted : sortedKeys cmp ks1 = true)
    (hbounds : ∀ x ∈ ks1, sepLo cmp lo x = true ∧ okHi cmp hi x = true)
    (hwfc : wfC cmp lo hi ks1 cs1 = true)
    (s : Nat) (nk : K) (hget : ks1.get? s = some nk) :
    wfN cmp lo (some nk)
      (Node.internal (ks1.take s) (NodeList.take cs1 (s + 1)) : Node K V) = true ∧
    wfN cmp (some nk) hi
      (Node.internal (ks1.drop (s + 1)) (NodeList.drop cs1 (s + 1)) : Node K V) = true ∧
    sepLo cmp lo nk = true ∧ okHi cmp hi nk = true := by
  have hslen : s < ks1.length := by
    by_contra hc
    rw [List.get?_eq_getElem?, List.getElem?_eq_none (by omega)] at hget
    exact absurd hget (by simp)
  have hnkdrop : nk ∈ ks1.drop s := mem_drop_head ks1 s nk hget
  have hnkmem : nk ∈ ks1 := List.drop_subset s ks1 hnkdrop
  have hpw := (sortedKeys_iff_pairwise ks1).mp hsorted
  have hpw2 : List.Pairwise (fun a b => cmp a b < 0) (ks1.take s ++ ks1.drop s) := by
    rw [List.take_append_drop]
    exact hpw
  rw [List.pairwise_append] at hpw2
  obtain ⟨hpwT, hpwD, hcross⟩ := hpw2
  have hdropeq : ks1.drop s = nk :: ks1.drop (s + 1) := by
    rw [List.get?_eq_getElem?, List.getElem?_eq_getElem hslen] at hget
    rw [List.drop_eq_getElem_cons hslen]
    simp only [List.cons.injEq]
    exact ⟨by simpa using hget, trivial⟩
  obtain ⟨hwfL, hwfR⟩ := wfC_split ks1 cs1 lo hi s nk hwfc hget
  refine ⟨?_, ?_, (hbounds nk hnkmem).1, (hbounds nk hnkmem).2⟩
  · rw [wfN, Bool.and_eq_true, Bool.and_eq_true]
    refine ⟨⟨?_, ?_⟩, hwfL⟩
    · exact (sortedKeys_iff_pairwise _).mpr hpwT
    · rw [List.all_eq_true]
      intro x hx
      rw [Bool.and_eq_true]
      refine ⟨(hbounds x (List.take_subset s ks1 hx)).1, ?_⟩
      simp only [okHi, decide_eq_true_eq]
      exact hcross x hx nk hnkdrop
  · rw [wfN, Bool.and_eq_true, Bool.and_eq_true]
    refine ⟨⟨?_, ?_⟩, hwfR⟩
    · exact sortedKeys_sublist ((List.drop_sublist (s + 1) ks1)) hsorted
    · rw [List.all_eq_true]
      intro x hx
      rw [Bool.and_eq_true]
      refine ⟨?_, (hbounds x (List.drop_subset (s + 1) ks1 hx)).2⟩
      simp only [sepLo, decide_eq_true_eq]
      rw [hdropeq, List.pairwise_cons] at hpwD
      exact hpwD.1 x hx

theorem childIndex_le_length (k : K) : ∀ ks : List K,
    childIndex cmp k ks ≤ ks.length := by
  intro ks
  induction ks with
  | nil => simp [childIndex]
  | cons k0 t ih =>
    rw [childIndex]
    split
    · simp
    · simpa using ih

/-- The leaf case of the insert refinement: updating in place on a
duplicate, inserting at the scan position otherwise, splitting at the
midpoint when over `maxKeys`. -/
theorem insert_leaf_spec (hflip : ∀ a b, 0 ≤ cmp a b ↔ cmp b a ≤ 0)
    (hlt₁ : ∀ a b c, cmp a b ≤ 0 → cmp b c < 0 → cmp a c < 0)
    (hlt₂ : ∀ a b c, cmp a b < 0 → cmp b c ≤ 0 → cmp a c < 0)
    (maxK : Nat) (hmax : 1 ≤ maxK) (k : K) (v : V)
    (ks : List K) (vs : List V) (lo hi : Option K) (nd1 : Node K V)
    (sp : Option (K × Node K V))
    (hwf : wfN cmp lo hi (Node.leaf ks vs : Node K V) = true)
    (hk1 : okLo cmp lo k = true) (hk2 : okHi cmp hi k = true)
    (heq : insertN cmp maxK k v (Node.leaf ks vs) = (nd1, sp)) :
    (sp = none → wfN cmp lo hi nd1 = true ∧
      entriesN nd1 = specInsert cmp k v (entriesN (Node.leaf ks vs))) ∧
    (∀ nk nn, sp = some (nk, nn) →
      wfN cmp lo (some nk) nd1 = true ∧ wfN cmp (some nk) hi nn = true ∧
      sepLo cmp lo nk = true ∧ okHi cmp hi nk = true ∧
      entriesN nd1 ++ entriesN nn = specInsert cmp k v (entriesN (Node.leaf ks vs))) := by
  rw [wfN, Bool.and_eq_true, Bool.and_eq_true] at hwf
  obtain ⟨⟨hlen, hsorted⟩, hboundsb⟩ := hwf
  rw [beq_iff_eq] at hlen
  have hbounds : ∀ x ∈ ks, okLo cmp lo x = true ∧ okHi cmp hi x = true := by
    intro x hx
    have h1 := List.all_eq_true.mp hboundsb x hx
    rw [Bool.and_eq_true] at h1
    exact h1
  rw [insertN] at heq
  cases hscan : leafScan cmp k ks with
  | mk idx dup =>
    rw [hscan] at heq
    have hidx : idx ≤ ks.length := by
      have := @leafScan_le_length K cmp k ks
      rw [hscan] at this
      simpa using this
    cases dup with
    | true =>
      simp only [] at heq
      rw [Prod.mk.injEq] at heq
      obtain ⟨hnd, hsp⟩ := heq
      subst hnd
      subst hsp
      constructor
      · intro _
        constructor
        · rw [wfN, Bool.and_eq_true, Bool.and_eq_true, beq_iff_eq]
          exact ⟨⟨by simp [hlen], hsorted⟩, hboundsb⟩
        · rw [entriesN, entriesN]
          exact leafScan_dup_spec k v ks vs idx hlen hscan
      · intro nk nn h
        simp at h
    | false =>
      simp only [] at heq
      by_cases hfits : (ks.insertIdx idx k).length ≤ maxK
      · rw [if_pos hfits] at heq
        rw [Prod.mk.injEq] at heq
        obtain ⟨hnd, hsp⟩ := heq
        subst hnd
        subst hsp
        constructor
        · intro _
          constructor
          · rw [wfN, Bool.and_eq_true, Bool.and_eq_true, beq_iff_eq]
            refine ⟨⟨?_, ?_⟩, ?_⟩
            · rw [List.length_insertIdx idx ks hidx,
                List.length_insertIdx idx vs (by omega)]
              omega
            · exact leafScan_insert_sorted hflip hlt₂ k ks idx hsorted hscan
            · exact insertIdx_all _ k ks idx hidx hboundsb
                (by rw [Bool.and_eq_true]; exact ⟨hk1, hk2⟩)
          · rw [entriesN, entriesN]
            exact leafScan_fresh_spec k v ks vs idx hlen hscan
        · intro nk nn h
          simp at h
      · rw [if_neg hfits] at heq
        rw [Prod.mk.injEq] at heq
        obtain ⟨hnd, hsp⟩ := heq
        subst hnd
        constructor
        · intro h0
          rw [← hsp] at h0
          simp at h0
        · intro nk nn hsome
          rw [← hsp, Option.some.injEq, Prod.mk.injEq] at hsome
          obtain ⟨hnk, hnn⟩ := hsome
          subst hnk
          subst hnn
          have hlen1 : (ks.insertIdx idx k).length = ks.length + 1 :=
            List.length_insertIdx idx ks hidx
          have hlen1v : (vs.insertIdx idx v).length = vs.length + 1 :=
            List.length_insertIdx idx vs (by omega)
          have hs2 : 2 ≤ (ks.insertIdx idx k).length := by omega
          have hs1 : 1 ≤ (ks.insertIdx idx k).length / 2 := by omega
          have hslen : (ks.insertIdx idx k).length / 2 < (ks.insertIdx idx k).length := by
            omega
          have hget : (ks.insertIdx idx k).get? ((ks.insertIdx idx k).length / 2)
              = some (((ks.insertIdx idx k).drop ((ks.insertIdx idx k).length / 2)).headD k) := by
            rw [List.get?_eq_getElem?, List.getElem?_eq_getElem hslen,
              List.drop_eq_getElem_cons hslen, List.headD_cons]
          have hsorted1 := leafScan_insert_sorted hflip hlt₂ k ks idx hsorted hscan
          have hbounds1 : ∀ x ∈ ks.insertIdx idx k,
              okLo cmp lo x = true ∧ okHi cmp hi x = true := by
            intro x hx
            have h1 := List.all_eq_true.mp (insertIdx_all _ k ks idx hidx hboundsb
              (by rw [Bool.and_eq_true]; exact ⟨hk1, hk2⟩)) x hx
            rw [Bool.and_eq_true] at h1
            exact h1
          obtain ⟨hwfL, hwfR, hsep, hokhi⟩ := leaf_split_spec hflip hlt₁
            (ks.insertIdx idx k) (vs.insertIdx idx v) lo hi (by omega)
            hsorted1 hbounds1 ((ks.insertIdx idx k).length / 2) _ hget hs1
          refine ⟨hwfL, hwfR, hsep, hokhi, ?_⟩
          rw [entriesN, entriesN, entriesN]
          rw [zip_take_drop (ks.insertIdx idx k) (vs.insertIdx idx v) _ (by omega)]
          exact leafScan_fresh_spec k v ks vs idx hlen hscan

theorem sepLo_strict_trans (hlt₂ : ∀ a b c, cmp a b < 0 → cmp b c ≤ 0 → cmp a c < 0)
    (k0 x : K) (lo : Option K) (h1 : sepLo cmp lo k0 = true) (h2 : cmp k0 x < 0) :
    sepLo cmp lo x = true := by
  cases lo with
  | none => simp [sepLo]
  | some l =>
    simp only [sepLo, decide_eq_true_eq] at h1 ⊢
    exact hlt₂ l k0 x h1 (by omega)

/-- The insert refinement: on a well-formed subtree whose routing interval
admits the key, `insert` preserves well-formedness (splitting into two
well-formed halves with a correctly bounded promoted separator when over
`maxKeys`) and acts on the flattened entries exactly as the
sorted-association-list upsert. -/
theorem insert_spec (hflip : ∀ a b, 0 ≤ cmp a b ↔ cmp b a ≤ 0)
    (hlt₁ : ∀ a b c, cmp a b ≤ 0 → cmp b c < 0 → cmp a c < 0)
    (hlt₂ : ∀ a b c, cmp a b < 0 → cmp b c ≤ 0 → cmp a c < 0)
    (maxK : Nat) (hmax : 1 ≤ maxK) (k : K) (v : V) : ∀ n : Nat,
    (∀ (nd : Node K V) (lo hi : Option K) (nd1 : Node K V)
      (sp : Option (K × Node K V)),
      sizeN nd ≤ n → wfN cmp lo hi nd = true →
      okLo cmp lo k = true → okHi cmp hi k = true →
      insertN cmp maxK k v nd = (nd1, sp) →
      (sp = none → wfN cmp lo hi nd1 = true ∧
        entriesN nd1 = specInsert cmp k v (entriesN nd)) ∧
      (∀ nk nn, sp = some (nk, nn) →
        wfN cmp lo (some nk) nd1 = true ∧ wfN cmp (some nk) hi nn = true ∧
        sepLo cmp lo nk = true ∧ okHi cmp hi nk = true ∧
        entriesN nd1 ++ entriesN nn = specInsert cmp k v (entriesN nd))) ∧
    (∀ (ks : List K) (cs : NodeList K V) (lo hi : Option K) (cs1 : NodeList K V)
      (sp : Option (K × Node K V)),
      sizeC cs ≤ n → sortedKeys cmp ks = true →
      (∀ x ∈ ks, sepLo cmp lo x = true ∧ okHi cmp hi x = true) →
      wfC cmp lo hi ks cs = true →
      okLo cmp lo k = true → okHi cmp hi k = true →
      insertC cmp maxK k v cs (childIndex cmp k ks) = (cs1, sp) →
      (sp = none → wfC cmp lo hi ks cs1 = true ∧
        entriesC cs1 = specInsert cmp k v (entriesC cs)) ∧
      (∀ nk nn, sp = some (nk, nn) →
        sortedKeys cmp (ks.insertIdx (childIndex cmp k ks) nk) = true ∧
        (∀ x ∈ ks.insertIdx (childIndex cmp k ks) nk,
          sepLo cmp lo x = true ∧ okHi cmp hi x = true) ∧
        wfC cmp lo hi (ks.insertIdx (childIndex cmp k ks) nk)
          (NodeList.insertAt cs1 (childIndex cmp k ks + 1) nn) = true ∧
        entriesC (NodeList.insertAt cs1 (childIndex cmp k ks + 1) nn)
          = specInsert cmp k v (entriesC cs))) := by
  intro n
  induction n with
  | zero =>
    constructor
    · intro nd lo hi nd1 sp hsz
      have := sizeN_pos nd
      omega
    · intro ks cs lo hi cs1 sp hsz _ _ hwf
      cases cs with
      | nil =>
        cases ks with
        | nil => simp [wfC] at hwf
        | cons a b => simp [wfC] at hwf
      | cons c tl => simp [sizeC] at hsz
  | succ n ih =>
    obtain ⟨ihN, ihC⟩ := ih
    constructor
    · intro nd lo hi nd1 sp hsz hwf hk1 hk2 heq
      cases nd with
      | leaf ks vs =>
        exact insert_leaf_spec hflip hlt₁ hlt₂ maxK hmax k v ks vs lo hi nd1 sp
          hwf hk1 hk2 heq
      | internal ks cs =>
        rw [wfN, Bool.and_eq_true, Bool.and_eq_true] at hwf
        obtain ⟨⟨hsorted, hboundsb⟩, hwfc⟩ := hwf
        have hbounds : ∀ x ∈ ks, sepLo cmp lo x = true ∧ okHi cmp hi x = true := by
          intro x hx
          have h1 := List.all_eq_true.mp hboundsb x hx
          rw [Bool.and_eq_true] at h1
          exact h1
        have hszc : sizeC cs ≤ n := by
          simp only [sizeN] at hsz
          omega
        rw [insertN] at heq
        simp only [] at heq
        cases hins : insertC cmp maxK k v cs (childIndex cmp k ks) with
        | mk cs0 sp0 =>
          rw [hins] at heq
          obtain ⟨hC1, hC2⟩ := ihC ks cs lo hi cs0 sp0 hszc hsorted hbounds hwfc
            hk1 hk2 hins
          cases sp0 with
          | none =>
            simp only [] at heq
            rw [Prod.mk.injEq] at heq
            obtain ⟨hnd, hsp⟩ := heq
            subst hnd
            subst hsp
            obtain ⟨hwf1, hent⟩ := hC1 rfl
            refine ⟨fun _ => ⟨?_, ?_⟩, fun nk nn h => by simp at h⟩
            · rw [wfN, Bool.and_eq_true, Bool.and_eq_true]
              exact ⟨⟨hsorted, hboundsb⟩, hwf1⟩
            · rw [entriesN, entriesN]
              exact hent
          | some p =>
            obtain ⟨nk0, nn0⟩ := p
            simp only [] at heq
            obtain ⟨hS, hB, hW, hE⟩ := hC2 nk0 nn0 rfl
            have hidx : childIndex cmp k ks ≤ ks.length := childIndex_le_length k ks
            have hlen1 : (ks.insertIdx (childIndex cmp k ks) nk0).length
                = ks.length + 1 := List.length_insertIdx _ ks hidx
            by_cases hfits : (ks.insertIdx (childIndex cmp k ks) nk0).length ≤ maxK
            · rw [if_pos hfits] at heq
              rw [Prod.mk.injEq] at heq
              obtain ⟨hnd, hsp⟩ := heq
              subst hnd
              subst hsp
              refine ⟨fun _ => ⟨?_, ?_⟩, fun nk nn h => by simp at h⟩
              · rw [wfN, Bool.and_eq_true, Bool.and_eq_true, List.all_eq_true]
                refine ⟨⟨hS, ?_⟩, hW⟩
                intro x hx
                rw [Bool.and_eq_true]
                exact hB x hx
              · rw [entriesN, entriesN]
                exact hE
            · rw [if_neg hfits] at heq
              rw [Prod.mk.injEq] at heq
              obtain ⟨hnd, hsp⟩ := heq
              subst hnd
              constructor
              · intro h0
                rw [← hsp] at h0
                simp at h0
              · intro nk nn hsome
                rw [← hsp, Option.some.injEq, Prod.mk.injEq] at hsome
                obtain ⟨hnk, hnn⟩ := hsome
                subst hnk
                subst hnn
                have hs2 : 2 ≤ (ks.insertIdx (childIndex cmp k ks) nk0).length := by
                  omega
                have hs1 : 1 ≤ (ks.insertIdx (childIndex cmp k ks) nk0).length / 2 := by
                  omega
                have hslen : (ks.insertIdx (childIndex cmp k ks) nk0).length / 2
                    < (ks.insertIdx (childIndex cmp k ks) nk0).length := by
                  omega
                have hget : (ks.insertIdx (childIndex cmp k ks) nk0).get?
                    ((ks.insertIdx (childIndex cmp k ks) nk0).length / 2)
                    = some (((ks.insertIdx (childIndex cmp k ks) nk0).drop
                      ((ks.insertIdx (childIndex cmp k ks) nk0).length / 2)).headD k) := by
                  rw [List.get?_eq_getElem?, List.getElem?_eq_getElem hslen,
                    List.drop_eq_getElem_cons hslen, List.headD_cons]
                obtain ⟨hwfL, hwfR, hsep, hokhi⟩ := internal_split_spec
                  (ks.insertIdx (childIndex cmp k ks) nk0)
                  (NodeList.insertAt cs0 (childIndex cmp k ks + 1) nn0) lo hi
                  hS hB hW _ _ hget
                refine ⟨hwfL, hwfR, hsep, hokhi, ?_⟩
                rw [entriesN, entriesN, entriesN]
                rw [entriesC_take_drop
                  ((NodeList.insertAt cs0 (childIndex cmp k ks + 1) nn0).len) _
                  (le_refl _) _]
                exact hE
    · intro ks cs lo hi cs1 sp hsz hsorted hbounds hwfc hk1 hk2 heq
      cases cs with
      | nil =>
        cases ks with
        | nil => simp [wfC] at hwfc
        | cons a b => simp [wfC] at hwfc
      | cons c tl =>
        have hszc : sizeN c ≤ n := by
          simp only [sizeC] at hsz
          omega
        have hszt : sizeC tl ≤ n := by
          simp only [sizeC] at hsz
          have := sizeN_pos c
          omega
        cases ks with
        | nil =>
          cases tl with
          | cons c2 tl2 => simp [wfC] at hwfc
          | nil =>
            rw [wfC] at hwfc
            rw [childIndex] at heq
            rw [insertC] at heq
            cases hinsN : insertN cmp maxK k v c with
            | mk c1 spN =>
              rw [hinsN] at heq
              simp only [] at heq
              rw [Prod.mk.injEq] at heq
              obtain ⟨hcs, hsp⟩ := heq
              subst hcs
              obtain ⟨hN1, hN2⟩ := ihN c lo hi c1 spN hszc hwfc hk1 hk2 hinsN
              cases spN with
              | none =>
                subst hsp
                refine ⟨fun _ => ⟨?_, ?_⟩, fun nk nn h => by simp at h⟩
                · rw [wfC]
                  exact (hN1 rfl).1
                · rw [entriesC, entriesC, entriesC, entriesC, List.append_nil,
                    List.append_nil]
                  exact (hN1 rfl).2
              | some p =>
                obtain ⟨nk0, nn0⟩ := p
                subst hsp
                refine ⟨fun h => by simp at h, fun nk nn hsome => ?_⟩
                rw [Option.some.injEq, Prod.mk.injEq] at hsome
                obtain ⟨hnk, hnn⟩ := hsome
                subst hnk
                subst hnn
                obtain ⟨hw1, hw2, hsep, hokhi, hent⟩ := hN2 nk0 nn0 rfl
                simp only [childIndex, List.insertIdx_zero, NodeList.insertAt]
                refine ⟨?_, ?_, ?_, ?_⟩
                · rw [sortedKeys, Bool.and_eq_true]
                  exact ⟨by simp, by rw [sortedKeys]⟩
                · intro x hx
                  rcases List.mem_cons.mp hx with rfl | hx'
                  · exact ⟨hsep, hokhi⟩
                  · simp at hx'
                · rw [wfC, Bool.and_eq_true]
                  refine ⟨hw1, ?_⟩
                  rw [wfC]
                  exact hw2
                · rw [entriesC, entriesC, entriesC, entriesC, entriesC,
                    List.append_nil, List.append_nil]
                  exact hent
        | cons k0 ks' =>
          rw [wfC, Bool.and_eq_true] at hwfc
          obtain ⟨hwfcc, hwft⟩ := hwfc
          rw [sortedKeys, Bool.and_eq_true, List.all_eq_true] at hsorted
          obtain ⟨hhead, htailsorted⟩ := hsorted
          obtain ⟨hk0lo, hk0hi⟩ := hbounds k0 (by simp)
          have hbounds' : ∀ x ∈ ks', sepLo cmp (some k0) x = true ∧
              okHi cmp hi x = true := by
            intro x hx
            refine ⟨?_, (hbounds x (by simp [hx])).2⟩
            have := hhead x hx
            simp only [decide_eq_true_eq] at this
            simp only [sepLo, decide_eq_true_eq]
            exact this
          rw [childIndex] at heq
          by_cases hk : cmp k k0 < 0
          · rw [if_pos hk] at heq
            rw [insertC] at heq
            cases hinsN : insertN cmp maxK k v c with
            | mk c1 spN =>
              rw [hinsN] at heq
              simp only [] at heq
              rw [Prod.mk.injEq] at heq
              obtain ⟨hcs, hsp⟩ := heq
              subst hcs
              obtain ⟨hN1, hN2⟩ := ihN c lo (some k0) c1 spN hszc hwfcc hk1
                (by simp [okHi, hk]) hinsN
              obtain ⟨hbT, -⟩ := (wf_entries hlt₁ hlt₂ (sizeC tl)).2 ks' tl
                (some k0) hi (le_refl _) htailsorted hbounds' hwft
              have hBlt : ∀ p ∈ entriesC tl, cmp k p.1 < 0 := by
                intro p hp
                have h1 := (hbT p hp).1
                simp only [okLo, decide_eq_true_eq] at h1
                exact hlt₂ k k0 p.1 hk h1
              cases spN with
              | none =>
                subst hsp
                refine ⟨fun _ => ⟨?_, ?_⟩, fun nk nn h => by simp at h⟩
                · rw [wfC, Bool.and_eq_true]
                  refine ⟨(hN1 rfl).1, hwft⟩
                · rw [entriesC, entriesC]
                  rw [specInsert_append_of_lt k v (entriesN c) (entriesC tl) hBlt]
                  rw [(hN1 rfl).2]
              | some p =>
                obtain ⟨nk0, nn0⟩ := p
                subst hsp
                refine ⟨fun h => by simp at h, fun nk nn hsome => ?_⟩
                rw [Option.some.injEq, Prod.mk.injEq] at hsome
                obtain ⟨hnk, hnn⟩ := hsome
                subst hnk
                subst hnn
                obtain ⟨hw1, hw2, hsep, hokhi, hent⟩ := hN2 nk0 nn0 rfl
                have hnkk0 : cmp nk0 k0 < 0 := by
                  have := hokhi
                  simp only [okHi, decide_eq_true_eq] at this
                  exact this
                simp only [childIndex, if_pos hk, List.insertIdx_zero,
                  NodeList.insertAt, nl_insertAt_zero]
                refine ⟨?_, ?_, ?_, ?_⟩
                · rw [sortedKeys, Bool.and_eq_true, List.all_eq_true]
                  constructor
                  · intro x hx
                    rcases List.mem_cons.mp hx with rfl | hx'
                    · simpa using hnkk0
                    · have := hhead x hx'
                      simp only [decide_eq_true_eq] at this ⊢
                      exact hlt₂ nk0 k0 x hnkk0 (by omega)
                  · rw [sortedKeys, Bool.and_eq_true, List.all_eq_true]
                    exact ⟨hhead, htailsorted⟩
                · intro x hx
                  rcases List.mem_cons.mp hx with rfl | hx'
                  · exact ⟨hsep, okHi_trans hlt₂ k0 x hi hnkk0 hk0hi⟩
                  · rcases List.mem_cons.mp hx' with rfl | hx''
                    · exact ⟨hk0lo, hk0hi⟩
                    · exact hbounds x (by simp [hx''])
                · rw [wfC, Bool.and_eq_true]
                  refine ⟨hw1, ?_⟩
                  rw [wfC, Bool.and_eq_true]
                  exact ⟨hw2, hwft⟩
                · rw [entriesC, entriesC, entriesC]
                  rw [specInsert_append_of_lt k v (entriesN c) (entriesC tl) hBlt]
                  rw [← hent, List.append_assoc]
          · rw [if_neg hk] at heq
            rw [insertC] at heq
            have hk0k : cmp k0 k ≤ 0 := by
              have := (hflip k k0).mp (by omega)
              omega
            cases hinsT : insertC cmp maxK k v tl (childIndex cmp k ks') with
            | mk tl1 spT =>
              rw [hinsT] at heq
              simp only [] at heq
              rw [Prod.mk.injEq] at heq
              obtain ⟨hcs, hsp⟩ := heq
              subst hcs
              obtain ⟨hT1, hT2⟩ := ihC ks' tl (some k0) hi tl1 spT hszt htailsorted
                hbounds' hwft (by simp [okLo]; omega) hk2 hinsT
              obtain ⟨hbC, -⟩ := (wf_entries hlt₁ hlt₂ (sizeN c)).1 c lo (some k0)
                (le_refl _) hwfcc
              have hAgt : ∀ p ∈ entriesN c, 0 < cmp k p.1 := by
                intro p hp
                have h1 := (hbC p hp).2
                simp only [okHi, decide_eq_true_eq] at h1
                exact flip_neg hflip p.1 k (hlt₂ p.1 k0 k h1 hk0k)
              cases spT with
              | none =>
                subst hsp
                refine ⟨fun _ => ⟨?_, ?_⟩, fun nk nn h => by simp at h⟩
                · rw [wfC, Bool.and_eq_true]
                  exact ⟨hwfcc, (hT1 rfl).1⟩
                · rw [entriesC, entriesC]
                  rw [specInsert_append_of_gt k v (entriesN c) (entriesC tl) hAgt]
                  rw [(hT1 rfl).2]
              | some p =>
                obtain ⟨nk0, nn0⟩ := p
                subst hsp
                refine ⟨fun h => by simp at h, fun nk nn hsome => ?_⟩
                rw [Option.some.injEq, Prod.mk.injEq] at hsome
                obtain ⟨hnk, hnn⟩ := hsome
                subst hnk
                subst hnn
                obtain ⟨hS, hB, hW, hE⟩ := hT2 nk0 nn0 rfl
                simp only [childIndex, if_neg hk, List.insertIdx_succ_cons,
                  NodeList.insertAt]
                refine ⟨?_, ?_, ?_, ?_⟩
                · rw [sortedKeys, Bool.and_eq_true, List.all_eq_true]
                  constructor
                  · intro x hx
                    have := (hB x hx).1
                    simp only [sepLo, decide_eq_true_eq] at this
                    simpa using this
                  · exact hS
                · intro x hx
                  rcases List.mem_cons.mp hx with rfl | hx'
                  · exact ⟨hk0lo, hk0hi⟩
                  · refine ⟨?_, (hB x hx').2⟩
                    have h1 := (hB x hx').1
                    simp only [sepLo, decide_eq_true_eq] at h1
                    exact sepLo_strict_trans hlt₂ k0 x lo hk0lo h1
                · rw [wfC, Bool.and_eq_true]
                  exact ⟨hwfcc, hW⟩
                · rw [entriesC, entriesC]
                  rw [specInsert_append_of_gt k v (entriesN c) (entriesC tl) hAgt]
                  rw [hE]

end CmpLaws

/-! Tree-level corollaries of the refinement lemmas. -/

/-- `Find` on a well-formed tree is the sorted-association-list lookup on
the flattened entries. -/
theorem Find_spec_tree (t : BPTree K V) (k : K)
    (hflip : ∀ a b, 0 ≤ t.compare a b ↔ t.compare b a ≤ 0)
    (hlt₁ : ∀ a b c, t.compare a b ≤ 0 → t.compare b c < 0 → t.compare a c < 0)
    (hlt₂ : ∀ a b c, t.compare a b < 0 → t.compare b c ≤ 0 → t.compare a c < 0)
    (hwf : wfT t = true) :
    Find t k = specFind t.compare k (entriesT t) := by
  rw [wfT, Bool.and_eq_true] at hwf
  obtain ⟨-, hrootwf⟩ := hwf
  cases hr : t.root with
  | none => simp [Find, entriesT, hr, specFind]
  | some r =>
    rw [hr] at hrootwf
    simp only [Find, entriesT, hr]
    exact (find_spec hflip hlt₁ hlt₂ (sizeN r)).1 r none none k (le_refl _) hrootwf

/-- The entries of a well-formed tree have strictly ascending keys. -/
theorem entriesT_pairwise (t : BPTree K V)
    (hlt₁ : ∀ a b c, t.compare a b ≤ 0 → t.compare b c < 0 → t.compare a c < 0)
    (hlt₂ : ∀ a b c, t.compare a b < 0 → t.compare b c ≤ 0 → t.compare a c < 0)
    (hwf : wfT t = true) :
    List.Pairwise (fun p q : K × V => t.compare p.1 q.1 < 0) (entriesT t) := by
  rw [wfT, Bool.and_eq_true] at hwf
  obtain ⟨-, hrootwf⟩ := hwf
  cases hr : t.root with
  | none => simp [entriesT, hr]
  | some r =>
    rw [hr] at hrootwf
    simp only [entriesT, hr]
    exact ((wf_entries hlt₁ hlt₂ (sizeN r)).1 r none none (le_refl _) hrootwf).2

/-- `Insert` preserves tree well-formedness and acts on the entries as the
sorted-association-list upsert; the comparator and `maxKeys` are
untouched. -/
theorem Insert_tree_spec (t : BPTree K V) (k : K) (v : V)
    (hflip : ∀ a b, 0 ≤ t.compare a b ↔ t.compare b a ≤ 0)
    (hlt₁ : ∀ a b c, t.compare a b ≤ 0 → t.compare b c < 0 → t.compare a c < 0)
    (hlt₂ : ∀ a b c, t.compare a b < 0 → t.compare b c ≤ 0 → t.compare a c < 0)
    (hwf : wfT t = true) :
    wfT (Insert t k v) = true ∧
    entriesT (Insert t k v) = specInsert t.compare k v (entriesT t) ∧
    (Insert t k v).compare = t.compare := by
  rw [wfT, Bool.and_eq_true] at hwf
  obtain ⟨hmaxb, hrootwf⟩ := hwf
  rw [decide_eq_true_eq] at hmaxb
  have hroot : wfN t.compare none none (t.root.getD (Node.leaf [] [])) = true ∧
      entriesN (t.root.getD (Node.leaf [] [])) = entriesT t := by
    cases hr : t.root with
    | none =>
      constructor
      · rw [Option.getD_none, wfN]
        rfl
      · rw [Option.getD_none, entriesN, entriesT, hr]
        rfl
    | some r =>
      rw [hr] at hrootwf
      rw [Option.getD_some]
      exact ⟨hrootwf, by rw [entriesT, hr]⟩
  rw [Insert]
  cases hins : insertN t.compare t.maxKeys k v (t.root.getD (Node.leaf [] [])) with
  | mk r1 sp =>
    obtain ⟨hN1, hN2⟩ := (insert_spec hflip hlt₁ hlt₂ t.maxKeys hmaxb k v
      (sizeN (t.root.getD (Node.leaf [] [])))).1
      (t.root.getD (Node.leaf [] [])) none none r1 sp (le_refl _) hroot.1
      rfl rfl hins
    cases sp with
    | none =>
      simp only []
      obtain ⟨hw1, hent⟩ := hN1 rfl
      refine ⟨?_, ?_, trivial⟩
      · rw [wfT, Bool.and_eq_true]
        constructor
        · rw [decide_eq_true_eq]
          exact hmaxb
        · exact hw1
      · rw [entriesT]
        simp only []
        rw [hent, hroot.2]
    | some p =>
      obtain ⟨nk, nn⟩ := p
      simp only []
      obtain ⟨hw1, hw2, hsep, hokhi, hent⟩ := hN2 nk nn rfl
      refine ⟨?_, ?_, trivial⟩
      · rw [wfT, Bool.and_eq_true]
        constructor
        · rw [decide_eq_true_eq]
          exact hmaxb
        · simp only []
          rw [wfN, Bool.and_eq_true, Bool.and_eq_true]
          refine ⟨⟨?_, ?_⟩, ?_⟩
          · rw [sortedKeys]
            rfl
          · simp [sepLo, okHi]
          · rw [wfC, Bool.and_eq_true]
            refine ⟨hw1, ?_⟩
            rw [wfC]
            exact hw2
      · rw [entriesT]
        simp only []
        rw [entriesN, entriesC, entriesC, entriesC, List.append_nil, hent, hroot.2]

/-- The integer comparator satisfies the sign-flip law. -/
theorem intCmp_flip : ∀ a b : Int, 0 ≤ intCmp a b ↔ intCmp b a ≤ 0 := by
  intro a b
  unfold intCmp
  split_ifs <;> omega

/-- `intCmp · · ≤ 0` composes with a strict step on the right. -/
theorem intCmp_lt₁ : ∀ a b c : Int, intCmp a b ≤ 0 → intCmp b c < 0 → intCmp a c < 0 := by
  intro a b c
  unfold intCmp
  split_ifs <;> omega

/-- `intCmp · · ≤ 0` composes with a strict step on the left. -/
theorem intCmp_lt₂ : ∀ a b c : Int, intCmp a b < 0 → intCmp b c ≤ 0 → intCmp a c < 0 := by
  intro a b c
  unfold intCmp
  split_ifs <;> omega

end BPTreeM

/-! ## Lock-free list with plugins, LRU preset (src/unnamed/part_007,
package lockfreelist)

`NewLRUCache(capacity)` composes the list with the `Concurrent`, `Index`
and `LRU(capacity)` plugins.  The model gives the sequential semantics of
exactly this composition (the claim is about lists built by
`NewLRUCache`): elements are identified by fresh ids (standing for the
heap pointers), the chain is a head-first list, `len` is the derived chain
length (the Go atomic counter is incremented right after each link and
decremented right after each unlink, so sequentially they agree), and the
index is an association list.  A `Node` handle is an element id; a handle
is valid while its element is linked (Go: `elem.list != nil`).

Two points of the Go control flow that the model bakes in:

* `LRUPlugin.OnInsert`'s guard `if tail == n break` compares two `*Node`
  WRAPPER pointers — `BackNode()` allocates a fresh wrapper, so the guard
  is never taken; the eviction loop can therefore also evict the node just
  inserted (which is what keeps `len ≤ capacity` even at capacity 0).

* after a public `AddFront`, the freshly linked element is the head, so the
  `MoveToFront` call inside `LRUPlugin.OnInsert` returns `true` at its
  head-shortcut without recursing; the plugin's effect reduces to the
  eviction loop.  `AddBack` on a non-empty list does go through the full
  `MoveToFront` (remove + `AddFront`, which re-fires the hooks).
-/

namespace LruM

variable {K V : Type} [DecidableEq K] [DecidableEq V]

/-- A linked element (Go `element[K, V]`): the id stands for its address. -/
structure Elem (K V : Type) where
  id : Nat
  key : K
  value : V
deriving Repr, DecidableEq

/-- The list of `NewLRUCache`: chain (head first), key → element-id index,
fresh-id counter, and the LRU plugin's capacity (a Go `int`). -/
structure LList (K V : Type) where
  chain : List (Elem K V)
  index : List (K × Nat)
  nextId : Nat
  capacity : Int
deriving Repr, DecidableEq

/-- Model of `NewLRUCache`. -/
def NewLRUCache (c : Int) : LList K V :=
  { chain := [], index := [], nextId := 0, capacity := c }

/-- Store `index[key] = id`. -/
def indexSet (idx : List (K × Nat)) (k : K) (id : Nat) : List (K × Nat) :=
  match idx with
  | [] => [(k, id)]
  | p :: rest => if p.1 = k then (k, id) :: rest else p :: indexSet rest k id

/-- Delete `index[key]`. -/
def indexDel (idx : List (K × Nat)) (k : K) : List (K × Nat) :=
  idx.filter (fun p => p.1 ≠ k)

/-- The element a handle refers to, while it is linked. -/
def findElem (l : LList K V) (id : Nat) : Option (Elem K V) :=
  l.chain.find? (fun e => e.id = id)

/-- Unlink the (first) element with the given id from a chain. -/
def removeChain (id : Nat) : List (Elem K V) → List (Elem K V)
  | [] => []
  | e :: rest => if e.id = id then rest else e :: removeChain id rest

/-- The structural effect of `List.Remove` on a linked element: unlink it,
decrement the length, and fire `OnRemove` (the index plugin deletes the
element's key; the LRU plugin does nothing). -/
def removeElem (l : LList K V) (id : Nat) : LList K V :=
  match findElem l id with
  | none => l
  | some e =>
    { l with chain := removeChain id l.chain, index := indexDel l.index e.key }

/-- The LRU plugin's eviction loop: while `len > capacity`, remove the tail
(`tail == n` compares fresh wrapper pointers and never breaks the loop; an
empty list breaks it).  The fuel is the entry length, which the loop never
needs to exceed. -/
def evict : Nat → LList K V → LList K V
  | 0, l => l
  | fuel + 1, l =>
    if (l.chain.length : Int) > l.capacity then
      match l.chain.getLast? with
      | none => l
      | some e => evict fuel (removeElem l e.id)
    else l

/-- The eviction loop started with enough fuel. -/
def evictLoop (l : LList K V) : LList K V := evict l.chain.length l

/-- Model of `List.AddFront` (public, hooks included): link a fresh element
at the head and index it; the LRU hook's `MoveToFront` hits its
head-shortcut, so the hook reduces to the eviction loop. -/
def AddFront (l : LList K V) (k : K) (v : V) : Nat × LList K V :=
  let id := l.nextId
  let l1 : LList K V :=
    { l with
      chain := ⟨id, k, v⟩ :: l.chain,
      index := indexSet l.index k id,
      nextId := id + 1 }
  (id, evictLoop l1)

/-- Model of `List.MoveToFront` (public): `true` with no effect when the
handle is already the head; otherwise remove it and `AddFront` its pair
(hooks and eviction included), returning the id of the replacement element
(`*n = *newNode`). -/
def MoveToFront (l : LList K V) (id : Nat) : Bool × Nat × LList K V :=
  match findElem l id with
  | none => (false, id, l)
  | some e =>
    if l.chain.head?.map (fun x => x.id) = some id then (true, id, l)
    else
      let l2 := removeElem l id
      match AddFront l2 e.key e.value with
      | (id2, l3) => (true, id2, l3)

/-- Model of `List.AddBack` (public, hooks included): link a fresh element
at the tail and index it; the LRU hook then runs `MoveToFront` (a no-op
only when the new element is already the head, i.e. the list was empty)
and, if the handle survived, the eviction loop. -/
def AddBack (l : LList K V) (k : K) (v : V) : Nat × LList K V :=
  let id := l.nextId
  let l1 : LList K V :=
    { l with
      chain := l.chain ++ [⟨id, k, v⟩],
      index := indexSet l.index k id,
      nextId := id + 1 }
  match MoveToFront l1 id with
  | (false, _, l2) => (id, l2)
  | (true, id2, l2) =>
    if (findElem l2 id2).isSome then (id2, evictLoop l2) else (id2, l2)

/-- Model of `List.Remove` (public): reject a foreign or dead handle,
otherwise unlink. -/
def Remove (l : LList K V) (id : Nat) : Bool × LList K V :=
  if (findElem l id).isSome then (true, removeElem l id) else (false, l)

/-- Model of `Node.SetValue`: reject a dead handle or a deep-equal value;
otherwise store the value and — the list advertising the LRU capability —
move the node to the front (the update hooks of all three plugins are
no-ops). -/
def SetValue (l : LList K V) (id : Nat) (v : V) : Bool × LList K V :=
  match findElem l id with
  | none => (false, l)
  | some e =>
    if e.value = v then (false, l)
    else
      let l1 : LList K V :=
        { l with
          chain := l.chain.map (fun x => if x.id = id then { x with value := v } else x) }
      match MoveToFront l1 id with
      | (_, _, l2) => (true, l2)

/-- A public operation on the LRU cache (handles named by element id). -/
inductive LOp (K V : Type) where
  | addFront (k : K) (v : V) : LOp K V
  | addBack (k : K) (v : V) : LOp K V
  | remove (id : Nat) : LOp K V
  | setValue (id : Nat) (v : V) : LOp K V
  | moveToFront (id : Nat) : LOp K V

/-- Apply one public operation (discarding the returned handle/flag). -/
def applyOp (l : LList K V) : LOp K V → LList K V
  | .addFront k v => (AddFront l k v).2
  | .addBack k v => (AddBack l k v).2
  | .remove id => (Remove l id).2
  | .setValue id v => (SetValue l id v).2
  | .moveToFront id => (MoveToFront l id).2.2

/-- Run a sequence of public operations on a fresh `NewLRUCache(c)`. -/
def runOps (c : Int) (ops : List (LOp K V)) : LList K V :=
  ops.foldl applyOp (NewLRUCache c)

end LruM

/-! ## Heap and heap sort (src/unnamed/part_013, package heap)

`Heap[T]` is an array-backed binary heap with a user comparator
`compareFn : T → T → int`; `HeapSorted` copies the input into a heap over
the REVERSED comparator, heapifies bottom-up (`AdjustHeap`), then
repeatedly swaps the root to the shrinking end and sifts down
(`DownAdjust`).  Model: the backing array is a `List T` indexed with
`getD` (Go's zero value is `default`), the heap size is an explicit
argument, and the comparator an explicit function.  `NewHeap`'s
`make([]T, capacity)` followed by `copy(h.HPDate, arr)` with
`capacity = len(arr)` yields exactly `arr`, which the model uses directly;
the trailing `h.HPDate[:size]` is the whole list since every operation
preserves the length. -/

namespace HeapM

variable {T : Type} [Inhabited T]

/-- Simultaneous swap of two positions
(`h.HPDate[i], h.HPDate[j] = h.HPDate[j], h.HPDate[i]`). -/
def swapL (a : List T) (i j : Nat) : List T :=
  (a.set i (a.getD j default)).set j (a.getD i default)

/-- The child `DownAdjust` compares the parent against: the right child
`2*parent+2` when it exists and `r(a[2*parent+2], a[2*parent+1]) < 0`,
otherwise the left child `2*parent+1` (the `child++` branch of the loop). -/
def pickChild (r : T → T → Int) (hs : Nat) (a : List T) (parent : Nat) : Nat :=
  if 2 * parent + 2 < hs ∧ r (a.getD (2 * parent + 2) default) (a.getD (2 * parent + 1) default) < 0
  then 2 * parent + 2 else 2 * parent + 1

theorem pickChild_ge (r : T → T → Int) (hs : Nat) (a : List T) (parent : Nat) :
    2 * parent + 1 ≤ pickChild r hs a parent := by
  unfold pickChild; split <;> omega

theorem pickChild_lt (r : T → T → Int) (hs : Nat) (a : List T) (parent : Nat)
    (h : 2 * parent + 1 < hs) : pickChild r hs a parent < hs := by
  unfold pickChild; split <;> omega

theorem pickChild_cases (r : T → T → Int) (hs : Nat) (a : List T) (parent : Nat) :
    pickChild r hs a parent = 2 * parent + 1 ∨ pickChild r hs a parent = 2 * parent + 2 := by
  unfold pickChild
  split
  · exact Or.inr rfl
  · exact Or.inl rfl

/-- Model of `Heap.DownAdjust` with comparator `r` and heap size `hs`:
starting from `parent`, repeatedly descend to the preferred child,
stopping as soon as `r(a[parent], a[child]) ≤ 0`. -/
def DownAdjust (r : T → T → Int) (hs : Nat) (a : List T) (parent : Nat) : List T :=
  if hchild : 2 * parent + 1 < hs then
    if r (a.getD parent default) (a.getD (pickChild r hs a parent) default) ≤ 0 then a
    else DownAdjust r hs (swapL a parent (pickChild r hs a parent)) (pickChild r hs a parent)
  else a
termination_by hs - parent
decreasing_by
  have h1 := pickChild_ge r hs a parent
  have h2 := pickChild_lt r hs a parent hchild
  omega

/-- The countdown of `Heap.AdjustHeap`: run `DownAdjust` at
`k-1, k-2, …, 0`. -/
def adjustFrom (r : T → T → Int) (hs : Nat) : Nat → List T → List T
  | 0, a => a
  | k + 1, a => adjustFrom r hs k (DownAdjust r hs a k)

/-- Model of `Heap.AdjustHeap` (bottom-up heapify): `DownAdjust` from
`heapSize/2 - 1` down to `0`; a heap of size at most one is returned
unchanged. -/
def AdjustHeap (r : T → T → Int) (hs : Nat) (a : List T) : List T :=
  if hs ≤ 1 then a else adjustFrom r hs (hs / 2) a

/-- The selection loop of `HeapSorted`: for `i = n-1, …, 1` swap the root
with position `i`, shrink the heap to `i`, and sift the new root down. -/
def sortLoop (r : T → T → Int) : Nat → List T → List T
  | 0, a => a
  | i + 1, a => sortLoop r i (DownAdjust r (i + 1) (swapL a 0 (i + 1)) 0)

/-- Two's-complement wrap of a Go `int` (64-bit): reduce into
`[-2^63, 2^63)`.  `2^63 = 9223372036854775808`. -/
def wrap64 (n : Int) : Int :=
  (n + 9223372036854775808) % 18446744073709551616 - 9223372036854775808

/-- Model of `HeapSorted`: build a heap over the reversed comparator
(`reverseCompare` inlined as the negation lambda) from a copy of the
input, heapify, and run the selection loop.  Negating a Go `int` is a
wrapping 64-bit operation — `-math.MinInt64 = math.MinInt64` — so the
reversal is the wrapped negation. -/
def HeapSorted (arr : List T) (compareFn : T → T → Int) : List T :=
  if arr.length ≤ 1 then arr
  else
    sortLoop (fun a b => wrap64 (-compareFn a b)) (arr.length - 1)
      (AdjustHeap (fun a b => wrap64 (-compareFn a b)) arr.length arr)

theorem wrap64_eq (n : Int) (h1 : -9223372036854775808 ≤ n)
    (h2 : n < 9223372036854775808) : wrap64 n = n := by
  unfold wrap64
  omega

/-- A concrete three-way comparator on `Fin 3` (difference of values),
used to exercise `HeapSorted` on a closed input. -/
def cmpFin3 (a b : Fin 3) : Int := (a : Int) - (b : Int)

/-- A total-order comparator on `Bool` that answers `math.MinInt64` on
the pair `(false, true)`: Go's wrapping `int` negation maps it to
itself, so the reversal of this comparator is broken. -/
def cmpMinBool : Bool → Bool → Int := fun a b =>
  match a, b with
  | false, true => -9223372036854775808
  | true, false => 1
  | _, _ => 0

/-- Membership of position `j` in the binary-heap subtree rooted at `p`
(the parent of `j` is `(j-1)/2`). -/
def inSub (p j : Nat) : Bool :=
  if j ≤ p then j == p else inSub p ((j - 1) / 2)
termination_by j
decreasing_by omega

/-! Auxiliary list facts used by the heap-sort proofs. -/

theorem length_swapL (a : List T) (i j : Nat) : (swapL a i j).length = a.length := by
  simp [swapL]

theorem getD_of_lt (a : List T) (u : Nat) (h : u < a.length) :
    a.getD u default = a.get ⟨u, h⟩ := by
  rw [List.getD_eq_getElem?_getD, List.getElem?_eq_getElem h]
  rfl

theorem getD_eq_get_of_lt (a : List T) (u : Nat) (h : u < a.length) :
    a.getD u default = a[u] := by
  rw [List.getD_eq_getElem?_getD, List.getElem?_eq_getElem h]
  rfl

theorem getD_set_same (a : List T) (i : Nat) (x d : T) (h : i < a.length) :
    (a.set i x).getD i d = x := by
  rw [List.getD_eq_getElem?_getD, List.getElem?_set_self h]
  rfl

theorem getD_set_other (a : List T) (i j : Nat) (x d : T) (h : i ≠ j) :
    (a.set i x).getD j d = a.getD j d := by
  rw [List.getD_eq_getElem?_getD, List.getElem?_set_ne h, ← List.getD_eq_getElem?_getD]

theorem getD_swapL_fst (a : List T) (i j : Nat) (hi : i < a.length) :
    (swapL a i j).getD i default = a.getD j default := by
  unfold swapL
  rcases eq_or_ne j i with h | h
  · subst h
    rw [List.set_set]
    exact getD_set_same a j _ _ hi
  · rw [getD_set_other _ j i _ _ h]
    exact getD_set_same a i _ _ hi

theorem getD_swapL_snd (a : List T) (i j : Nat) (hj : j < a.length) :
    (swapL a i j).getD j default = a.getD i default := by
  unfold swapL
  exact getD_set_same _ j _ _ (by simpa using hj)

theorem getD_swapL_other (a : List T) (i j k : Nat) (hki : k ≠ i) (hkj : k ≠ j) :
    (swapL a i j).getD k default = a.getD k default := by
  unfold swapL
  rw [getD_set_other _ j k _ _ (Ne.symm hkj), getD_set_other _ i k _ _ (Ne.symm hki)]

theorem cons_set_perm (x : T) : ∀ (t : List T) (m : Nat), m < t.length →
    (t.getD m default :: t.set m x).Perm (x :: t) := by
  intro t
  induction t with
  | nil => intro m hm; simp at hm
  | cons y t2 ih =>
    intro m hm
    cases m with
    | zero => simpa using List.Perm.swap x y t2
    | succ k =>
      have hk : k < t2.length := by simpa using hm
      have h1 : (y :: t2).getD (k + 1) default :: (y :: t2).set (k + 1) x
          = t2.getD k default :: y :: t2.set k x := by simp [List.getD_cons_succ]
      rw [h1]
      exact ((List.Perm.swap y _ _).trans ((ih k hk).cons y)).trans (List.Perm.swap x y t2)

theorem swapL_perm : ∀ (a : List T) (i j : Nat), i < a.length → j < a.length →
    (swapL a i j).Perm a := by
  intro a
  induction a with
  | nil => intro i j hi _; simp at hi
  | cons x t ih =>
    intro i j hi hj
    cases i with
    | zero =>
      cases j with
      | zero => simp [swapL]
      | succ m =>
        have hm : m < t.length := by simpa using hj
        have : swapL (x :: t) 0 (m + 1) = t.getD m default :: t.set m x := by
          simp [swapL, List.getD_cons_succ]
        rw [this]
        exact cons_set_perm x t m hm
    | succ m =>
      cases j with
      | zero =>
        have hm : m < t.length := by simpa using hi
        have : swapL (x :: t) (m + 1) 0 = t.getD m default :: t.set m x := by
          simp [swapL, List.getD_cons_succ]
        rw [this]
        exact cons_set_perm x t m hm
      | succ k =>
        have hm : m < t.length := by simpa using hi
        have hk : k < t.length := by simpa using hj
        have : swapL (x :: t) (m + 1) (k + 1) = x :: swapL t m k := by
          simp [swapL, List.getD_cons_succ]
        rw [this]
        exact (ih m k hm hk).cons x

theorem drop_eq_of_getD (a b : List T) (n : Nat) (hlen : a.length = b.length)
    (h : ∀ j, n ≤ j → a.getD j default = b.getD j default) : a.drop n = b.drop n := by
  apply List.ext_getElem?
  intro m
  rw [List.getElem?_drop, List.getElem?_drop]
  rcases lt_or_ge (n + m) a.length with hm | hm
  · have hm2 : n + m < b.length := hlen ▸ hm
    rw [List.getElem?_eq_getElem hm, List.getElem?_eq_getElem hm2]
    have heq := h (n + m) (by omega)
    rw [getD_of_lt a _ hm, getD_of_lt b _ hm2] at heq
    simpa using heq
  · rw [List.getElem?_eq_none hm, List.getElem?_eq_none (by omega : b.length ≤ n + m)]

theorem take_perm_of_drop_eq (a b : List T) (n : Nat) (hp : a.Perm b)
    (hd : a.drop n = b.drop n) : (a.take n).Perm (b.take n) := by
  have hmain : (a.take n ++ a.drop n).Perm (b.take n ++ b.drop n) := by
    rw [List.take_append_drop, List.take_append_drop]
    exact hp
  rw [hd] at hmain
  exact (List.perm_append_right_iff _).mp hmain

theorem getD_mem_take (a : List T) (u n : Nat) (hu : u < n) (hl : u < a.length) :
    a.getD u default ∈ a.take n := by
  rw [List.mem_iff_getElem?]
  refine ⟨u, ?_⟩
  rw [List.getElem?_take, if_pos hu, List.getElem?_eq_getElem hl, getD_of_lt a u hl]
  rfl

theorem mem_take_index (a : List T) (x : T) (n : Nat) (hx : x ∈ a.take n) :
    ∃ u, u < n ∧ u < a.length ∧ a.getD u default = x := by
  rw [List.mem_iff_getElem?] at hx
  obtain ⟨u, hu⟩ := hx
  rw [List.getElem?_take] at hu
  by_cases h : u < n
  · rw [if_pos h] at hu
    have hl : u < a.length := by
      by_contra hc
      rw [List.getElem?_eq_none (by omega)] at hu
      exact absurd hu (by simp)
    refine ⟨u, h, hl, ?_⟩
    rw [List.getElem?_eq_getElem hl] at hu
    rw [getD_of_lt a u hl]
    simpa using hu
  · rw [if_neg h] at hu
    exact absurd hu (by simp)

/-! Subtree-membership facts for binary-heap index arithmetic. -/

theorem inSub_self (p : Nat) : inSub p p = true := by
  rw [inSub]
  simp

theorem inSub_of_lt (p j : Nat) (h : j < p) : inSub p j = false := by
  rw [inSub, if_pos (by omega : j ≤ p)]
  simp
  omega

theorem inSub_ge (p j : Nat) (h : inSub p j = true) : p ≤ j := by
  by_contra hc
  push_neg at hc
  rw [inSub_of_lt p j hc] at h
  exact absurd h (by simp)

theorem inSub_step (p j : Nat) (h : p < j) : inSub p j = inSub p ((j - 1) / 2) := by
  rw [inSub, if_neg (by omega)]

theorem inSub_zero (j : Nat) : inSub 0 j = true := by
  induction j using Nat.strong_induction_on with
  | _ j ih =>
    rcases Nat.eq_zero_or_pos j with h | h
    · subst h
      exact inSub_self 0
    · rw [inSub_step 0 j h]
      exact ih _ (by omega)

theorem inSub_parent (p j : Nat) (h : inSub p j = true) (hne : j ≠ p) :
    inSub p ((j - 1) / 2) = true := by
  have hge := inSub_ge p j h
  rw [inSub_step p j (by omega)] at h
  exact h

theorem inSub_trans (p q : Nat) (h1 : inSub p q = true) : ∀ j, inSub q j = true →
    inSub p j = true := by
  intro j
  induction j using Nat.strong_induction_on with
  | _ j ih =>
    intro h2
    rcases Nat.lt_trichotomy j q with h | h | h
    · rw [inSub_of_lt q j h] at h2
      exact absurd h2 (by simp)
    · subst h
      exact h1
    · have hq := inSub_ge p q h1
      rw [inSub_step q j h] at h2
      rw [inSub_step p j (by omega)]
      exact ih _ (by omega) h2

theorem inSub_child_left (p j : Nat) (h : inSub p j = true) : inSub p (2 * j + 1) = true := by
  have hp := inSub_ge p j h
  rw [inSub_step p (2 * j + 1) (by omega)]
  have heq : (2 * j + 1 - 1) / 2 = j := by omega
  rw [heq]
  exact h

theorem inSub_child_right (p j : Nat) (h : inSub p j = true) : inSub p (2 * j + 2) = true := by
  have hp := inSub_ge p j h
  rw [inSub_step p (2 * j + 2) (by omega)]
  have heq : (2 * j + 2 - 1) / 2 = j := by omega
  rw [heq]
  exact h

theorem inSub_child (p q j : Nat) (h : inSub p q = true) (hj : q = (j - 1) / 2)
    (hj0 : 0 < j) : inSub p j = true := by
  have hcases : j = 2 * q + 1 ∨ j = 2 * q + 2 := by omega
  rcases hcases with rfl | rfl
  · exact inSub_child_left p q h
  · exact inSub_child_right p q h

theorem inSub_descend (p : Nat) : ∀ q, inSub p q = true → q ≠ p →
    ∃ c, (c = 2 * p + 1 ∨ c = 2 * p + 2) ∧ inSub c q = true := by
  intro q
  induction q using Nat.strong_induction_on with
  | _ q ih =>
    intro h hne
    have hpq : p < q := lt_of_le_of_ne (inSub_ge p q h) (Ne.symm hne)
    have hpar : inSub p ((q - 1) / 2) = true := inSub_parent p q h hne
    by_cases hq : (q - 1) / 2 = p
    · refine ⟨q, ?_, inSub_self q⟩
      omega
    · obtain ⟨c, hc, hcq⟩ := ih ((q - 1) / 2) (by omega) hpar hq
      refine ⟨c, hc, ?_⟩
      have hc1 := inSub_ge c _ hcq
      rw [inSub_step c q (by omega)]
      exact hcq

theorem inSub_comparable (u v : Nat) : ∀ x, inSub u x = true → inSub v x = true →
    inSub u v = true ∨ inSub v u = true := by
  intro x
  induction x using Nat.strong_induction_on with
  | _ x ih =>
    intro hu hv
    by_cases hxu : x = u
    · subst hxu
      exact Or.inr hv
    · by_cases hxv : x = v
      · subst hxv
        exact Or.inl hu
      · have h1 := inSub_parent u x hu hxu
        have h2 := inSub_parent v x hv hxv
        have hgu := inSub_ge u x hu
        exact ih _ (by omega) h1 h2

theorem siblings_not_inSub (p : Nat) : inSub (2 * p + 1) (2 * p + 2) = false := by
  rw [inSub_step _ _ (by omega)]
  have heq : (2 * p + 2 - 1) / 2 = p := by omega
  rw [heq]
  exact inSub_of_lt _ _ (by omega)

theorem siblings_disjoint {p c c' q : Nat} (hc : c = 2 * p + 1 ∨ c = 2 * p + 2)
    (hc' : c' = 2 * p + 1 ∨ c' = 2 * p + 2) (hne : c ≠ c')
    (h1 : inSub c q = true) (h2 : inSub c' q = true) : False := by
  rcases inSub_comparable c c' q h1 h2 with h | h
  · rcases hc with rfl | rfl <;> rcases hc' with rfl | rfl
    · exact hne rfl
    · rw [siblings_not_inSub p] at h
      exact absurd h (by simp)
    · rw [inSub_of_lt _ _ (by omega)] at h
      exact absurd h (by simp)
    · exact hne rfl
  · rcases hc with rfl | rfl <;> rcases hc' with rfl | rfl
    · exact hne rfl
    · rw [inSub_of_lt _ _ (by omega)] at h
      exact absurd h (by simp)
    · rw [siblings_not_inSub p] at h
      exact absurd h (by simp)
    · exact hne rfl

/-! Heap-order predicates and the sift-down correctness lemma.  A comparator
`r` is assumed to satisfy the two laws every consistent three-way comparator
obeys: the signs of `r x y` and `r y x` are opposite (which also yields
reflexivity and totality of the induced order) and `r · · ≤ 0` is
transitive. -/

/-- The heap property restricted to the subtree rooted at `p`: every
in-range node whose parent lies in the subtree satisfies the parent-child
ordering. -/
def subHeap (r : T → T → Int) (a : List T) (hs p : Nat) : Prop :=
  ∀ j, 0 < j → j < hs → inSub p ((j - 1) / 2) = true →
    r (a.getD ((j - 1) / 2) default) (a.getD j default) ≤ 0

/-- The global heap property on the first `hs` positions. -/
def heapProp (r : T → T → Int) (a : List T) (hs : Nat) : Prop :=
  ∀ j, 0 < j → j < hs →
    r (a.getD ((j - 1) / 2) default) (a.getD j default) ≤ 0

theorem heapProp_subHeap (r : T → T → Int) (a : List T) (hs : Nat)
    (h : heapProp r a hs) : subHeap r a hs 0 :=
  fun j hj0 hjhs _ => h j hj0 hjhs

theorem subHeap_heapProp (r : T → T → Int) (a : List T) (hs : Nat)
    (h : subHeap r a hs 0) : heapProp r a hs :=
  fun j hj0 hjhs => h j hj0 hjhs (inSub_zero _)

theorem r_refl (r : T → T → Int) (hflip : ∀ x y, 0 ≤ r x y ↔ r y x ≤ 0) (x : T) :
    r x x ≤ 0 := by
  rcases le_or_lt 0 (r x x) with h | h
  · exact (hflip x x).mp h
  · omega

/-- In a subtree satisfying the heap property, the root is below every
member. -/
theorem root_le (r : T → T → Int) (hflip : ∀ x y, 0 ≤ r x y ↔ r y x ≤ 0)
    (htrans : ∀ x y z, r x y ≤ 0 → r y z ≤ 0 → r x z ≤ 0)
    (a : List T) (hs p : Nat) (hsub : subHeap r a hs p) :
    ∀ j, inSub p j = true → j < hs → r (a.getD p default) (a.getD j default) ≤ 0 := by
  intro j
  induction j using Nat.strong_induction_on with
  | _ j ih =>
    intro hj hjhs
    by_cases hjp : j = p
    · subst hjp
      exact r_refl r hflip _
    · have hpj : p < j := lt_of_le_of_ne (inSub_ge p j hj) (Ne.symm hjp)
      have hq : inSub p ((j - 1) / 2) = true := inSub_parent p j hj hjp
      have h1 := ih ((j - 1) / 2) (by omega) hq (by omega)
      have h2 := hsub j (by omega) hjhs hq
      exact htrans _ _ _ h1 h2

/-- The child `pickChild` selects is below both in-range children. -/
theorem pickChild_min (r : T → T → Int) (hflip : ∀ x y, 0 ≤ r x y ↔ r y x ≤ 0)
    (hs : Nat) (a : List T) (p : Nat) :
    ∀ o, (o = 2 * p + 1 ∨ o = 2 * p + 2) → o < hs →
      r (a.getD (pickChild r hs a p) default) (a.getD o default) ≤ 0 := by
  intro o ho hohs
  unfold pickChild
  by_cases hcond : 2 * p + 2 < hs ∧
      r (a.getD (2 * p + 2) default) (a.getD (2 * p + 1) default) < 0
  · rw [if_pos hcond]
    rcases ho with rfl | rfl
    · have := hcond.2
      omega
    · exact r_refl r hflip _
  · rw [if_neg hcond]
    rcases ho with rfl | rfl
    · exact r_refl r hflip _
    · have h2 : ¬ r (a.getD (2 * p + 2) default) (a.getD (2 * p + 1) default) < 0 := by
        intro hlt
        exact hcond ⟨hohs, hlt⟩
      exact (hflip _ _).mp (by omega)

/-- Correctness of `DownAdjust` at `p` when both child subtrees already
satisfy the heap property: the result has the same length, is a permutation
of the input, agrees with the input outside the active part of `p`'s
subtree, puts a value drawn from `p`'s subtree at `p`, and satisfies the
heap property on `p`'s subtree.  `n` is fuel bounding `hs - p`. -/
theorem DownAdjust_spec (r : T → T → Int) (hflip : ∀ x y, 0 ≤ r x y ↔ r y x ≤ 0)
    (htrans : ∀ x y z, r x y ≤ 0 → r y z ≤ 0 → r x z ≤ 0) (hs : Nat) :
    ∀ n a p, hs - p ≤ n → hs ≤ a.length → p < hs →
    (∀ c, (c = 2 * p + 1 ∨ c = 2 * p + 2) → c < hs → subHeap r a hs c) →
    (DownAdjust r hs a p).length = a.length ∧
    (∀ j, (inSub p j = false ∨ hs ≤ j) →
      (DownAdjust r hs a p).getD j default = a.getD j default) ∧
    (DownAdjust r hs a p).Perm a ∧
    (∃ x, inSub p x = true ∧ x < hs ∧
      (DownAdjust r hs a p).getD p default = a.getD x default) ∧
    subHeap r (DownAdjust r hs a p) hs p := by
  intro n
  induction n with
  | zero =>
    intro a p hfuel _ hp _
    exact absurd hp (by omega)
  | succ n ih =>
    intro a p hfuel hlen hp hchildren
    rw [DownAdjust]
    by_cases hchild : 2 * p + 1 < hs
    · rw [dif_pos hchild]
      have hc2cases := pickChild_cases r hs a p
      have hc2ge := pickChild_ge r hs a p
      have hc2lt := pickChild_lt r hs a p hchild
      have hmin := pickChild_min r hflip hs a p
      by_cases hstop : r (a.getD p default) (a.getD (pickChild r hs a p) default) ≤ 0
      · rw [if_pos hstop]
        refine ⟨rfl, fun j _ => rfl, List.Perm.refl a, ⟨p, inSub_self p, hp, rfl⟩, ?_⟩
        intro j hj0 hjhs hpar
        by_cases hqp : (j - 1) / 2 = p
        · rw [hqp]
          have hjcases : j = 2 * p + 1 ∨ j = 2 * p + 2 := by omega
          exact htrans _ _ _ hstop (hmin j hjcases hjhs)
        · obtain ⟨c, hcc, hcq⟩ := inSub_descend p _ hpar hqp
          have hchs : c < hs := by
            have h1 := inSub_ge c _ hcq
            omega
          exact hchildren c hcc hchs j hj0 hjhs hcq
      · rw [if_neg hstop]
        set c2 := pickChild r hs a p with hc2def
        have hppos : p < c2 := by omega
        have hplen : p < a.length := by omega
        have hc2len : c2 < a.length := by omega
        have hlen1 : (swapL a p c2).length = a.length := length_swapL a p c2
        have hsubc2 : subHeap r a hs c2 := hchildren c2 hc2cases hc2lt
        have hchildren1 : ∀ c, (c = 2 * c2 + 1 ∨ c = 2 * c2 + 2) → c < hs →
            subHeap r (swapL a p c2) hs c := by
          intro c hcc hchs j hj0 hjhs hpar
          have hc2c : inSub c2 c = true := by
            rcases hcc with rfl | rfl
            · exact inSub_child_left c2 c2 (inSub_self c2)
            · exact inSub_child_right c2 c2 (inSub_self c2)
          have hcge : 2 * c2 + 1 ≤ c := by rcases hcc with rfl | rfl <;> omega
          have hq : inSub c2 ((j - 1) / 2) = true := inSub_trans c2 c hc2c _ hpar
          have hqge : c ≤ (j - 1) / 2 := inSub_ge c _ hpar
          have hqne1 : (j - 1) / 2 ≠ p := by omega
          have hqne2 : (j - 1) / 2 ≠ c2 := by omega
          have hjne1 : j ≠ p := by omega
          have hjne2 : j ≠ c2 := by omega
          rw [getD_swapL_other a p c2 ((j - 1) / 2) hqne1 hqne2,
            getD_swapL_other a p c2 j hjne1 hjne2]
          exact hsubc2 j hj0 hjhs hq
        obtain ⟨len2, frame2, perm2, root2, heap2⟩ :=
          ih (swapL a p c2) c2 (by omega) (by omega) hc2lt hchildren1
        have hpc2 : inSub p c2 = true := by
          rcases hc2cases with h | h
          · rw [h]
            exact inSub_child_left p p (inSub_self p)
          · rw [h]
            exact inSub_child_right p p (inSub_self p)
        have hframe : ∀ j, (inSub p j = false ∨ hs ≤ j) →
            (DownAdjust r hs (swapL a p c2) c2).getD j default = a.getD j default := by
          intro j hj
          rcases hj with hnot | hge
          · have hc2j : inSub c2 j = false := by
              cases hcj : inSub c2 j
              · rfl
              · exact absurd (inSub_trans p c2 hpc2 j hcj) (by simp [hnot])
            have hjp : j ≠ p := by
              intro h
              subst h
              rw [inSub_self] at hnot
              exact absurd hnot (by simp)
            have hjc2 : j ≠ c2 := by
              intro h
              subst h
              rw [hpc2] at hnot
              exact absurd hnot (by simp)
            rw [frame2 j (Or.inl hc2j), getD_swapL_other a p c2 j hjp hjc2]
          · rw [frame2 j (Or.inr hge), getD_swapL_other a p c2 j (by omega) (by omega)]
        have hc2p : inSub c2 p = false := inSub_of_lt c2 p hppos
        have hroot : (DownAdjust r hs (swapL a p c2) c2).getD p default
            = a.getD c2 default := by
          rw [frame2 p (Or.inl hc2p), getD_swapL_fst a p c2 hplen]
        have hnstop : 0 ≤ r (a.getD p default) (a.getD c2 default) := by omega
        have hsw : r (a.getD c2 default) (a.getD p default) ≤ 0 := (hflip _ _).mp hnstop
        refine ⟨len2.trans hlen1, hframe, perm2.trans (swapL_perm a p c2 hplen hc2len),
          ⟨c2, hpc2, hc2lt, hroot⟩, ?_⟩
        intro j hj0 hjhs hpar
        by_cases hqp : (j - 1) / 2 = p
        · have hjcases : j = 2 * p + 1 ∨ j = 2 * p + 2 := by omega
          rw [hqp, hroot]
          by_cases hjc2 : j = c2
          · obtain ⟨x, hxsub, hxhs, hx⟩ := root2
            rw [hjc2, hx]
            by_cases hxc2 : x = c2
            · rw [hxc2, getD_swapL_snd a p c2 hc2len]
              exact hsw
            · have hxgt : c2 < x := lt_of_le_of_ne (inSub_ge c2 x hxsub) (Ne.symm hxc2)
              rw [getD_swapL_other a p c2 x (by omega) hxc2]
              exact root_le r hflip htrans a hs c2 hsubc2 x hxsub hxhs
          · have hc2j : inSub c2 j = false := by
              cases hcj : inSub c2 j
              · rfl
              · exact (siblings_disjoint hc2cases hjcases
                  (fun h => hjc2 h.symm) hcj (inSub_self j)).elim
            rw [frame2 j (Or.inl hc2j), getD_swapL_other a p c2 j (by omega) hjc2]
            exact hmin j hjcases hjhs
        · obtain ⟨c, hcc, hcq⟩ := inSub_descend p _ hpar hqp
          by_cases hcc2 : c = c2
          · subst hcc2
            exact heap2 j hj0 hjhs hcq
          · have hcge : 2 * p + 1 ≤ c := by rcases hcc with rfl | rfl <;> omega
            have hqc : c ≤ (j - 1) / 2 := inSub_ge c _ hcq
            have hc2q : inSub c2 ((j - 1) / 2) = false := by
              cases hcj : inSub c2 ((j - 1) / 2)
              · rfl
              · exact (siblings_disjoint hc2cases hcc (fun h => hcc2 h.symm) hcj hcq).elim
            have hcj2 : inSub c j = true := inSub_child c ((j - 1) / 2) j hcq rfl hj0
            have hc2j : inSub c2 j = false := by
              cases hcj : inSub c2 j
              · rfl
              · exact (siblings_disjoint hc2cases hcc (fun h => hcc2 h.symm) hcj hcj2).elim
            have hqnec2 : (j - 1) / 2 ≠ c2 := by
              intro h
              rw [h, inSub_self] at hc2q
              exact absurd hc2q (by simp)
            have hjnec2 : j ≠ c2 := by
              intro h
              rw [h, inSub_self] at hc2j
              exact absurd hc2j (by simp)
            have hchs : c < hs := by omega
            rw [frame2 _ (Or.inl hc2q), frame2 j (Or.inl hc2j),
              getD_swapL_other a p c2 ((j - 1) / 2) (by omega) hqnec2,
              getD_swapL_other a p c2 j (by omega) hjnec2]
            exact hchildren c hcc hchs j hj0 hjhs hcq
    · rw [dif_neg hchild]
      refine ⟨rfl, fun j _ => rfl, List.Perm.refl a, ⟨p, inSub_self p, hp, rfl⟩, ?_⟩
      intro j hj0 hjhs hpar
      have hge := inSub_ge p ((j - 1) / 2) hpar
      exact absurd hjhs (by omega)

/-- Nodes without in-range children satisfy the subtree heap property
vacuously. -/
theorem leaf_subHeap (r : T → T → Int) (a : List T) (hs p : Nat) (h : hs ≤ 2 * p + 1) :
    subHeap r a hs p := by
  intro j hj0 hjhs hpar
  have hge := inSub_ge p ((j - 1) / 2) hpar
  exact absurd hjhs (by omega)

/-- Correctness of the heapify countdown: if every node at index `≥ k`
already roots a subtree heap, running `DownAdjust` at `k-1, …, 0` makes
every node root a subtree heap, while permuting the array and keeping its
length. -/
theorem adjustFrom_spec (r : T → T → Int) (hflip : ∀ x y, 0 ≤ r x y ↔ r y x ≤ 0)
    (htrans : ∀ x y z, r x y ≤ 0 → r y z ≤ 0 → r x z ≤ 0) (hs : Nat) :
    ∀ k a, hs ≤ a.length → 2 * k ≤ hs →
    (∀ q, k ≤ q → subHeap r a hs q) →
    (adjustFrom r hs k a).length = a.length ∧
    (adjustFrom r hs k a).Perm a ∧
    (∀ q, subHeap r (adjustFrom r hs k a) hs q) := by
  intro k
  induction k with
  | zero =>
    intro a _ _ hinv
    exact ⟨rfl, List.Perm.refl a, fun q => hinv q (Nat.zero_le q)⟩
  | succ k ih =>
    intro a hlen hk hinv
    have hkhs : k < hs := by omega
    obtain ⟨len1, frame1, perm1, root1, heap1⟩ :=
      DownAdjust_spec r hflip htrans hs (hs - k) a k (by omega) hlen hkhs
        (fun c hcc hchs => hinv c (by rcases hcc with rfl | rfl <;> omega) )
    have hinv1 : ∀ q, k ≤ q → subHeap r (DownAdjust r hs a k) hs q := by
      intro q hq
      rcases Nat.eq_or_lt_of_le hq with heq | hlt
      · rw [← heq]
        exact heap1
      · by_cases hsubq : inSub k q = true
        · intro j hj0 hjhs hpar
          exact heap1 j hj0 hjhs (inSub_trans k q hsubq _ hpar)
        · intro j hj0 hjhs hpar
          have hkq : inSub k ((j - 1) / 2) = false := by
            cases hkp : inSub k ((j - 1) / 2)
            · rfl
            · rcases inSub_comparable q k ((j - 1) / 2) hpar hkp with h | h
              · exact absurd (inSub_ge q k h) (by omega)
              · exact absurd h hsubq
          have hqj : inSub q j = true := inSub_child q ((j - 1) / 2) j hpar rfl hj0
          have hkj : inSub k j = false := by
            cases hkp : inSub k j
            · rfl
            · rcases inSub_comparable q k j hqj hkp with h | h
              · exact absurd (inSub_ge q k h) (by omega)
              · exact absurd h hsubq
          rw [frame1 _ (Or.inl hkq), frame1 j (Or.inl hkj)]
          exact hinv q hlt j hj0 hjhs hpar
    obtain ⟨len2, perm2, heap2⟩ := ih (DownAdjust r hs a k)
      (by omega) (by omega) hinv1
    exact ⟨len2.trans len1, perm2.trans perm1, heap2⟩

/-- Correctness of `AdjustHeap`: the result is a permutation of the input
of the same length satisfying the global heap property on `hs`. -/
theorem AdjustHeap_spec (r : T → T → Int) (hflip : ∀ x y, 0 ≤ r x y ↔ r y x ≤ 0)
    (htrans : ∀ x y z, r x y ≤ 0 → r y z ≤ 0 → r x z ≤ 0) (hs : Nat) (a : List T)
    (hlen : hs ≤ a.length) :
    (AdjustHeap r hs a).length = a.length ∧
    (AdjustHeap r hs a).Perm a ∧
    heapProp r (AdjustHeap r hs a) hs := by
  unfold AdjustHeap
  by_cases h : hs ≤ 1
  · rw [if_pos h]
    refine ⟨rfl, List.Perm.refl a, ?_⟩
    intro j hj0 hjhs
    exact absurd hjhs (by omega)
  · rw [if_neg h]
    obtain ⟨len1, perm1, heap1⟩ := adjustFrom_spec r hflip htrans hs (hs / 2) a hlen
      (by omega) (fun q hq => leaf_subHeap r a hs q (by omega))
    exact ⟨len1, perm1, subHeap_heapProp r _ hs (heap1 0)⟩

/-- Correctness of the selection loop: starting from a heap on the first
`i+1` positions whose suffix from `i+1` is already sorted descending for
`r` and entirely above the active prefix, the loop returns a permutation
sorted descending for `r` (stated position-wise). -/
theorem sortLoop_spec (r : T → T → Int) (hflip : ∀ x y, 0 ≤ r x y ↔ r y x ≤ 0)
    (htrans : ∀ x y z, r x y ≤ 0 → r y z ≤ 0 → r x z ≤ 0) :
    ∀ i a, i < a.length →
    heapProp r a (i + 1) →
    (∀ u v, i + 1 ≤ u → u < v → v < a.length →
      r (a.getD v default) (a.getD u default) ≤ 0) →
    (∀ u v, u ≤ i → i + 1 ≤ v → v < a.length →
      r (a.getD v default) (a.getD u default) ≤ 0) →
    (sortLoop r i a).length = a.length ∧
    (sortLoop r i a).Perm a ∧
    (∀ u v, u < v → v < a.length →
      r ((sortLoop r i a).getD v default) ((sortLoop r i a).getD u default) ≤ 0) := by
  intro i
  induction i with
  | zero =>
    intro a _ _ hsuf hbound
    refine ⟨rfl, List.Perm.refl a, ?_⟩
    intro u v huv hv
    rcases Nat.eq_zero_or_pos u with rfl | hu
    · exact hbound 0 v (le_refl 0) (by omega) hv
    · exact hsuf u v (by omega) huv hv
  | succ i ih =>
    intro a hi hheap hsuf hbound
    have h0len : 0 < a.length := by omega
    have hi1len : i + 1 < a.length := hi
    set a1 := swapL a 0 (i + 1) with ha1def
    have len1 : a1.length = a.length := length_swapL a 0 (i + 1)
    have hchildren1 : ∀ c, (c = 2 * 0 + 1 ∨ c = 2 * 0 + 2) → c < i + 1 →
        subHeap r a1 (i + 1) c := by
      intro c hcc hchs j hj0 hjhs hpar
      have hcge : 1 ≤ c := by rcases hcc with rfl | rfl <;> omega
      have hqge : c ≤ (j - 1) / 2 := inSub_ge c _ hpar
      have hqne1 : (j - 1) / 2 ≠ 0 := by omega
      have hqne2 : (j - 1) / 2 ≠ i + 1 := by omega
      have hjne1 : j ≠ 0 := by omega
      have hjne2 : j ≠ i + 1 := by omega
      rw [ha1def, getD_swapL_other a 0 (i + 1) ((j - 1) / 2) hqne1 hqne2,
        getD_swapL_other a 0 (i + 1) j hjne1 hjne2]
      exact hheap j hj0 (by omega)
    obtain ⟨len2, frame2, perm2, root2, heap2⟩ :=
      DownAdjust_spec r hflip htrans (i + 1) (i + 1) a1 0 (by omega)
        (by omega) (by omega) hchildren1
    set a2 := DownAdjust r (i + 1) a1 0 with ha2def
    have lenA2 : a2.length = a.length := len2.trans len1
    have hsufEq : ∀ j, i + 1 ≤ j → a2.getD j default = a1.getD j default := by
      intro j hj
      exact frame2 j (Or.inr hj)
    have htop : a2.getD (i + 1) default = a.getD 0 default := by
      rw [hsufEq (i + 1) (le_refl _), ha1def, getD_swapL_snd a 0 (i + 1) hi1len]
    have hhigh : ∀ j, i + 2 ≤ j → a2.getD j default = a.getD j default := by
      intro j hj
      rw [hsufEq j (by omega), ha1def,
        getD_swapL_other a 0 (i + 1) j (by omega) (by omega)]
    have hrootmin : ∀ w, w < i + 2 → r (a.getD 0 default) (a.getD w default) ≤ 0 := by
      intro w hw
      exact root_le r hflip htrans a (i + 2) 0 (heapProp_subHeap r a (i + 2) hheap)
        w (inSub_zero w) hw
    have hdropEq : a2.drop (i + 1) = a1.drop (i + 1) := by
      apply drop_eq_of_getD a2 a1 (i + 1) len2
      intro j hj
      exact hsufEq j hj
    have htakePerm : (a2.take (i + 1)).Perm (a1.take (i + 1)) :=
      take_perm_of_drop_eq a2 a1 (i + 1) perm2 hdropEq
    have hactive : ∀ u, u ≤ i → ∃ w, w ≤ i ∧
        ((w = 0 ∧ a2.getD u default = a.getD (i + 1) default) ∨
         (1 ≤ w ∧ a2.getD u default = a.getD w default)) := by
      intro u hu
      have humem : a2.getD u default ∈ a2.take (i + 1) :=
        getD_mem_take a2 u (i + 1) (by omega) (by omega)
      have h1mem : a2.getD u default ∈ a1.take (i + 1) :=
        (htakePerm.mem_iff).mp humem
      obtain ⟨w, hw, hwlen, hweq⟩ := mem_take_index a1 _ (i + 1) h1mem
      refine ⟨w, by omega, ?_⟩
      rcases Nat.eq_zero_or_pos w with rfl | hwpos
      · left
        refine ⟨rfl, ?_⟩
        rw [← hweq, ha1def, getD_swapL_fst a 0 (i + 1) h0len]
      · right
        refine ⟨hwpos, ?_⟩
        rw [← hweq, ha1def, getD_swapL_other a 0 (i + 1) w (by omega) (by omega)]
    have hheap2 : heapProp r a2 (i + 1) := subHeap_heapProp r a2 (i + 1) heap2
    have hsuf2 : ∀ u v, i + 1 ≤ u → u < v → v < a2.length →
        r (a2.getD v default) (a2.getD u default) ≤ 0 := by
      intro u v hu huv hv
      have hvlen : v < a.length := by omega
      have hv2 : i + 2 ≤ v := by omega
      rw [hhigh v hv2]
      rcases Nat.eq_or_lt_of_le hu with heq | hlt
      · rw [← heq, htop]
        exact hbound 0 v (by omega) (by omega) hvlen
      · rw [hhigh u (by omega)]
        exact hsuf u v (by omega) huv hvlen
    have hbound2 : ∀ u v, u ≤ i → i + 1 ≤ v → v < a2.length →
        r (a2.getD v default) (a2.getD u default) ≤ 0 := by
      intro u v hu hv hvlen
      obtain ⟨w, hwle, hwcase⟩ := hactive u hu
      rcases Nat.eq_or_lt_of_le hv with heq | hlt
      · rw [← heq, htop]
        rcases hwcase with ⟨_, heqv⟩ | ⟨hw1, heqv⟩
        · rw [heqv]
          exact hrootmin (i + 1) (by omega)
        · rw [heqv]
          exact hrootmin w (by omega)
      · have hv2 : i + 2 ≤ v := hlt
        rw [hhigh v hv2]
        rcases hwcase with ⟨_, heqv⟩ | ⟨hw1, heqv⟩
        · rw [heqv]
          exact hbound (i + 1) v (le_refl _) hv2 (by omega)
        · rw [heqv]
          exact hbound w v (by omega) (by omega) (by omega)
    obtain ⟨len3, perm3, sorted3⟩ := ih a2 (by omega) hheap2 hsuf2 hbound2
    have hstep : sortLoop r (i + 1) a = sortLoop r i a2 := by
      rw [ha2def, ha1def]
      rfl
    refine ⟨?_, ?_, ?_⟩
    · rw [hstep]
      exact len3.trans lenA2
    · rw [hstep]
      exact perm3.trans (perm2.trans (swapL_perm a 0 (i + 1) h0len hi1len))
    · intro u v huv hv
      rw [hstep]
      exact sorted3 u v huv (by omega)

end HeapM

/-- C1.  The claim states that a Bloom filter built by `NewBloomFilter(n, p)`
never returns `false` from `Contains(x)` once `x` has been `Add`ed, for every
interleaving of `Add` and `Contains` calls.  The code violates this: the
early `return false` path of `Contains` skips `h.Reset()`, so a failed
lookup leaves hasher 0 holding the looked-up bytes, and the next call hashes
a concatenation.  Concretely, on `NewBloomFilter(10000, 0.01)` the run
`Add("aaa"); Contains("baa"); Contains("aaa")` answers `false` for the
previously added item `"aaa"`: `Add` set bit `19` with every hasher, but the
final `Contains` computes `fnv64a("baa" ++ "aaa")`, lands on bit `87`, and
finds it unset.  This theorem evaluates the embedded code on that run. -/
theorem C1_bloom_false_negative : BloomM.c1Run = false := by decide

/-- An everywhere-empty `SafeMap` over `Nat` keys and values, used as the
concrete instance of the C10 witness. -/
def emptyNatMap : SafeMapM.SafeMap Nat Nat := fun _ => none

/-- C10.  `SafeMap.Swap` on an absent key returns the zero value of `V`
together with `loaded = false`, and installs the new value, so that an
immediately following `Load` of the same key returns it with `true`. -/
theorem C10_safemap_swap_absent {K V : Type} [DecidableEq K] [Inhabited V]
    (m : SafeMapM.SafeMap K V) (k : K) (v : V) (habs : m k = none) :
    (SafeMapM.Swap m k v).1 = ((default : V), false) ∧
      SafeMapM.Load (SafeMapM.Swap m k v).2 k = (v, true) := by
  simp [SafeMapM.Swap, SafeMapM.Load, SafeMapM.Store, habs]

/-- Witness for C10 at the empty map with key `3` and value `7`. -/
theorem C10_safemap_swap_absent_witness :
    emptyNatMap 3 = none ∧
      ((SafeMapM.Swap emptyNatMap 3 7).1 = ((default : Nat), false) ∧
        SafeMapM.Load (SafeMapM.Swap emptyNatMap 3 7).2 3 = (7, true)) :=
  ⟨rfl, C10_safemap_swap_absent emptyNatMap 3 7 rfl⟩

/-- Width of `padHex` output. -/
theorem UuidM.length_padHex (w : Nat) : ∀ n, (UuidM.padHex w n).length = w := by
  induction w with
  | zero => intro n; rfl
  | succ w ih => intro n; simp [UuidM.padHex, ih]

/-- Hex digits are printed in strictly increasing character order. -/
theorem UuidM.hexDigit_lt_hexDigit :
    ∀ d1 d2 : Fin 16, d1 < d2 → UuidM.hexDigit d1.val < UuidM.hexDigit d2.val := by
  decide

/-- Appending a common prefix preserves lexicographic strictness. -/
theorem UuidM.lex_append_common {r : Char → Char → Prop} :
    ∀ (p : List Char) {s1 s2 : List Char},
      List.Lex r s1 s2 → List.Lex r (p ++ s1) (p ++ s2) := by
  intro p
  induction p with
  | nil => intro s1 s2 h; simpa using h
  | cons a p ih => intro s1 s2 h; exact List.Lex.cons (ih h)

/-- A strict lexicographic comparison of equal-length prefixes decides the
comparison of the full strings, whatever the suffixes. -/
theorem UuidM.lex_append_left {r : Char → Char → Prop} {l1 l2 : List Char}
    (h : List.Lex r l1 l2) :
    ∀ (s1 s2 : List Char), l1.length = l2.length →
      List.Lex r (l1 ++ s1) (l2 ++ s2) := by
  induction h with
  | nil => intro s1 s2 hl; simp at hl
  | @rel a1 t1 a2 t2 hr => intro s1 s2 hl; exact List.Lex.rel hr
  | @cons a t1 t2 hlex ih =>
    intro s1 s2 hl
    exact List.Lex.cons (ih s1 s2 (by simpa using hl))

/-- Fixed-width lowercase hex is strictly monotone in the encoded value:
this is what makes the UUIDv7 string order match the numeric order. -/
theorem UuidM.padHex_lt (w : Nat) :
    ∀ a b, a < b → b < 16 ^ w →
      List.Lex (· < ·) (UuidM.padHex w a) (UuidM.padHex w b) := by
  induction w with
  | zero => intro a b hab hb; omega
  | succ w ih =>
    intro a b hab hb
    have hq : a / 16 ≤ b / 16 := Nat.div_le_div_right (Nat.le_of_lt hab)
    rcases Nat.lt_or_ge (a / 16) (b / 16) with hlt | hge
    · have hbq : b / 16 < 16 ^ w := by
        rw [Nat.div_lt_iff_lt_mul (by norm_num)]
        calc b < 16 ^ (w + 1) := hb
        _ = 16 ^ w * 16 := by ring
      exact UuidM.lex_append_left (ih _ _ hlt hbq) _ _
        (by rw [UuidM.length_padHex, UuidM.length_padHex])
    · have hqeq : a / 16 = b / 16 := Nat.le_antisymm hq hge
      have hr : a % 16 < b % 16 := by omega
      have hdig : UuidM.hexDigit (a % 16) < UuidM.hexDigit (b % 16) :=
        UuidM.hexDigit_lt_hexDigit ⟨a % 16, Nat.mod_lt _ (by norm_num)⟩
          ⟨b % 16, Nat.mod_lt _ (by norm_num)⟩ hr
      show List.Lex _ (UuidM.padHex w (a / 16) ++ [UuidM.hexDigit (a % 16)]) _
      rw [hqeq]
      exact UuidM.lex_append_common _ (List.Lex.rel hdig)

/-- The first `fmt` group of the UUID string is the high 32 bits of the
48-bit timestamp. -/
theorem UuidM.beVal_group1 (ts : Nat) (rb : List Nat) (h : ts < 2 ^ 48) :
    UuidM.beVal ((UuidM.uuidBytes ts rb).take 4) = ts / 2 ^ 16 := by
  show UuidM.beVal [UuidM.tsByte ts 0, UuidM.tsByte ts 1,
    UuidM.tsByte ts 2, UuidM.tsByte ts 3] = ts / 2 ^ 16
  simp only [UuidM.beVal, UuidM.tsByte, List.foldl]
  norm_num
  omega

/-- The second `fmt` group of the UUID string is the low 16 bits of the
48-bit timestamp. -/
theorem UuidM.beVal_group2 (ts : Nat) (rb : List Nat) (h : ts < 2 ^ 48) :
    UuidM.beVal (((UuidM.uuidBytes ts rb).drop 4).take 2) = ts % 2 ^ 16 := by
  show UuidM.beVal [UuidM.tsByte ts 4, UuidM.tsByte ts 5] = ts % 2 ^ 16
  simp only [UuidM.beVal, UuidM.tsByte, List.foldl]
  norm_num
  omega

/-- Associativity-explicit form of the UUID character string: the five
hex groups separated by hyphens. -/
theorem UuidM.chars_decompose (ts : Nat) (rb : List Nat) :
    UuidM.GenerateUUIDv7Chars ts rb =
      UuidM.padHex 8 (UuidM.beVal ((UuidM.uuidBytes ts rb).take 4)) ++ ['-'] ++
      UuidM.padHex 4 (UuidM.beVal (((UuidM.uuidBytes ts rb).drop 4).take 2)) ++ ['-'] ++
      UuidM.padHex 4 (UuidM.beVal (((UuidM.uuidBytes ts rb).drop 6).take 2)) ++ ['-'] ++
      UuidM.padHex 4 (UuidM.beVal (((UuidM.uuidBytes ts rb).drop 8).take 2)) ++ ['-'] ++
      UuidM.padHex 12 (UuidM.beVal ((UuidM.uuidBytes ts rb).drop 10)) := rfl

set_option maxHeartbeats 1600000 in
/-- C8.  UUIDv7 lexicographic monotonicity: identifiers whose 48-bit
millisecond timestamps strictly increase compare lexicographically in the
same order, whatever random bytes fill the rest.  The first fourteen
characters of the hyphenated string are the zero-padded hex timestamp
(split 8 + 4 around a hyphen), and fixed-width lowercase hex is strictly
monotone character-by-character. -/
theorem C8_uuidv7_lexicographic (ts1 ts2 : Nat) (rb1 rb2 : List Nat)
    (h12 : ts1 < ts2) (h2 : ts2 < 2 ^ 48) :
    List.Lex (· < ·) (UuidM.GenerateUUIDv7Chars ts1 rb1)
      (UuidM.GenerateUUIDv7Chars ts2 rb2) := by
  have h1 : ts1 < 2 ^ 48 := Nat.lt_trans h12 h2
  rw [UuidM.chars_decompose ts1 rb1, UuidM.chars_decompose ts2 rb2,
    UuidM.beVal_group1 ts1 rb1 h1, UuidM.beVal_group1 ts2 rb2 h2]
  simp only [List.append_assoc]
  rcases Nat.lt_or_ge (ts1 / 2 ^ 16) (ts2 / 2 ^ 16) with hlt | hge
  · refine UuidM.lex_append_left (UuidM.padHex_lt 8 _ _ hlt (by omega)) _ _ ?_
    rw [UuidM.length_padHex, UuidM.length_padHex]
  · have hqeq : ts1 / 2 ^ 16 = ts2 / 2 ^ 16 :=
      Nat.le_antisymm (Nat.div_le_div_right (Nat.le_of_lt h12)) hge
    have hrlt : ts1 % 2 ^ 16 < ts2 % 2 ^ 16 := by omega
    rw [hqeq]
    refine UuidM.lex_append_common _ (UuidM.lex_append_common ['-'] ?_)
    rw [UuidM.beVal_group2 ts1 rb1 h1, UuidM.beVal_group2 ts2 rb2 h2]
    refine UuidM.lex_append_left (UuidM.padHex_lt 4 _ _ hrlt (by omega)) _ _ ?_
    rw [UuidM.length_padHex, UuidM.length_padHex]

/-- Witness for C8: timestamps `5 < 6`, empty random bytes. -/
theorem C8_uuidv7_lexicographic_witness :
    5 < 6 ∧ 6 < 2 ^ 48 ∧
      List.Lex (· < ·) (UuidM.GenerateUUIDv7Chars 5 [1, 2, 3])
        (UuidM.GenerateUUIDv7Chars 6 [9, 9, 9]) :=
  ⟨by decide, by norm_num,
    C8_uuidv7_lexicographic 5 6 [1, 2, 3] [9, 9, 9] (by decide) (by norm_num)⟩

/-- C3.  The claim states the skip-list span invariant: every span counts
the base-level hops of its link, so span sums give ranks, for every
sequence of `ZAdd` and `ZRem`.  The insertion path maintains this (first
conjunct).  But `zslDeleteNode` iterates only over the levels of the
deleted node (`for i := 0; i < len(x.level); i++` instead of every level of
the list), so a higher-level link that jumps over the deleted node keeps
its old span: after adding `A` (level 2, score 3), `B` (level 1, score 2),
`C` (level 2, score 1) and removing `B`, the level-1 link `A → C` still
stores span `2` although only one level-0 hop remains (second conjunct).
This run evaluates the embedded code at that failing input. -/
theorem C3_zset_span_invariant_bug :
    ZSetM.spanOk ZSetM.c3Before = true ∧ ZSetM.spanOk ZSetM.c3After = false := by
  decide

/-- C5.  The claim gives the `ZRange` contract — `ZRange(start, stop)`
returns the entries at descending-order ranks `start .. min(stop, length-1)`
— for every `ZSet` and `0 ≤ start`.  On span-correct states the contract
holds (the model reproduces the spec scenario `range(0, 4)` on ten ascending
scores), but states reachable through `ZRem` violate it: in `c5State` the
five remaining elements are `A, C, D, E, F` in rank order — the rank-4
element is `"F"` (third conjunct below) — yet `ZRange(4, 4)` walks the
stale level-1 span of `A` (still `3` after the deletion of `B`) and returns
`E`, the rank-3 element.  This theorem evaluates the embedded code at that
failing input. -/
theorem C5_zrange_rank_contract_bug :
    ZSetM.ZRange ZSetM.c5State 4 4 = some ["E:20.00"] ∧
      ZSetM.c5State.nodes.length = 5 ∧
      (ZSetM.c5State.nodes.get? 4).map (fun n => n.ele) = some "F" := by
  decide

/-- C9 counterexample.  The claim asserts `ZRange` returns without panicking
for every pair of integer arguments, including negative `start`.  It does
not: on the empty `ZSet`, `ZRange(-1, 0)` passes both guards
(`start > stop` and `start ≥ length` are false), clamps `stop` to `-1`,
allocates a one-slot result, and the first collection step dereferences the
header's nil level-0 forward pointer — `none` in the model. -/
theorem C9_zrange_negative_start_counterexample :
    ZSetM.ZRange ZSetM.NewZSet (-1) 0 = none := by decide

/-- Specification of the forward scan `fwdAux`: a hit is at or after the
start position, lands inside the scanned suffix on a node that participates
in the level. -/
theorem ZSetM.fwdAux_spec {l : Nat} :
    ∀ (rest : List ZSetM.ZNode) (q0 q : Nat) (n : ZSetM.ZNode),
      ZSetM.fwdAux l rest q0 = some (q, n) →
      q0 ≤ q ∧ q - q0 < rest.length ∧ rest.get? (q - q0) = some n ∧
        l < n.spans.length := by
  intro rest
  induction rest with
  | nil => intro q0 q n h; simp [ZSetM.fwdAux] at h
  | cons m rest ih =>
    intro q0 q n h
    by_cases htall : l < m.spans.length
    · rw [ZSetM.fwdAux, if_pos htall] at h
      obtain ⟨hq, hn⟩ : q0 = q ∧ m = n := by
        constructor <;> [exact congrArg Prod.fst (Option.some.inj h);
          exact congrArg Prod.snd (Option.some.inj h)]
      subst hq; subst hn
      refine ⟨Nat.le_refl _, ?_, ?_, htall⟩ <;> simp
    · rw [ZSetM.fwdAux, if_neg htall] at h
      obtain ⟨h1, h2, h3, h4⟩ := ih (q0 + 1) q n h
      refine ⟨by omega, by simp; omega, ?_, h4⟩
      have hidx : q - q0 = (q - (q0 + 1)) + 1 := by omega
      rw [hidx]
      simpa using h3

/-- Specification of the derived forward pointer: the target is a strictly
later, in-range position holding a node that participates in the level. -/
theorem ZSetM.fwdN_spec (s : ZSetM.ZSet) (p l q : Nat) (n : ZSetM.ZNode)
    (h : ZSetM.fwdN s p l = some (q, n)) :
    p < q ∧ q ≤ s.nodes.length ∧ s.nodes.get? (q - 1) = some n ∧
      l < n.spans.length := by
  obtain ⟨h1, h2, h3, h4⟩ := ZSetM.fwdAux_spec (s.nodes.drop p) (p + 1) q n h
  have hlen : (s.nodes.drop p).length = s.nodes.length - p := by simp
  rw [hlen] at h2
  have hget : s.nodes.get? (p + (q - (p + 1))) = some n := by
    rw [← List.get?_drop]; exact h3
  have hidx : p + (q - (p + 1)) = q - 1 := by omega
  rw [hidx] at hget
  exact ⟨by omega, by omega, hget, h4⟩

/-- The level count of an occupied position is its node's. -/
theorem ZSetM.heightAt_of_get (s : ZSetM.ZSet) (q : Nat) (n : ZSetM.ZNode)
    (hq : 1 ≤ q) (h : s.nodes.get? (q - 1) = some n) :
    ZSetM.heightAt s q = n.spans.length := by
  unfold ZSetM.heightAt
  rw [if_neg (by omega), h]
  rfl

/-- Pointwise consequence of `spanDominant`. -/
theorem ZSetM.dominant_spec (s : ZSetM.ZSet) (hd : ZSetM.spanDominant s = true)
    (p l q : Nat) (n : ZSetM.ZNode) (h : ZSetM.fwdN s p l = some (q, n))
    (hp : p ≤ s.nodes.length) (hl : l < ZSetM.heightAt s p) :
    ((q : Int) - (p : Int)) ≤ ZSetM.spanAt s p l := by
  unfold ZSetM.spanDominant at hd
  rw [List.all_eq_true] at hd
  have h1 := hd p (by rw [List.mem_range]; omega)
  rw [List.all_eq_true] at h1
  have h2 := h1 l (by rw [List.mem_range]; exact hl)
  rw [h] at h2
  simpa using h2

/-- The collection loop of `ZRange` never dereferences nil as long as it
stays within the chain: `cnt` entries fit after position `p`. -/
theorem ZSetM.collectLoop_isSome (s : ZSetM.ZSet)
    (hh : ZSetM.heightsOk s = true) :
    ∀ (cnt p : Nat), p + cnt ≤ s.nodes.length →
      (ZSetM.collectLoop s cnt p).isSome = true := by
  intro cnt
  induction cnt with
  | zero => intro p _; rfl
  | succ cnt ih =>
    intro p hcnt
    have hlt : p < s.nodes.length := by omega
    obtain ⟨n0, rest0, hdrop⟩ : ∃ n0 rest0, s.nodes.drop p = n0 :: rest0 := by
      cases hcase : s.nodes.drop p with
      | nil =>
        have : (s.nodes.drop p).length = 0 := by rw [hcase]; rfl
        simp at this; omega
      | cons a b => exact ⟨a, b, rfl⟩
    have hmem : n0 ∈ s.nodes := List.drop_subset p s.nodes (by rw [hdrop]; simp)
    have htall : 0 < n0.spans.length := by
      unfold ZSetM.heightsOk at hh
      rw [List.all_eq_true] at hh
      simpa using hh n0 hmem
    have hfwd : ZSetM.fwdN s p 0 = some (p + 1, n0) := by
      unfold ZSetM.fwdN
      rw [hdrop, ZSetM.fwdAux, if_pos htall]
    rw [ZSetM.collectLoop, hfwd]
    simpa using ih (p + 1) (by omega)

/-- Invariant of one level of the `ZRange` locate loop: starting below the
rank budget `start` with an accumulated span sum dominating the position,
the loop ends below the budget with the sum still dominating — because every
link it takes has a span at least its hop count. -/
theorem ZSetM.rangeAdvance_inv (s : ZSetM.ZSet) (start : Int) (l : Nat)
    (hd : ZSetM.spanDominant s = true) :
    ∀ (rest : List ZSetM.ZNode) (q p : Nat) (cs : Int),
      s.nodes.drop (q - 1) = rest → 1 ≤ q →
      ZSetM.fwdN s p l = ZSetM.fwdAux l rest q →
      p ≤ s.nodes.length → l < ZSetM.heightAt s p →
      (p : Int) ≤ cs → cs ≤ start →
      (ZSetM.rangeAdvance s start l rest q p cs).1 ≤ s.nodes.length ∧
        l < ZSetM.heightAt s (ZSetM.rangeAdvance s start l rest q p cs).1 ∧
        ((ZSetM.rangeAdvance s start l rest q p cs).1 : Int) ≤
          (ZSetM.rangeAdvance s start l rest q p cs).2 ∧
        (ZSetM.rangeAdvance s start l rest q p cs).2 ≤ start := by
  intro rest
  induction rest with
  | nil =>
    intro q p cs _ _ _ hp hhl hpc hcs
    exact ⟨hp, hhl, hpc, hcs⟩
  | cons n rest ih =>
    intro q p cs hrest hq hfw hp hhl hpc hcs
    have hdropq : s.nodes.drop q = rest := by
      have h1 : s.nodes.drop q = (s.nodes.drop (q - 1)).drop 1 := by
        rw [List.drop_drop]
        congr 1
        omega
      rw [h1, hrest]
      simp
    by_cases htall : l < n.spans.length
    · by_cases hbudget : cs + ZSetM.spanAt s p l ≤ start
      · have hhit : ZSetM.fwdN s p l = some (q, n) := by
          rw [hfw, ZSetM.fwdAux, if_pos htall]
        obtain ⟨hpq, hqlen, hget, _⟩ := ZSetM.fwdN_spec s p l q n hhit
        have hdom := ZSetM.dominant_spec s hd p l q n hhit hp hhl
        have hstep : ZSetM.rangeAdvance s start l (n :: rest) q p cs =
            ZSetM.rangeAdvance s start l rest (q + 1) q (cs + ZSetM.spanAt s p l) := by
          rw [ZSetM.rangeAdvance, if_pos htall, if_pos hbudget]
        rw [hstep]
        refine ih (q + 1) q (cs + ZSetM.spanAt s p l) (by simpa using hdropq)
          (by omega) ?_ hqlen ?_ ?_ hbudget
        · unfold ZSetM.fwdN
          rw [hdropq]
        · rw [ZSetM.heightAt_of_get s q n hq hget]
          exact htall
        · have : ((q : Int) - (p : Int)) ≤ ZSetM.spanAt s p l := hdom
          omega
      · have hstop : ZSetM.rangeAdvance s start l (n :: rest) q p cs = (p, cs) := by
          rw [ZSetM.rangeAdvance, if_pos htall, if_neg hbudget]
        rw [hstop]
        exact ⟨hp, hhl, hpc, hcs⟩
    · have hskip : ZSetM.rangeAdvance s start l (n :: rest) q p cs =
          ZSetM.rangeAdvance s start l rest (q + 1) p cs := by
        rw [ZSetM.rangeAdvance, if_neg htall]
      rw [hskip]
      refine ih (q + 1) p cs (by simpa using hdropq) (by omega) ?_ hp hhl hpc hcs
      rw [hfw, ZSetM.fwdAux, if_neg htall]

/-- Invariant of the full `ZRange` locate descent. -/
theorem ZSetM.rangeDescend_inv (s : ZSetM.ZSet) (start : Int)
    (hd : ZSetM.spanDominant s = true) :
    ∀ (i p : Nat) (cs : Int),
      p ≤ s.nodes.length → i ≤ ZSetM.heightAt s p →
      (p : Int) ≤ cs → cs ≤ start →
      (ZSetM.rangeDescend s start i p cs).1 ≤ s.nodes.length ∧
        ((ZSetM.rangeDescend s start i p cs).1 : Int) ≤
          (ZSetM.rangeDescend s start i p cs).2 ∧
        (ZSetM.rangeDescend s start i p cs).2 ≤ start := by
  intro i
  induction i with
  | zero => intro p cs hp _ hpc hcs; exact ⟨hp, hpc, hcs⟩
  | succ i ih =>
    intro p cs hp hht hpc hcs
    obtain ⟨h1, h2, h3, h4⟩ := ZSetM.rangeAdvance_inv s start i hd
      (s.nodes.drop p) (p + 1) p cs (by simp) (by omega) rfl hp (by omega) hpc hcs
    have hstep : ZSetM.rangeDescend s start (i + 1) p cs =
        ZSetM.rangeDescend s start i
          (ZSetM.rangeAdvance s start i (s.nodes.drop p) (p + 1) p cs).1
          (ZSetM.rangeAdvance s start i (s.nodes.drop p) (p + 1) p cs).2 := rfl
    rw [hstep]
    exact ih _ _ h1 (by omega) h3 h4

/-- C9 amended.  For states whose nodes all participate in level 0, whose
spans dominate their hop counts (reachable states do, the deletion bug only
inflates spans) and whose level is at most 32, `ZRange` with `0 ≤ start`
returns a slice — the locate loop cannot overshoot rank `start`, so the
collection loop stays inside the chain and never dereferences nil. -/
theorem C9_zrange_nonneg_total (s : ZSetM.ZSet) (start stop : Int)
    (h0 : 0 ≤ start) (hh : ZSetM.heightsOk s = true)
    (hd : ZSetM.spanDominant s = true) (hlvl : s.level ≤ 32) :
    (ZSetM.ZRange s start stop).isSome = true := by
  unfold ZSetM.ZRange
  by_cases hguard : start > stop ∨ start ≥ (s.nodes.length : Int)
  · rw [if_pos hguard]; rfl
  · rw [if_neg hguard]
    push_neg at hguard
    obtain ⟨hss, hsl⟩ := hguard
    have hh32 : ZSetM.heightAt s 0 = 32 := by unfold ZSetM.heightAt; simp
    obtain ⟨h1, h2, h3⟩ := ZSetM.rangeDescend_inv s start hd s.level 0 0
      (by omega) (by omega) (by simp) h0
    apply ZSetM.collectLoop_isSome s hh
    set p := (ZSetM.rangeDescend s start s.level 0 0).1 with hp
    set stop1 := if stop ≥ (s.nodes.length : Int) then (s.nodes.length : Int) - 1 else stop
      with hstop1
    have hstop1le : stop1 ≤ (s.nodes.length : Int) - 1 := by
      rw [hstop1]
      split <;> omega
    have hstop1ge : start ≤ stop1 := by
      rw [hstop1]
      split <;> omega
    have hcnt : ((stop1 - start + 1).toNat : Int) = stop1 - start + 1 := by
      omega
    have hps : (p : Int) ≤ start := le_trans h2 h3
    omega

/-- Witness for the amended C9 at a concrete state: the five-element state
left behind by the C5 run — including its deletion-inflated span — satisfies
the hypotheses, and `ZRange(1, 9)` on it is defined. -/
theorem C9_zrange_nonneg_total_witness :
    (0 : Int) ≤ 1 ∧ ZSetM.heightsOk ZSetM.c5State = true ∧
      ZSetM.spanDominant ZSetM.c5State = true ∧ ZSetM.c5State.level ≤ 32 ∧
      (ZSetM.ZRange ZSetM.c5State 1 9).isSome = true :=
  ⟨by decide, by decide, by decide, by decide,
    C9_zrange_nonneg_total ZSetM.c5State 1 9 (by decide) (by decide) (by decide)
      (by decide)⟩

/-- C2.  The claim states the B+ tree node-fill invariant — every non-root
node holds between `order−1` and `2·order−1` KEYS — for every `Insert` /
`Delete` sequence on a tree of order ≥ 3.  Insertion maintains it (first
conjunct: ascending inserts `0..24` at order 3).  Deletion does not: the
source's `internalNode.size()` returns `len(n.children)` — the KEY count
plus one — while `minKeys` is a KEY bound, so `delete`'s underflow test
`size() < minKeys` lets an internal node shrink to `order−2` keys
unrepaired.  After deleting `2, 5, 8, 11, 1, 4, 3` the non-root internal
node holding `[9]` has a single key with `minKeys = 2` (second conjunct).
This theorem evaluates the embedded code at that failing input. -/
theorem C2_bptree_fill_invariant_bug :
    BPTreeM.fillOk
        (BPTreeM.runIntTree 3 ((List.range 25).map (fun i => (i : Int))) []) = true ∧
      BPTreeM.fillOk
        (BPTreeM.runIntTree 3 ((List.range 25).map (fun i => (i : Int)))
          [2, 5, 8, 11, 1, 4, 3]) = false := by
  decide

namespace LruM

variable {K V : Type} [DecidableEq K] [DecidableEq V]

/-- A non-empty chain has a last element, and it is a member. -/
theorem getLast_mem_of_ne_nil :
    ∀ (c : List (Elem K V)), c ≠ [] → ∃ e, c.getLast? = some e ∧ e ∈ c := by
  intro c
  induction c with
  | nil => intro h; exact absurd rfl h
  | cons a t ih =>
    intro _
    cases t with
    | nil => exact ⟨a, rfl, by simp⟩
    | cons b t2 =>
      obtain ⟨e, he, hmem⟩ := ih (by simp)
      exact ⟨e, by rw [List.getLast?_cons_cons]; exact he, by simp [hmem]⟩

/-- Unlinking never lengthens the chain. -/
theorem length_removeChain_le (id : Nat) :
    ∀ (c : List (Elem K V)), (removeChain id c).length ≤ c.length := by
  intro c
  induction c with
  | nil => simp [removeChain]
  | cons e rest ih =>
    by_cases h : e.id = id
    · rw [removeChain, if_pos h]
      simp only [List.length_cons]
      omega
    · rw [removeChain, if_neg h]
      simp only [List.length_cons]
      have := ih
      omega

/-- Unlinking a present id shortens the chain by exactly one. -/
theorem length_removeChain (id : Nat) :
    ∀ (c : List (Elem K V)), (∃ e ∈ c, e.id = id) →
      (removeChain id c).length + 1 = c.length := by
  intro c
  induction c with
  | nil => intro h; simp at h
  | cons e rest ih =>
    intro h
    by_cases hid : e.id = id
    · simp [removeChain, hid]
    · rw [removeChain, if_neg hid]
      obtain ⟨x, hx, hxid⟩ := h
      have hxr : x ∈ rest := by
        cases List.mem_cons.1 hx with
        | inl heq => exact absurd (heq ▸ hxid) hid
        | inr hr => exact hr
      have := ih ⟨x, hxr, hxid⟩
      simp
      omega

/-- `removeElem` keeps the capacity. -/
theorem capacity_removeElem (l : LList K V) (id : Nat) :
    (removeElem l id).capacity = l.capacity := by
  unfold removeElem
  cases findElem l id <;> rfl

/-- `removeElem` never lengthens the chain. -/
theorem length_removeElem_le (l : LList K V) (id : Nat) :
    (removeElem l id).chain.length ≤ l.chain.length := by
  unfold removeElem
  cases findElem l id with
  | none => exact Nat.le_refl _
  | some e => exact length_removeChain_le id l.chain

/-- `evict` keeps the capacity. -/
theorem capacity_evict :
    ∀ (fuel : Nat) (l : LList K V), (evict fuel l).capacity = l.capacity := by
  intro fuel
  induction fuel with
  | zero => intro l; rfl
  | succ fuel ih =>
    intro l
    rw [evict]
    split
    · cases hlast : l.chain.getLast? with
      | none => rfl
      | some e => rw [ih, capacity_removeElem]
    · rfl

/-- The eviction loop, given fuel covering the chain, ends within the
capacity (for a non-negative capacity). -/
theorem evict_le :
    ∀ (fuel : Nat) (l : LList K V), l.chain.length ≤ fuel → 0 ≤ l.capacity →
      ((evict fuel l).chain.length : Int) ≤ l.capacity := by
  intro fuel
  induction fuel with
  | zero =>
    intro l hlen hcap
    have : l.chain.length = 0 := Nat.le_zero.1 hlen
    rw [evict, this]
    exact_mod_cast hcap
  | succ fuel ih =>
    intro l hlen hcap
    rw [evict]
    split
    · next hgt =>
      have hne : l.chain ≠ [] := by
        intro hnil
        rw [hnil] at hgt
        simp at hgt
        omega
      obtain ⟨e, hlast, hmem⟩ := getLast_mem_of_ne_nil l.chain hne
      rw [hlast]
      have hfind : (findElem l e.id).isSome := by
        unfold findElem
        rw [List.find?_isSome]
        exact ⟨e, hmem, by simp⟩
      have hdec : (removeElem l e.id).chain.length + 1 = l.chain.length := by
        unfold removeElem
        cases hf : findElem l e.id with
        | none => rw [hf] at hfind; simp at hfind
        | some x =>
          exact length_removeChain e.id l.chain ⟨e, hmem, rfl⟩
      have hcap2 : 0 ≤ (removeElem l e.id).capacity := by
        rw [capacity_removeElem]; exact hcap
      have := ih (removeElem l e.id) (by omega) hcap2
      rw [capacity_removeElem] at this
      exact this
    · next hle => omega

/-- `evictLoop` bounds the length by the capacity. -/
theorem evictLoop_le (l : LList K V) (hcap : 0 ≤ l.capacity) :
    ((evictLoop l).chain.length : Int) ≤ l.capacity := by
  have h := evict_le l.chain.length l (Nat.le_refl _) hcap
  exact h

/-- `evictLoop` keeps the capacity. -/
theorem capacity_evictLoop (l : LList K V) :
    (evictLoop l).capacity = l.capacity := capacity_evict _ l

/-- `AddFront` keeps the capacity. -/
theorem capacity_AddFront (l : LList K V) (k : K) (v : V) :
    ((AddFront l k v).2).capacity = l.capacity := capacity_evictLoop _

/-- An `AddFront` always returns within the capacity: it ends in the
eviction loop. -/
theorem AddFront_le (l : LList K V) (k : K) (v : V) (hcap : 0 ≤ l.capacity) :
    (((AddFront l k v).2).chain.length : Int) ≤ l.capacity :=
  evictLoop_le _ hcap

/-- `MoveToFront` keeps the capacity. -/
theorem capacity_MoveToFront (l : LList K V) (id : Nat) :
    ((MoveToFront l id).2.2).capacity = l.capacity := by
  unfold MoveToFront
  cases hf : findElem l id with
  | none => rfl
  | some e =>
    dsimp only
    split
    · rfl
    · have h := capacity_AddFront (removeElem l id) e.key e.value
      rw [capacity_removeElem] at h
      exact h

/-- `MoveToFront` preserves the capacity bound. -/
theorem MoveToFront_le (l : LList K V) (id : Nat) (hcap : 0 ≤ l.capacity)
    (hlen : (l.chain.length : Int) ≤ l.capacity) :
    (((MoveToFront l id).2.2).chain.length : Int) ≤ l.capacity := by
  unfold MoveToFront
  cases hf : findElem l id with
  | none => exact hlen
  | some e =>
    dsimp only
    split
    · exact hlen
    · have h := AddFront_le (removeElem l id) e.key e.value
        (by rw [capacity_removeElem]; exact hcap)
      rw [capacity_removeElem] at h
      exact h

end LruM

namespace LruM

variable {K V : Type} [DecidableEq K] [DecidableEq V]

/-- `MoveToFront` of a live handle reports success. -/
theorem MoveToFront_true (l : LList K V) (id : Nat)
    (h : (findElem l id).isSome) : (MoveToFront l id).1 = true := by
  unfold MoveToFront
  cases hf : findElem l id with
  | none => rw [hf] at h; simp at h
  | some e =>
    dsimp only
    split
    · rfl
    · rcases hAF : AddFront (removeElem l id) e.key e.value with ⟨id2, l3⟩
      simp [hAF]

/-- `MoveToFront` either leaves the list untouched or ends in an
`AddFront` on a list of the same capacity. -/
theorem MoveToFront_shape (l : LList K V) (id : Nat) :
    ((MoveToFront l id).2.2 = l ∧ (MoveToFront l id).2.1 = id) ∨
      ∃ (l' : LList K V) (k : K) (v : V), l'.capacity = l.capacity ∧
        (MoveToFront l id).2.2 = (AddFront l' k v).2 := by
  unfold MoveToFront
  cases hf : findElem l id with
  | none => left; exact ⟨rfl, rfl⟩
  | some e =>
    dsimp only
    split
    · left; exact ⟨rfl, rfl⟩
    · right
      refine ⟨removeElem l id, e.key, e.value, capacity_removeElem l id, ?_⟩
      rcases hAF : AddFront (removeElem l id) e.key e.value with ⟨id2, l3⟩
      simp [hAF]

/-- The element just appended by `AddBack` is always found. -/
theorem findElem_append (l : LList K V) (id : Nat) (k : K) (v : V)
    (c : List (Elem K V)) (hc : c = l.chain ++ [⟨id, k, v⟩]) :
    (findElem
      { l with
        chain := c
        index := indexSet l.index k id
        nextId := id + 1 } id).isSome := by
  unfold findElem
  rw [List.find?_isSome]
  exact ⟨⟨id, k, v⟩, by rw [hc]; simp, by simp⟩

/-- `AddBack` keeps the capacity. -/
theorem capacity_AddBack (l : LList K V) (k : K) (v : V) :
    ((AddBack l k v).2).capacity = l.capacity := by
  unfold AddBack
  dsimp only
  rcases hmv : MoveToFront
      { l with
        chain := l.chain ++ [⟨l.nextId, k, v⟩]
        index := indexSet l.index k l.nextId
        nextId := l.nextId + 1 } l.nextId
    with ⟨b, id2, l2⟩
  have hc2 : l2.capacity = l.capacity := by
    have := capacity_MoveToFront
      { l with
        chain := l.chain ++ [⟨l.nextId, k, v⟩]
        index := indexSet l.index k l.nextId
        nextId := l.nextId + 1 } l.nextId
    rw [hmv] at this
    exact this
  cases b
  · simpa using hc2
  · dsimp only
    split
    · rw [capacity_evictLoop]; exact hc2
    · exact hc2

/-- An `AddBack` always returns within the capacity: the element lands at
the head case (then the eviction loop runs) or goes through
`MoveToFront`'s `AddFront` (which itself ends in the eviction loop). -/
theorem AddBack_le (l : LList K V) (k : K) (v : V) (hcap : 0 ≤ l.capacity) :
    (((AddBack l k v).2).chain.length : Int) ≤ l.capacity := by
  unfold AddBack
  dsimp only
  set l1 : LList K V :=
    { l with
      chain := l.chain ++ [⟨l.nextId, k, v⟩]
      index := indexSet l.index k l.nextId
      nextId := l.nextId + 1 } with hl1
  have hcap1 : l1.capacity = l.capacity := rfl
  have hfound : (findElem l1 l.nextId).isSome :=
    findElem_append l l.nextId k v _ rfl
  rcases hmv : MoveToFront l1 l.nextId with ⟨b, id2, l2⟩
  have hc2 : l2.capacity = l.capacity := by
    have := capacity_MoveToFront l1 l.nextId
    rw [hmv] at this
    exact this
  cases b
  · have := MoveToFront_true l1 l.nextId hfound
    rw [hmv] at this
    simp at this
  · dsimp only
    split
    · rw [← hc2]
      exact evictLoop_le l2 (by rw [hc2]; exact hcap)
    · rcases MoveToFront_shape l1 l.nextId with ⟨hsame, hid⟩ | ⟨l', k', v', hcap', hAF⟩
      · rw [hmv] at hsame hid
        dsimp at hsame hid
        subst hsame
        subst hid
        next hdead =>
        exact absurd hfound (by simpa using hdead)
      · rw [hmv] at hAF
        dsimp at hAF
        rw [hAF, ← hcap1, ← hcap']
        exact AddFront_le l' k' v' (by rw [hcap', hcap1]; exact hcap)

/-- `Remove` keeps the capacity. -/
theorem capacity_Remove (l : LList K V) (id : Nat) :
    ((Remove l id).2).capacity = l.capacity := by
  unfold Remove
  split
  · exact capacity_removeElem l id
  · rfl

/-- `Remove` preserves the capacity bound (the chain only shrinks). -/
theorem Remove_le (l : LList K V) (id : Nat)
    (hlen : (l.chain.length : Int) ≤ l.capacity) :
    (((Remove l id).2).chain.length : Int) ≤ l.capacity := by
  unfold Remove
  split
  · dsimp only
    have := length_removeElem_le l id
    omega
  · exact hlen

/-- `SetValue` keeps the capacity. -/
theorem capacity_SetValue (l : LList K V) (id : Nat) (v : V) :
    ((SetValue l id v).2).capacity = l.capacity := by
  unfold SetValue
  cases hf : findElem l id with
  | none => rfl
  | some e =>
    dsimp only
    split
    · rfl
    · rcases hmv : MoveToFront
          { l with
            chain := l.chain.map
              (fun x => if x.id = id then { x with value := v } else x) } id
        with ⟨b, id2, l2⟩
      have := capacity_MoveToFront
        { l with
          chain := l.chain.map
            (fun x => if x.id = id then { x with value := v } else x) } id
      rw [hmv] at this
      simpa using this

/-- `SetValue` preserves the capacity bound. -/
theorem SetValue_le (l : LList K V) (id : Nat) (v : V) (hcap : 0 ≤ l.capacity)
    (hlen : (l.chain.length : Int) ≤ l.capacity) :
    (((SetValue l id v).2).chain.length : Int) ≤ l.capacity := by
  unfold SetValue
  cases hf : findElem l id with
  | none => exact hlen
  | some e =>
    dsimp only
    split
    · exact hlen
    · set l1 : LList K V :=
        { l with
          chain := l.chain.map
            (fun x => if x.id = id then { x with value := v } else x) } with hl1
      rcases hmv : MoveToFront l1 id with ⟨b, id2, l2⟩
      have h := MoveToFront_le l1 id (by simpa [hl1] using hcap)
        (by simp [hl1]; exact hlen)
      rw [hmv] at h
      simpa using h

/-- `MoveToFront` as a public operation preserves the capacity bound. -/
theorem MoveToFront_op_le (l : LList K V) (id : Nat) (hcap : 0 ≤ l.capacity)
    (hlen : (l.chain.length : Int) ≤ l.capacity) :
    (((MoveToFront l id).2.2).chain.length : Int) ≤ l.capacity :=
  MoveToFront_le l id hcap hlen

/-- One public operation keeps the list within its capacity and keeps the
capacity itself. -/
theorem applyOp_inv (l : LList K V) (op : LOp K V) (hcap : 0 ≤ l.capacity)
    (hlen : (l.chain.length : Int) ≤ l.capacity) :
    (((applyOp l op).chain.length : Int) ≤ l.capacity ∧
      (applyOp l op).capacity = l.capacity) := by
  cases op with
  | addFront k v => exact ⟨AddFront_le l k v hcap, capacity_AddFront l k v⟩
  | addBack k v => exact ⟨AddBack_le l k v hcap, capacity_AddBack l k v⟩
  | remove id => exact ⟨Remove_le l id hlen, capacity_Remove l id⟩
  | setValue id v => exact ⟨SetValue_le l id v hcap hlen, capacity_SetValue l id v⟩
  | moveToFront id => exact ⟨MoveToFront_op_le l id hcap hlen, capacity_MoveToFront l id⟩

/-- The capacity bound is invariant along any run of public operations. -/
theorem foldl_inv :
    ∀ (ops : List (LOp K V)) (l : LList K V), 0 ≤ l.capacity →
      (l.chain.length : Int) ≤ l.capacity →
      ((ops.foldl applyOp l).chain.length : Int) ≤ l.capacity ∧
        (ops.foldl applyOp l).capacity = l.capacity := by
  intro ops
  induction ops with
  | nil => intro l _ hlen; exact ⟨hlen, rfl⟩
  | cons op rest ih =>
    intro l hcap hlen
    obtain ⟨h1, h2⟩ := applyOp_inv l op hcap hlen
    have := ih (applyOp l op) (by rw [h2]; exact hcap) (by rw [h2]; exact h1)
    rw [h2] at this
    exact this

end LruM

/-- C4.  LRU capacity invariant: a list built by `NewLRUCache(c)` with
`c ≥ 0` has at most `c` elements after every public operation
(`AddFront`, `AddBack`, `Remove`, `SetValue`, `MoveToFront`) returns, for
every operation sequence.  Every growing path ends in the LRU plugin's
eviction loop, whose `tail == n` self-protection guard compares freshly
allocated wrapper pointers and therefore never stops it early. -/
theorem C4_lru_capacity_invariant {K V : Type} [DecidableEq K] [DecidableEq V]
    (c : Int) (ops : List (LruM.LOp K V)) (hc : 0 ≤ c) :
    (((LruM.runOps c ops).chain.length : Int)) ≤ c := by
  have h := LruM.foldl_inv ops (LruM.NewLRUCache c) hc
    (by simpa [LruM.NewLRUCache] using hc)
  exact h.1

/-- Witness for C4 at capacity 2 with the spec's eviction scenario
`add_back a; add_back b; add_back c`. -/
theorem C4_lru_capacity_invariant_witness :
    (0 : Int) ≤ 2 ∧
      (((LruM.runOps 2 [LruM.LOp.addBack "a" 1, LruM.LOp.addBack "b" 2,
        LruM.LOp.addBack "c" 3] : LruM.LList String Int).chain.length : Int)) ≤ 2 :=
  ⟨by decide,
    C4_lru_capacity_invariant 2
      [LruM.LOp.addBack "a" 1, LruM.LOp.addBack "b" 2, LruM.LOp.addBack "c" 3]
      (by decide)⟩

/-- C6 counterexample.  The claim quantifies over every total-order
comparator, but `HeapSorted` reverses the comparator with Go's wrapping
`int` negation, and `-math.MinInt64 = math.MinInt64`.  `cmpMinBool` is a
total-order comparator (both comparator laws hold, checked below), yet
`HeapSorted([false, true])` leaves the wrapped reversal `≤ 0` at the
root so heapify never swaps, and the selection loop returns the
unsorted `[true, false]` (`cmpMinBool true false = 1 > 0`). -/
theorem C6_heapsort_minint_counterexample :
    (∀ x y, 0 ≤ HeapM.cmpMinBool x y ↔ HeapM.cmpMinBool y x ≤ 0) ∧
    (∀ x y z, HeapM.cmpMinBool x y ≤ 0 → HeapM.cmpMinBool y z ≤ 0 →
      HeapM.cmpMinBool x z ≤ 0) ∧
    HeapM.HeapSorted [false, true] HeapM.cmpMinBool = [true, false] ∧
    ¬ (HeapM.HeapSorted [false, true] HeapM.cmpMinBool).Pairwise
      (fun x y => HeapM.cmpMinBool x y ≤ 0) := by
  have hrun : HeapM.HeapSorted [false, true] HeapM.cmpMinBool = [true, false] := by
    simp [HeapM.HeapSorted, HeapM.AdjustHeap, HeapM.adjustFrom, HeapM.sortLoop,
      HeapM.DownAdjust, HeapM.pickChild, HeapM.swapL, HeapM.wrap64, HeapM.cmpMinBool]
  refine ⟨by decide, by decide, hrun, ?_⟩
  rw [hrun]
  decide

/-- C6 (amended).  Heap sort correctness for non-wrapping comparators:
for every input array and every comparator satisfying the two laws of a
consistent total-order three-way comparison (the signs of `cmp x y` and
`cmp y x` are opposite, and `cmp · · ≤ 0` is transitive) whose values lie
strictly between `math.MinInt64` and `2^63` — so that Go's wrapping `int`
negation of a comparator value is its exact negation — `HeapSorted(arr,
cmp)` returns a permutation of `arr` sorted ascending with respect to
`cmp`: the code reverses the comparator, heapifies with `AdjustHeap`,
then repeatedly swaps the root with the last active position and sifts
the new root down with `DownAdjust`. -/
theorem C6_heapsort_correct {T : Type} [Inhabited T] (cmp : T → T → Int)
    (arr : List T)
    (hflip : ∀ x y, 0 ≤ cmp x y ↔ cmp y x ≤ 0)
    (htrans : ∀ x y z, cmp x y ≤ 0 → cmp y z ≤ 0 → cmp x z ≤ 0)
    (hrange : ∀ x y, -9223372036854775808 < cmp x y ∧
      cmp x y < 9223372036854775808) :
    (HeapM.HeapSorted arr cmp).Perm arr ∧
    (HeapM.HeapSorted arr cmp).Pairwise (fun x y => cmp x y ≤ 0) := by
  have hfun : (fun a b => HeapM.wrap64 (-cmp a b)) = fun a b : T => -cmp a b := by
    funext a b
    have h := hrange a b
    exact HeapM.wrap64_eq (-cmp a b) (by omega) (by omega)
  have rflip : ∀ x y : T, 0 ≤ -cmp x y ↔ -cmp y x ≤ 0 := by
    intro x y
    have h := hflip y x
    constructor
    · intro h1
      have h2 : cmp x y ≤ 0 := by omega
      have h3 := h.mpr h2
      omega
    · intro h1
      have h2 : 0 ≤ cmp y x := by omega
      have h3 := h.mp h2
      omega
  have rtrans : ∀ x y z : T, -cmp x y ≤ 0 → -cmp y z ≤ 0 → -cmp x z ≤ 0 := by
    intro x y z h1 h2
    have hxy : 0 ≤ cmp x y := by omega
    have hyz : 0 ≤ cmp y z := by omega
    have h3 : cmp y x ≤ 0 := (hflip x y).mp hxy
    have h4 : cmp z y ≤ 0 := (hflip y z).mp hyz
    have h5 : cmp z x ≤ 0 := htrans z y x h4 h3
    have h6 : 0 ≤ cmp x z := (hflip x z).mpr h5
    omega
  unfold HeapM.HeapSorted
  by_cases hlen : arr.length ≤ 1
  · rw [if_pos hlen]
    refine ⟨List.Perm.refl arr, ?_⟩
    rcases arr with _ | ⟨x, _ | ⟨y, t⟩⟩
    · exact List.Pairwise.nil
    · simp
    · simp at hlen
  · rw [if_neg hlen, hfun]
    have h2 : 2 ≤ arr.length := by omega
    obtain ⟨lenH, permH, heapH⟩ := HeapM.AdjustHeap_spec (fun a b => -cmp a b)
      rflip rtrans arr.length arr (le_refl _)
    have hone : arr.length - 1 + 1 = arr.length := by omega
    obtain ⟨lenS, permS, sortedS⟩ := HeapM.sortLoop_spec (fun a b => -cmp a b)
      rflip rtrans (arr.length - 1)
      (HeapM.AdjustHeap (fun a b => -cmp a b) arr.length arr)
      (by rw [lenH]; omega)
      (by rw [hone]; exact heapH)
      (by
        intro u v hu huv hv
        rw [lenH] at hv
        exact absurd hv (by omega))
      (by
        intro u v hu hv hvlen
        rw [lenH] at hvlen
        exact absurd hvlen (by omega))
    refine ⟨permS.trans permH, ?_⟩
    rw [List.pairwise_iff_getElem]
    intro u v hu hv huv
    have hvd : v < (HeapM.AdjustHeap (fun a b => -cmp a b) arr.length arr).length := by
      rw [lenS] at hv
      exact hv
    have hs := sortedS u v huv hvd
    rw [← HeapM.getD_eq_get_of_lt _ u hu, ← HeapM.getD_eq_get_of_lt _ v hv]
    have hs2 : -cmp ((HeapM.sortLoop (fun a b => -cmp a b) (arr.length - 1)
        (HeapM.AdjustHeap (fun a b => -cmp a b) arr.length arr)).getD v default)
        ((HeapM.sortLoop (fun a b => -cmp a b) (arr.length - 1)
        (HeapM.AdjustHeap (fun a b => -cmp a b) arr.length arr)).getD u default) ≤ 0 := hs
    exact (hflip _ _).mp (by omega)

/-- Witness for C6: sorting `[2, 0, 1]` over `Fin 3` with the (small,
non-wrapping) difference comparator yields a sorted permutation. -/
theorem C6_heapsort_correct_witness :
    (HeapM.HeapSorted [(2 : Fin 3), 0, 1] HeapM.cmpFin3).Perm [(2 : Fin 3), 0, 1] ∧
    (HeapM.HeapSorted [(2 : Fin 3), 0, 1] HeapM.cmpFin3).Pairwise
      (fun x y => HeapM.cmpFin3 x y ≤ 0) :=
  C6_heapsort_correct HeapM.cmpFin3 [2, 0, 1] (by decide) (by decide) (by decide)

/-- C7.  B+ tree duplicate-key update: on every well-formed tree whose
comparator is a consistent three-way total-order comparison, executing
`Insert(k, v)` then `Insert(k, v')` leaves `Find(k) = (v', true)`, and the
tree holds exactly one entry whose key compares equal to `k` — the second
insert hits the duplicate branch of `leafNode.insert`, which overwrites
`values[i]` in place instead of creating a second slot. -/
theorem C7_bptree_duplicate_insert {K V : Type} (t : BPTreeM.BPTree K V) (k : K)
    (v v' : V)
    (hwf : BPTreeM.wfT t = true)
    (hflip : ∀ a b, 0 ≤ t.compare a b ↔ t.compare b a ≤ 0)
    (hlt₁ : ∀ a b c, t.compare a b ≤ 0 → t.compare b c < 0 → t.compare a c < 0)
    (hlt₂ : ∀ a b c, t.compare a b < 0 → t.compare b c ≤ 0 → t.compare a c < 0) :
    BPTreeM.Find (BPTreeM.Insert (BPTreeM.Insert t k v) k v') k = some v' ∧
    BPTreeM.countKey t.compare k
      (BPTreeM.entriesT (BPTreeM.Insert (BPTreeM.Insert t k v) k v')) = 1 := by
  obtain ⟨hwf1, hent1, hcmp1⟩ := BPTreeM.Insert_tree_spec t k v hflip hlt₁ hlt₂ hwf
  have hflip1 : ∀ a b, 0 ≤ (BPTreeM.Insert t k v).compare a b ↔
      (BPTreeM.Insert t k v).compare b a ≤ 0 := by
    rw [hcmp1]
    exact hflip
  have hlt₁1 : ∀ a b c, (BPTreeM.Insert t k v).compare a b ≤ 0 →
      (BPTreeM.Insert t k v).compare b c < 0 →
      (BPTreeM.Insert t k v).compare a c < 0 := by
    rw [hcmp1]
    exact hlt₁
  have hlt₂1 : ∀ a b c, (BPTreeM.Insert t k v).compare a b < 0 →
      (BPTreeM.Insert t k v).compare b c ≤ 0 →
      (BPTreeM.Insert t k v).compare a c < 0 := by
    rw [hcmp1]
    exact hlt₂
  obtain ⟨hwf2, hent2, hcmp2⟩ := BPTreeM.Insert_tree_spec (BPTreeM.Insert t k v) k v'
    hflip1 hlt₁1 hlt₂1 hwf1
  have hflip2 : ∀ a b,
      0 ≤ (BPTreeM.Insert (BPTreeM.Insert t k v) k v').compare a b ↔
      (BPTreeM.Insert (BPTreeM.Insert t k v) k v').compare b a ≤ 0 := by
    rw [hcmp2, hcmp1]
    exact hflip
  have hlt₁2 : ∀ a b c,
      (BPTreeM.Insert (BPTreeM.Insert t k v) k v').compare a b ≤ 0 →
      (BPTreeM.Insert (BPTreeM.Insert t k v) k v').compare b c < 0 →
      (BPTreeM.Insert (BPTreeM.Insert t k v) k v').compare a c < 0 := by
    rw [hcmp2, hcmp1]
    exact hlt₁
  have hlt₂2 : ∀ a b c,
      (BPTreeM.Insert (BPTreeM.Insert t k v) k v').compare a b < 0 →
      (BPTreeM.Insert (BPTreeM.Insert t k v) k v').compare b c ≤ 0 →
      (BPTreeM.Insert (BPTreeM.Insert t k v) k v').compare a c < 0 := by
    rw [hcmp2, hcmp1]
    exact hlt₂
  constructor
  · rw [BPTreeM.Find_spec_tree (BPTreeM.Insert (BPTreeM.Insert t k v) k v') k
      hflip2 hlt₁2 hlt₂2 hwf2]
    rw [hent2, hcmp2, hcmp1]
    exact BPTreeM.specFind_specInsert hflip k v' _
  · rw [hent2, hcmp1]
    refine BPTreeM.countKey_specInsert hflip hlt₁ hlt₂ k v' _ ?_
    have hpw := BPTreeM.entriesT_pairwise (BPTreeM.Insert t k v) hlt₁1 hlt₂1 hwf1
    rw [hcmp1] at hpw
    exact hpw

/-- Witness for C7: on the tree holding keys 10, 20, 30 (order 3, integer
comparator), inserting value 7 then value 9 at key 20 leaves `Find 20 = 9`
and exactly one entry for key 20. -/
theorem C7_bptree_duplicate_insert_witness :
    BPTreeM.wfT (BPTreeM.runIntTree 3 [10, 20, 30] []) = true ∧
    (BPTreeM.Find (BPTreeM.Insert (BPTreeM.Insert
        (BPTreeM.runIntTree 3 [10, 20, 30] []) 20 7) 20 9) 20 = some 9 ∧
      BPTreeM.countKey (BPTreeM.runIntTree 3 [10, 20, 30] []).compare 20
        (BPTreeM.entriesT (BPTreeM.Insert (BPTreeM.Insert
          (BPTreeM.runIntTree 3 [10, 20, 30] []) 20 7) 20 9)) = 1) :=
  ⟨by decide,
    C7_bptree_duplicate_insert (BPTreeM.runIntTree 3 [10, 20, 30] []) 20 7 9
      (by decide) BPTreeM.intCmp_flip BPTreeM.intCmp_lt₁ BPTreeM.intCmp_lt₂⟩
